import Mathlib

/-!
The dmenu matching engine, selection set and history log.

A shallow embedding of the core of `dmenu.c` (with the settings of `config.h`):
the fuzzy and token matchers, the multi-select slot array and the history file
write-back, followed by theorems about them.

Modelling conventions.
* A C string is the list of its characters before the terminating NUL.
* The doubly linked match list (`matches`/`matchend`, `left`/`right`) is the list of
  its nodes from head to tail; `appenditem` adds a node at the tail.
* `double` distances are idealised as elements of a linearly ordered field `K`, and
  the C library `log` is a parameter `ln`; the C library `qsort` is a parameter too.
* The history file is the list of its characters, `none` when the file is absent;
  failing library calls, on which the program dies, are left out. A function that
  can read or write outside an array returns an `Option`, `none` standing for
  such an access.
* The pointers into the match list (`prev`, `curr`, `next`, `sel`) are positions in
  the list, `none` being the null pointer.
* `int` and `unsigned int` are 32 bits wide: a value is an integer, and the
  conversions `asInt` and `asUnsigned` reduce it where the C expression does.
-/

namespace Dmenu

/-! ## Strings and the comparison primitives -/

/-- C string, without its terminating NUL. -/
abbrev CStr := List Char

/-- The libc `strncmp`/`strncasecmp` family, up to the sign of the result:
compare at most `n` characters after mapping each through `f`. -/
def strncmpWith (f : Char → Char) : CStr → CStr → Nat → Int
  | _, _, 0 => 0
  | [], [], _ + 1 => 0
  | [], _ :: _, _ + 1 => -1
  | _ :: _, [], _ + 1 => 1
  | a :: as, b :: bs, n + 1 =>
    if f a = f b then strncmpWith f as bs n
    else if (f a).toNat < (f b).toNat then -1 else 1

/-- libc `strncmp`. -/
def strncmp (a b : CStr) (n : Nat) : Int := strncmpWith id a b n

/-- libc `strncasecmp` (C locale). -/
def strncasecmp (a b : CStr) (n : Nat) : Int := strncmpWith Char.toLower a b n

/-- libc `strcmp`: compare up to and including the terminating NUL. -/
def strcmp (a b : CStr) : Int := strncmpWith id a b (a.length + 1)

/-- The function pointer `fstrncmp`: `strncmp` by default, `strncasecmp` after `-i`. -/
def fstrncmp (icase : Bool) (a b : CStr) (n : Nat) : Int :=
  if icase then strncasecmp a b n else strncmp a b n

/-- libc `strstr`: the first suffix of `s` that starts with `sub`, `none` for NULL. -/
def strstr : CStr → CStr → Option CStr
  | [], sub => if sub = [] then some [] else none
  | c :: s, sub => if strncmp (c :: s) sub sub.length = 0 then some (c :: s) else strstr s sub

/-- libc `strcasestr`: `strstr` ignoring case. -/
def strcasestr : CStr → CStr → Option CStr
  | [], sub => if sub = [] then some [] else none
  | c :: s, sub =>
    if strncasecmp (c :: s) sub sub.length = 0 then some (c :: s) else strcasestr s sub

/-- The source's `cistrstr`: try every non-empty suffix of `s`. -/
def cistrstr : CStr → CStr → Option CStr
  | [], _ => none
  | c :: s, sub =>
    if strncasecmp (c :: s) sub sub.length = 0 then some (c :: s) else cistrstr s sub

/-- The function pointer `fstrstr` as `match` sees it: `strcasestr` when a JSON source
is loaded, otherwise `cistrstr` after `-i`, otherwise `strstr`. -/
def fstrstr (json icase : Bool) (s sub : CStr) : Option CStr :=
  if json then strcasestr s sub else if icase then cistrstr s sub else strstr s sub

/-- The character map under which `fstrncmp` compares. -/
def cmpFold (icase : Bool) : Char → Char := if icase then Char.toLower else id

/-- The character map under which `fstrstr` searches. -/
def strFold (json icase : Bool) : Char → Char := if json || icase then Char.toLower else id

/-! ## Items and the match list -/

/-- The fields of `struct item` that the matchers read or write; `left`/`right` are
the position of the node in the match list. -/
structure Item (K : Type) where
  text : CStr
  hp : Bool
  distance : K
  id : Nat

/-- The source's `appenditem`: link `item` after the current tail. -/
def appenditem {K : Type} (item : Item K) (list : List (Item K)) : List (Item K) :=
  list ++ [item]

/-! ## Fuzzy matching -/

/-- The source's `compare_distance` (both pointers non-null). -/
def compare_distance {K : Type} [LinearOrderedField K] (da db : Item K) : Int :=
  if da.distance = db.distance then 0 else if da.distance < db.distance then -1 else 1

/-- The inner loop of `fuzzymatch` over the item text from index `i` on, with the
pattern pointer `pidx` and the start index `sidx`; returns `(sidx, eidx)`, where
`eidx = -1` when the text ends before the query is consumed. -/
def fuzzyscan (icase : Bool) (text : CStr) : CStr → Nat → Nat → Int → Int × Int
  | [], _, _, sidx => (sidx, -1)
  | c :: cs, i, pidx, sidx =>
    if fstrncmp icase (text.drop pidx) [c] 1 = 0 then
      let sidx1 : Int := if sidx = -1 then (i : Int) else sidx
      if pidx + 1 = text.length then (sidx1, (i : Int))
      else fuzzyscan icase text cs (i + 1) (pidx + 1) sidx1
    else fuzzyscan icase text cs (i + 1) pidx sidx

/-- The distance assigned to a matched item. -/
def fuzzydistance {K : Type} [LinearOrderedField K] (ln : ℕ → K) (hp : Bool)
    (sidx eidx : Int) (text_len : Nat) : K :=
  (if hp then 0 else 1) * (1 + ln (sidx + 2).toNat + ((eidx - sidx - (text_len : Int) : Int) : K))

/-- The first loop of `fuzzymatch`: walk through all items, carrying the match list
built so far and `number_of_matches`. -/
def fuzzyloop {K : Type} [LinearOrderedField K] (ln : ℕ → K) (icase : Bool) (text : CStr) :
    List (Item K) → List (Item K) × Nat → List (Item K) × Nat
  | [], st => st
  | it :: rest, (ms, n) =>
    if text.length ≠ 0 then
      let r := fuzzyscan icase text it.text 0 0 (-1)
      if r.2 ≠ -1 then
        fuzzyloop ln icase text rest
          (appenditem { it with distance := fuzzydistance ln it.hp r.1 r.2 text.length } ms, n + 1)
      else fuzzyloop ln icase text rest (ms, n)
    else fuzzyloop ln icase text rest (appenditem it ms, n)

/-- The source's `fuzzymatch`: scan, then sort the matches with `qsort` and
`compare_distance` and relink them. Returns the new match list. -/
def fuzzymatch {K : Type} [LinearOrderedField K] (ln : ℕ → K)
    (qsort : List (Item K) → (Item K → Item K → Int) → List (Item K))
    (icase : Bool) (items : List (Item K)) (text : CStr) : List (Item K) :=
  let st := fuzzyloop ln icase text items ([], 0)
  if st.2 ≠ 0 then
    let fuzzymatches := st.1.take st.2
    (qsort fuzzymatches compare_distance).foldl (fun ms it => appenditem it ms) []
  else st.1

/-- What the C standard promises of `qsort` called with `compare_distance`: the result
is a rearrangement of the array in which no element compares greater than a later one. -/
def QsortSorts {K : Type} [LinearOrderedField K]
    (qsort : List (Item K) → (Item K → Item K → Int) → List (Item K)) : Prop :=
  ∀ l, (qsort l compare_distance).Perm l ∧
    (qsort l compare_distance).Pairwise (fun a b => compare_distance a b ≤ 0)

/-- A `qsort` that keeps equal elements in their array order (insertion sort). -/
def qsortStable {K : Type} (l : List (Item K)) (cmp : Item K → Item K → Int) : List (Item K) :=
  l.insertionSort (fun a b => cmp a b ≤ 0)

/-- A `qsort` that puts equal elements in the reverse of their array order. -/
def qsortTiesReversed {K : Type} (l : List (Item K)) (cmp : Item K → Item K → Int) :
    List (Item K) :=
  l.reverse.insertionSort (fun a b => cmp a b ≤ 0)

/-! ## Token matching -/

/-- The `strtok(buf, " ")` loop of `match`: the maximal runs of characters other than
`delim`, in order; `cur` holds the characters of the token being read, last first. -/
def strtokLoop (delim : Char) : CStr → CStr → List CStr
  | cur, [] => if cur = [] then [] else [cur.reverse]
  | cur, c :: cs =>
    if c = delim then
      if cur = [] then strtokLoop delim [] cs else cur.reverse :: strtokLoop delim [] cs
    else strtokLoop delim (c :: cur) cs

/-- The token vector `tokv` that `match` builds from the query. -/
def tokv (text : CStr) : List CStr := strtokLoop ' ' [] text

/-- The four partial lists of `match`: `matches_` is the source's `matches`. -/
structure Buckets (K : Type) where
  matches_ : List (Item K)
  lhpprefix : List (Item K)
  lprefix : List (Item K)
  lsubstr : List (Item K)

/-- The item loop of `match`, with `tokv` the tokens and `text` the raw query. -/
def matchloop {K : Type} (json icase : Bool) (text : CStr) (tokv : List CStr) :
    List (Item K) → Buckets K → Buckets K
  | [], b => b
  | item :: rest, b =>
    if tokv.all (fun tok => (fstrstr json icase item.text tok).isSome) = false then
      matchloop json icase text tokv rest b
    else if tokv.length = 0 ∨ fstrncmp icase text item.text (text.length + 1) = 0 then
      matchloop json icase text tokv rest { b with matches_ := appenditem item b.matches_ }
    else if item.hp = true ∧ fstrncmp icase (tokv.headD []) item.text (tokv.headD []).length = 0 then
      matchloop json icase text tokv rest { b with lhpprefix := appenditem item b.lhpprefix }
    else if fstrncmp icase (tokv.headD []) item.text (tokv.headD []).length = 0 then
      matchloop json icase text tokv rest { b with lprefix := appenditem item b.lprefix }
    else
      matchloop json icase text tokv rest { b with lsubstr := appenditem item b.lsubstr }

/-- Linking one partial list behind the match list, as done three times at the end
of `match`. -/
def linklist {K : Type} (ms l : List (Item K)) : List (Item K) :=
  if l.isEmpty = false then (if ms.isEmpty = false then ms ++ l else l) else ms

/-- The source's `match`: `fuzzymatch` when `fuzzy` is set, the token matcher
otherwise. Returns the new match list. -/
def match_ {K : Type} [LinearOrderedField K] (fuzzy : Bool) (ln : ℕ → K)
    (qsort : List (Item K) → (Item K → Item K → Int) → List (Item K))
    (json icase : Bool) (items : List (Item K)) (text : CStr) : List (Item K) :=
  if fuzzy then fuzzymatch ln qsort icase items text
  else
    let b := matchloop json icase text (tokv text) items ⟨[], [], [], []⟩
    linklist (linklist (linklist b.matches_ b.lhpprefix) b.lprefix) b.lsubstr

/-! ## Selection set -/

/-- The source's `issel`: is `id` stored in some slot of `selid`? -/
def issel (selid : List Int) (id : Nat) : Bool :=
  selid.any (fun x => decide (x = (id : Int)))

/-- The first loop of the select branch: overwrite the first slot holding `-1`;
`none` when the loop ends without finding one. -/
def reuseslot : List Int → Int → Option (List Int)
  | [], _ => none
  | x :: xs, id => if x = -1 then some (id :: xs) else (reuseslot xs id).map (fun r => x :: r)

/-- The Ctrl+Return branch of `keypress` with `sel` the item of id `id`: the new
contents of `selid`. -/
def toggle (selid : List Int) (id : Nat) : List Int :=
  if issel selid id then selid.map (fun x => if x = (id : Int) then -1 else x)
  else
    match reuseslot selid (id : Int) with
    | some s => s
    | none => selid ++ [(id : Int)]

/-! ## History file -/

/-- The `getline` loop of `loadhistory`: the lines of the file, each with its
newline, the last one possibly without; `cur` holds the line being read, last
character first. -/
def getlines : List Char → List Char → List CStr
  | cur, [] => if cur = [] then [] else [cur.reverse]
  | cur, c :: cs =>
    if c = '\n' then (c :: cur).reverse :: getlines [] cs else getlines (c :: cur) cs

/-- What `strtok(line, "\n")` leaves in the buffer that starts at `line`: leading
newlines are skipped, not removed, and the first newline after the token becomes
the terminator. -/
def strtokLine (line : CStr) : CStr :=
  line.takeWhile (fun c => c = '\n') ++
    (line.dropWhile (fun c => c = '\n')).takeWhile (fun c => c ≠ '\n')

/-- What the loop of `loadhistory` stores for the lines of a file, in order: each
line as `strtok(line, "\n")` leaves it; a missing file has no line. -/
def readrecords (file : Option (List Char)) : List CStr :=
  match file with
  | none => []
  | some content => (getlines [] content).map strtokLine

/-- The loop of `loadhistory` over the lines that `getline` returns, with `ptr` the
value of `sizeof(char *)`. The static counter `cap` grows by `64 * sizeof(char *)`
and is handed to `realloc` as a size in bytes, so that the array `history` has room
for `cap / ptr` pointers, while the test `cap == histsz` compares it with the number
of records. `none` is a store `history[histsz] = line` outside the array. -/
def loadloop (ptr : Nat) : List CStr → Nat → List CStr → Option (List CStr)
  | [], _, history => some history
  | line :: rest, cap, history =>
    if history.length < (if cap = history.length then cap + 64 * ptr else cap) / ptr then
      loadloop ptr rest (if cap = history.length then cap + 64 * ptr else cap)
        (history ++ [strtokLine line])
    else none

/-- The source's `loadhistory`: the records read into `history`; a missing file
gives the empty history, `none` is a store outside the array. -/
def loadhistory (ptr : Nat) (file : Option (List Char)) : Option (List CStr) :=
  match file with
  | none => some []
  | some content => loadloop ptr (getlines [] content) 0 []

/-- The source's `savehistory`: the history file after the call, given the file
before it. The file is rewritten unless no file is configured, `maxhist` is 0 or
`input` is empty. -/
def savehistory (histfile : Bool) (maxhist : Nat) (histnodup : Int) (history : List CStr)
    (input : CStr) (file : Option (List Char)) : Option (List Char) :=
  if histfile = false ∨ maxhist = 0 ∨ input.length = 0 then file
  else
    let histsz := history.length
    let first := if histsz < maxhist then 0 else histsz - maxhist
    let body := ((history.drop first).map (fun r => r ++ ['\n'])).flatten
    if histnodup = 0 ∨ (histsz > 0 ∧ strcmp input (history.getLastD []) ≠ 0) then
      some (body ++ input)
    else some body

/-! ## Vocabulary of the statements -/

/-- The candidate a match-list node stands for: its text, priority flag and id
(everything but the distance scratch field). -/
def Item.key {K : Type} (it : Item K) : CStr × Bool × Nat := (it.text, it.hp, it.id)

/-- The query is a subsequence of the candidate text under the case rule of
`fstrncmp`. -/
def IsSubseq (icase : Bool) (query text : CStr) : Prop :=
  (query.map (cmpFold icase)).Sublist (text.map (cmpFold icase))

instance (icase : Bool) (query text : CStr) : Decidable (IsSubseq icase query text) := by
  unfold IsSubseq
  infer_instance

/-- The node that one round of the first loop of `fuzzymatch` appends for `it` under a
non-empty query: the item with its distance set, `none` when the scan fails. -/
def fuzzynode {K : Type} [LinearOrderedField K] (ln : ℕ → K) (icase : Bool) (text : CStr)
    (it : Item K) : Option (Item K) :=
  if (fuzzyscan icase text it.text 0 0 (-1)).2 ≠ -1 then
    some { it with
      distance := fuzzydistance ln it.hp (fuzzyscan icase text it.text 0 0 (-1)).1
        (fuzzyscan icase text it.text 0 0 (-1)).2 text.length }
  else none

/-- A `qsort` that, beyond sorting, keeps elements that compare equal in their array
order (which the C standard does not require). -/
def QsortStable {K : Type} [LinearOrderedField K]
    (qsort : List (Item K) → (Item K → Item K → Int) → List (Item K)) : Prop :=
  QsortSorts qsort ∧
    ∀ l d, (qsort l compare_distance).filter (fun m => decide (m.distance = d)) =
      l.filter (fun m => decide (m.distance = d))

/-- The store of the fuzzy scenario: apple, apricot, banana, none of them a priority
item, with ids 0, 1, 2. -/
def fruitItems (K : Type) [Zero K] : List (Item K) :=
  [⟨"apple".toList, false, 0, 0⟩, ⟨"apricot".toList, false, 0, 1⟩,
    ⟨"banana".toList, false, 0, 2⟩]

/-- Every token of the query occurs as a substring of the candidate text, under the
case rule of `fstrstr`. -/
def TokMatched {K : Type} (json icase : Bool) (text : CStr) (it : Item K) : Prop :=
  ∀ tok ∈ tokv text, (tok.map (strFold json icase)) <:+: (it.text.map (strFold json icase))

/-- The candidate text equals the whole raw query, under the case rule of `fstrncmp`. -/
def IsExact {K : Type} (icase : Bool) (text : CStr) (it : Item K) : Prop :=
  text.map (cmpFold icase) = it.text.map (cmpFold icase)

/-- The candidate text starts with the first token of the query, under the case rule
of `fstrncmp`. -/
def StartsFirst {K : Type} (icase : Bool) (text : CStr) (it : Item K) : Prop :=
  ((tokv text).headD []).map (cmpFold icase) <+: it.text.map (cmpFold icase)

instance {K : Type} (json icase : Bool) (text : CStr) (it : Item K) :
    Decidable (TokMatched json icase text it) := by
  unfold TokMatched
  infer_instance

instance {K : Type} (icase : Bool) (text : CStr) (it : Item K) :
    Decidable (IsExact icase text it) := by
  unfold IsExact
  infer_instance

instance {K : Type} (icase : Bool) (text : CStr) (it : Item K) :
    Decidable (StartsFirst icase text it) := by
  unfold StartsFirst
  infer_instance

/-- Bucket 1 of the token matcher: matched candidates whose text equals the raw query. -/
def bucket1 {K : Type} (json icase : Bool) (text : CStr) (items : List (Item K)) :
    List (Item K) :=
  items.filter (fun it => decide (TokMatched json icase text it ∧ IsExact icase text it))

/-- Bucket 2: the other matched priority candidates whose text starts with the first
token. -/
def bucket2 {K : Type} (json icase : Bool) (text : CStr) (items : List (Item K)) :
    List (Item K) :=
  items.filter (fun it => decide (TokMatched json icase text it ∧ ¬ IsExact icase text it ∧
    it.hp = true ∧ StartsFirst icase text it))

/-- Bucket 3: the other matched candidates whose text starts with the first token. -/
def bucket3 {K : Type} (json icase : Bool) (text : CStr) (items : List (Item K)) :
    List (Item K) :=
  items.filter (fun it => decide (TokMatched json icase text it ∧ ¬ IsExact icase text it ∧
    it.hp = false ∧ StartsFirst icase text it))

/-- Bucket 4: all remaining matched candidates. -/
def bucket4 {K : Type} (json icase : Bool) (text : CStr) (items : List (Item K)) :
    List (Item K) :=
  items.filter (fun it => decide (TokMatched json icase text it ∧ ¬ IsExact icase text it ∧
    ¬ StartsFirst icase text it))

/-- The store of the token scenario: foo, foobar, barfoo, with ids 0, 1, 2. -/
def fooItems (K : Type) [Zero K] : List (Item K) :=
  [⟨"foo".toList, false, 0, 0⟩, ⟨"foobar".toList, false, 0, 1⟩, ⟨"barfoo".toList, false, 0, 2⟩]

/-- A store of two candidates, `a` and a single space, with ids 0 and 1. -/
def spaceItems (K : Type) [Zero K] : List (Item K) :=
  [⟨"a".toList, false, 0, 0⟩, ⟨" ".toList, false, 0, 1⟩]

/-! ## Priority items -/

/-- The source's `arrayhas`: 1 when some string of `list` agrees with `item` over the
length of the shorter of the two under `fstrncmp`, 0 otherwise. -/
def arrayhas (icase : Bool) : List CStr → CStr → Int
  | [], _ => 0
  | p :: rest, item =>
    let len1 := p.length
    let len2 := item.length
    if fstrncmp icase p item (if len1 > len2 then len2 else len1) = 0 then 1
    else arrayhas icase rest item

/-! ## History navigation -/

/-- The state that `navhistory` reads and writes: the loaded records (`histsz` is
their number), the position cursor, the static buffer `def`, the query text and
the text cursor. -/
structure Hist where
  history : List CStr
  histpos : Nat
  def_ : CStr
  text : CStr
  cursor : Nat

/-- The state right after `loadhistory`: `histpos = histsz`; `none` when
`loadhistory` stores outside the array. -/
def histinit (ptr : Nat) (file : Option (List Char)) (text : CStr) (cursor : Nat) :
    Option Hist :=
  (loadhistory ptr file).map (fun history =>
    { history := history, histpos := history.length, def_ := [], text := text,
      cursor := cursor })

/-- The tail of `navhistory`: copy at most `BUFSIZ - 1` characters of `p` into `text`
and put the cursor behind them (`match` is then run on the new text). -/
def settext (bufsiz : Nat) (h : Hist) (p : CStr) : Hist :=
  { h with text := p.take (min p.length (bufsiz - 1)), cursor := min p.length (bufsiz - 1) }

/-- The source's `navhistory`, with `bufsiz` the libc constant `BUFSIZ`; `none` when a
record would be read outside `history[0 .. histsz - 1]`. -/
def navhistory (bufsiz : Nat) (dir : Int) (h : Hist) : Option Hist :=
  if h.history = [] ∨ h.histpos + 1 = 0 then some h
  else
    let h1 : Hist :=
      if h.history.length = h.histpos then { h with def_ := h.text.take bufsiz } else h
    if dir = 1 then
      if h1.histpos < h1.history.length - 1 then
        match h1.history[h1.histpos + 1]? with
        | none => none
        | some p => some (settext bufsiz { h1 with histpos := h1.histpos + 1 } p)
      else if h1.histpos = h1.history.length - 1 then
        some (settext bufsiz { h1 with histpos := h1.histpos + 1 } h1.def_)
      else some h1
    else if dir = -1 then
      if h1.histpos > 0 then
        match h1.history[h1.histpos - 1]? with
        | none => none
        | some p => some (settext bufsiz { h1 with histpos := h1.histpos - 1 } p)
      else some h1
    else some h1

/-- A sequence of `navhistory` calls, one per direction in the list. -/
def navsteps (bufsiz : Nat) : List Int → Hist → Option Hist
  | [], h => some h
  | d :: ds, h =>
    match navhistory bufsiz d h with
    | none => none
    | some h1 => navsteps bufsiz ds h1

/-! ## The page window -/

/-- The layout settings read by `calcoffsets`: the `unsigned int` values `lines` and
`columns`, the `int` values `bh` (row height), `mw` (menu width), `promptw` and
`inputw`, and the display width plus padding that the macro `TEXTW` computes for a
string. -/
structure Layout where
  lines : Nat
  columns : Nat
  bh : Int
  mw : Int
  promptw : Int
  inputw : Int
  textw : CStr → Nat

/-- Conversion of a value to `unsigned int`, 32 bits wide: its residue modulo
`2 ^ 32`. -/
def asUnsigned (x : Int) : Int := x % 4294967296

/-- Conversion of a value to `int`, 32 bits wide in two's complement. -/
def asInt (x : Int) : Int :=
  if x % 4294967296 < 2147483648 then x % 4294967296 else x % 4294967296 - 4294967296

/-- The value of the macro `TEXTW` at a string, `drw_fontset_getwidth(drw, X) + lrpad`:
an `unsigned int`, the type that `drw.h` gives to `drw_fontset_getwidth`. -/
def TEXTW (L : Layout) (s : CStr) : Int := asUnsigned (L.textw s)

/-- The match list with the page window and the query: `prev`, `curr`, `next` and
`sel` point into `matches_` by position, `none` being the null pointer. -/
structure Menu (K : Type) where
  matches_ : List (Item K)
  prev : Option Nat
  curr : Option Nat
  next : Option Nat
  sel : Option Nat
  text : CStr
  cursor : Nat

/-- The pointer `matches`: the head of the match list. -/
def headptr {K : Type} (ms : List (Item K)) : Option Nat :=
  if ms.isEmpty then none else some 0

/-- The pointer `matchend`: the tail of the match list. -/
def tailptr {K : Type} (ms : List (Item K)) : Option Nat :=
  if ms.isEmpty then none else some (ms.length - 1)

/-- The budget `n` of `calcoffsets`, an `int`. With an unsigned operand each
operation is done in `unsigned int`, and the assignment converts the result to
`int`: `lines * columns * bh` in grid mode,
`mw - (promptw + inputw + TEXTW("<") + TEXTW(">"))` otherwise. -/
def budget (L : Layout) : Int :=
  if L.lines > 0 then
    asInt (asUnsigned (asUnsigned ((L.lines : Int) * (L.columns : Int)) * asUnsigned L.bh))
  else
    asInt (asUnsigned (asUnsigned L.mw -
      asUnsigned (asUnsigned (asUnsigned (L.promptw + L.inputw) + TEXTW L ['<']) +
        TEXTW L ['>'])))

/-- What one item adds to the running sum in `calcoffsets`, the value of
`(lines > 0) ? bh : MIN(TEXTW(text), n)`, an `unsigned int`; `MIN(A, B)` is the
macro `((A) < (B) ? (A) : (B))` of `util.h`, and its comparison is one of unsigned
values. -/
def itemcost {K : Type} (L : Layout) (x : Item K) : Int :=
  if L.lines > 0 then asUnsigned L.bh
  else if TEXTW L x.text < asUnsigned (budget L) then TEXTW L x.text
  else asUnsigned (budget L)

/-- The update `i += cost` of the `int` `i` by an unsigned cost: the sum is formed in
`unsigned int` and converted back to `int`. -/
def addcost (i cost : Int) : Int := asInt (asUnsigned (asUnsigned i + cost))

/-- The first loop of `calcoffsets`, over the items from `next` on: `i` is the running
sum and `pos` the position of `next`. -/
def nextloop {K : Type} (L : Layout) : List (Item K) → Int → Nat → Option Nat
  | [], _, _ => none
  | x :: rest, i, pos =>
    if addcost i (itemcost L x) > budget L then some pos
    else nextloop L rest (addcost i (itemcost L x)) (pos + 1)

/-- The second loop of `calcoffsets`, over the items left of `prev`, nearest first:
`i` is the running sum and `pos` the position of `prev`. -/
def prevloop {K : Type} (L : Layout) : List (Item K) → Int → Nat → Nat
  | [], _, pos => pos
  | x :: rest, i, pos =>
    if addcost i (itemcost L x) > budget L then pos
    else prevloop L rest (addcost i (itemcost L x)) (pos - 1)

/-- The source's `calcoffsets`: recompute `next` and `prev` from `curr`. -/
def calcoffsets {K : Type} (L : Layout) (m : Menu K) : Menu K :=
  match m.curr with
  | none => { m with next := none, prev := none }
  | some c =>
    { m with
      next := nextloop L (m.matches_.drop c) 0 c
      prev := some (prevloop L (m.matches_.take c).reverse 0 c) }

/-- The end of `match` and of `fuzzymatch`: install the new match list, set
`curr = sel = matches` and call `calcoffsets`. -/
def rebuild {K : Type} (L : Layout) (ms : List (Item K)) (text : CStr) (cursor : Nat) :
    Menu K :=
  calcoffsets L
    { matches_ := ms, prev := none, curr := headptr ms, next := none, sel := headptr ms,
      text := text, cursor := cursor }

/-- The source's `recalculatenumbers` without the formatting: the pair
`(numer, denom)` printed as `numer/denom`. The walk from `matchend` along `left` is
the walk over the rest of the reversed list. -/
def recalculatenumbers {K : Type} (items ms : List (Item K)) : Nat × Nat :=
  let numer :=
    match ms.reverse with
    | [] => 0
    | _ :: lefts => lefts.foldl (fun numer _ => numer + 1) 1
  let denom := items.foldl (fun denom _ => denom + 1) 0
  (numer, denom)

/-! ## Navigation keys -/

/-- Is the byte a UTF-8 continuation byte: `(c & 0xc0) == 0x80`. -/
def isCont (c : Char) : Bool := c.toNat &&& 0xc0 == 0x80

/-- The source's `nextrune(-1)` for a cursor that is not 0, as a loop over the
position `n`, which starts at `cursor - 1`. -/
def nextruneBack (text : CStr) : Nat → Nat
  | 0 => 0
  | n + 1 => if isCont (text.getD (n + 1) (Char.ofNat 0)) then nextruneBack text n else n + 1

/-- The source's `nextrune(+1)` as a loop over the bytes from position `n` on, which
starts at `cursor + 1`; the terminating NUL is not a continuation byte. -/
def nextruneFwd : CStr → Nat → Nat
  | [], n => n
  | c :: cs, n => if isCont c then nextruneFwd cs (n + 1) else n

/-- The loop `while (next && (curr = curr->right)) calcoffsets();` of the `XK_End`
branch; `rest` holds the items right of `curr`. -/
def endloop {K : Type} (L : Layout) : List (Item K) → Menu K → Menu K
  | [], m => if m.next.isSome then { m with curr := none } else m
  | _ :: rest, m =>
    if m.next.isSome then
      endloop L rest (calcoffsets L { m with curr := m.curr.map (fun c => c + 1) })
    else m

/-- The items right of the node a pointer points to. -/
def rightOf {K : Type} (ms : List (Item K)) (p : Option Nat) : List (Item K) :=
  match p with
  | none => []
  | some c => ms.drop (c + 1)

/-- The `for` loop of the grid branch of `XK_Left`: `k` rounds are left, `t` is
`tmpsel`; `none` when the loop returns from `keypress`. -/
def leftloop (curr : Option Nat) : Nat → Nat → Bool → Option (Nat × Bool)
  | 0, t, off => some (t, off)
  | k + 1, t, off =>
    if t = 0 then none
    else leftloop curr k (t - 1) (if some t = curr then true else off)

/-- The `for` loop of the grid branch of `XK_Right`, for a match list of `len` nodes. -/
def rightloop (len : Nat) (next : Option Nat) : Nat → Nat → Bool → Option (Nat × Bool)
  | 0, t, off => some (t, off)
  | k + 1, t, off =>
    if t + 1 < len then rightloop len next k (t + 1) (if some (t + 1) = next then true else off)
    else none

/-- The navigation keys of `keypress`, pressed without a modifier. -/
inductive Key where
  | home
  | endKey
  | pageNext
  | pagePrior
  | up
  | down
  | left
  | right

/-- The `XK_Up` branch. -/
def keyUp {K : Type} (L : Layout) (m : Menu K) : Menu K :=
  match m.sel with
  | none => m
  | some s =>
    if s = 0 then m
    else if some s = m.curr then calcoffsets L { m with sel := some (s - 1), curr := m.prev }
    else { m with sel := some (s - 1) }

/-- The `XK_Down` branch. -/
def keyDown {K : Type} (L : Layout) (m : Menu K) : Menu K :=
  match m.sel with
  | none => m
  | some s =>
    if s + 1 < m.matches_.length then
      if some (s + 1) = m.next then calcoffsets L { m with sel := some (s + 1), curr := m.next }
      else { m with sel := some (s + 1) }
    else m

/-- The navigation branches of the source's `keypress` (the last `switch`), for a key
pressed without a modifier. -/
def keypress {K : Type} (L : Layout) (key : Key) (m : Menu K) : Menu K :=
  match key with
  | Key.endKey =>
    if m.cursor < m.text.length then { m with cursor := m.text.length }
    else if m.next.isSome then
      let a := calcoffsets L { m with curr := tailptr m.matches_ }
      let b := calcoffsets L { a with curr := a.prev }
      { endloop L (rightOf b.matches_ b.curr) b with sel := tailptr m.matches_ }
    else { m with sel := tailptr m.matches_ }
  | Key.home =>
    if m.sel = headptr m.matches_ then { m with cursor := 0 }
    else calcoffsets L { m with sel := headptr m.matches_, curr := headptr m.matches_ }
  | Key.left =>
    if L.columns > 1 then
      match m.sel with
      | none => m
      | some s =>
        match leftloop m.curr L.lines s false with
        | none => m
        | some (t, off) =>
          if off then calcoffsets L { m with sel := some t, curr := m.prev }
          else { m with sel := some t }
    else if m.cursor > 0 ∧ (m.sel = none ∨ m.sel = some 0 ∨ L.lines > 0) then
      { m with cursor := nextruneBack m.text (m.cursor - 1) }
    else if L.lines > 0 then m
    else keyUp L m
  | Key.up => keyUp L m
  | Key.pageNext =>
    if m.next.isSome then calcoffsets L { m with sel := m.next, curr := m.next } else m
  | Key.pagePrior =>
    if m.prev.isSome then calcoffsets L { m with sel := m.prev, curr := m.prev } else m
  | Key.right =>
    if L.columns > 1 then
      match m.sel with
      | none => m
      | some s =>
        match rightloop m.matches_.length m.next L.lines s false with
        | none => m
        | some (t, off) =>
          if off then calcoffsets L { m with sel := some t, curr := m.next }
          else { m with sel := some t }
    else if m.cursor < m.text.length then
      { m with cursor := nextruneFwd (m.text.drop (m.cursor + 1)) (m.cursor + 1) }
    else if L.lines > 0 then m
    else keyDown L m
  | Key.down => keyDown L m

/-! ## Commit -/

/-- The test `sel && sel->id == selid[i]` of the print loop. -/
def ishighlighted {K : Type} (sel : Option (Item K)) (x : Int) : Bool :=
  match sel with
  | none => false
  | some s => decide ((s.id : Int) = x)

/-- The print loop of the `XK_Return` branch: the lines put out for the slots of
`selid`; `none` when `items[selid[i]]` is outside the store. -/
def putselected {K : Type} (items : List (Item K)) (sel : Option (Item K)) :
    List Int → Option (List CStr)
  | [] => some []
  | x :: xs =>
    if x ≠ -1 ∧ ishighlighted sel x = false then
      match (if x < 0 then none else items[x.toNat]?) with
      | none => none
      | some it => (putselected items sel xs).map (fun r => it.text :: r)
    else putselected items sel xs

/-- The lines put out by the `XK_Return` branch without Control, for an item from
standard input (no JSON value): the selected items, then `sel->text` when an item is
highlighted and Shift is not held, `text` otherwise. -/
def commitlines {K : Type} (items : List (Item K)) (selid : List Int) (sel : Option (Item K))
    (text : CStr) (shift : Bool) : Option (List CStr) :=
  (putselected items sel selid).map (fun r => r ++
    [match sel with
      | none => text
      | some s => if shift then text else s.text])

/-! ## Vocabulary of the later statements -/

/-- The 1-based rank, counted from the head of the match list, of the last item on
the current page `[curr, next)`; 0 when there is no page. -/
def pageLastRank {K : Type} (m : Menu K) : Nat :=
  match m.curr with
  | none => 0
  | some _ =>
    match m.next with
    | some j => j
    | none => m.matches_.length

/-- A grid of one line and one column with rows 20 units high. -/
def gridOne : Layout := ⟨1, 1, 20, 800, 0, 0, fun s => 10 * s.length⟩

/-- The ids selected after a sequence of toggles, in the order in which they were
selected: the toggle of a selected id removes it, the toggle of any other id puts it
last. -/
def selectionOrder (ids : List Nat) : List Nat :=
  ids.foldl (fun acc id => if id ∈ acc then acc.erase id else acc ++ [id]) []

/-- A store of four candidates a, b, c, d with ids 0, 1, 2, 3. -/
def letterItems (K : Type) [Zero K] : List (Item K) :=
  [⟨"a".toList, false, 0, 0⟩, ⟨"b".toList, false, 0, 1⟩, ⟨"c".toList, false, 0, 2⟩,
    ⟨"d".toList, false, 0, 3⟩]

/-- A grid of one line and 268435456 columns with rows 16 units high: the product
`lines * columns * bh` is `2 ^ 32`. -/
def gridWide : Layout := ⟨1, 268435456, 16, 800, 0, 0, fun s => 10 * s.length⟩

/-- A strip 10 units wide, narrower than its two arrows of 10 units each. -/
def stripNarrow : Layout := ⟨0, 0, 20, 10, 0, 0, fun s => 10 * s.length⟩

/-- A strip 800 units wide. -/
def stripWide : Layout := ⟨0, 0, 20, 800, 0, 0, fun s => 10 * s.length⟩

/-- The budget in the words of the specification, in exact arithmetic:
`lines * columns * bh` in grid mode, the menu width less the prompt, the input field
and the two arrows in strip mode. -/
def specBudget (L : Layout) : Int :=
  if L.lines > 0 then ((L.lines * L.columns : Nat) : Int) * L.bh
  else L.mw - (L.promptw + L.inputw + TEXTW L ['<'] + TEXTW L ['>'])

/-- The cost of an item in the words of the specification: the row height in grid
mode, the smaller of the display width and the budget in strip mode. -/
def specCost {K : Type} (L : Layout) (x : Item K) : Int :=
  if L.lines > 0 then L.bh else min (TEXTW L x.text) (specBudget L)

/-- The number of leading items of `l` that the running sum of the costs, started at
`i`, takes in before an item makes it exceed the budget. -/
def takecount {K : Type} (L : Layout) : List (Item K) → Int → Nat
  | [], _ => 0
  | x :: rest, i =>
    if i + specCost L x > specBudget L then 0 else takecount L rest (i + specCost L x) + 1

/-- The sum of the costs of the items at the positions `a`, ..., `b - 1` of the match
list. -/
def pagecost {K : Type} (L : Layout) (ms : List (Item K)) (a b : Nat) : Int :=
  (((ms.drop a).take (b - a)).map (specCost L)).sum

/-- The layout is one in which no sum of `calcoffsets` leaves the range of `int`: the
budget of the specification lies in `[0, 2 ^ 30)`, and so does the row height in grid
mode. -/
def InRange (L : Layout) : Prop :=
  0 ≤ specBudget L ∧ specBudget L < 1073741824 ∧ (L.lines > 0 → 0 ≤ L.bh ∧ L.bh < 1073741824)

/-- The budget admits at least one item and no sum wraps: the layout is in range, and
in grid mode there is at least one column and rows have a positive height. -/
def Admits (L : Layout) : Prop :=
  InRange L ∧ (L.lines > 0 → 1 ≤ L.columns ∧ 0 < L.bh)

/-- The item `x` alone does not exceed the budget: the test of `calcoffsets` fails for
it at the start of a page. -/
def admitsItem {K : Type} (L : Layout) (x : Item K) : Prop :=
  ¬ (addcost 0 (itemcost L x) > budget L)

/-- The pointers are nodes: when the match list is not empty, `curr` and `prev` are
nodes of it and `next` is null or a node of it. -/
def NodesOK {K : Type} (m : Menu K) : Prop :=
  m.matches_ ≠ [] →
    ∃ c p, m.curr = some c ∧ c < m.matches_.length ∧ m.prev = some p ∧
      p < m.matches_.length ∧ ∀ j, m.next = some j → j < m.matches_.length

/-- The page window is the one `calcoffsets` computes for `curr`, and the highlighted
item lies on the page: either the match list is empty and all four pointers are
null, or `curr` and `sel` are nodes with `curr ≤ sel < next`. -/
def WindowInv {K : Type} (L : Layout) (m : Menu K) : Prop :=
  (m.matches_ = [] ∧ m.curr = none ∧ m.sel = none ∧ m.prev = none ∧ m.next = none) ∨
  ∃ c s, m.curr = some c ∧ c < m.matches_.length ∧
    m.next = nextloop L (m.matches_.drop c) 0 c ∧
    m.prev = some (prevloop L (m.matches_.take c).reverse 0 c) ∧
    m.sel = some s ∧ c ≤ s ∧ s < m.matches_.length ∧ ∀ j, m.next = some j → s < j

/-- The page-window invariant of the claim: `curr` is not null when the match list is
not empty, `prev` and `next` are null or nodes of the match list, and `sel` is null or
a node reached from `curr` by right links before `next`. -/
def PageOK {K : Type} (m : Menu K) : Prop :=
  (m.matches_ ≠ [] → m.curr ≠ none) ∧
  (∀ p, m.prev = some p → p < m.matches_.length) ∧
  (∀ j, m.next = some j → j < m.matches_.length) ∧
  (∀ s, m.sel = some s →
    ∃ c, m.curr = some c ∧ c ≤ s ∧ s < m.matches_.length ∧ ∀ j, m.next = some j → s < j)

/-! ## Facts about the comparison primitives -/

theorem strncmpWith_eq_zero (f : Char → Char) :
    ∀ (a b : CStr) (n : Nat),
      strncmpWith f a b n = 0 ↔ (a.map f).take n = (b.map f).take n
  | _, _, 0 => by simp [strncmpWith]
  | [], [], _ + 1 => by simp [strncmpWith]
  | [], _ :: _, _ + 1 => by simp [strncmpWith]
  | _ :: _, [], _ + 1 => by simp [strncmpWith]
  | a :: as, b :: bs, n + 1 => by
    by_cases h : f a = f b
    · simp [strncmpWith, h, strncmpWith_eq_zero f as bs n]
    · by_cases h2 : (f a).toNat < (f b).toNat <;> simp [strncmpWith, h, h2]

theorem fstrncmp_eq_zero (icase : Bool) (a b : CStr) (n : Nat) :
    fstrncmp icase a b n = 0 ↔
      (a.map (cmpFold icase)).take n = (b.map (cmpFold icase)).take n := by
  cases icase <;> simp [fstrncmp, strncmp, strncasecmp, cmpFold, strncmpWith_eq_zero]

theorem take_succ_length_eq {α : Type} (a b : List α) :
    a.take (a.length + 1) = b.take (a.length + 1) ↔ a = b := by
  induction a generalizing b with
  | nil => cases b <;> simp
  | cons x xs ih => cases b <;> simp [ih]

theorem take_length_eq_iff_prefix {α : Type} (a b : List α) :
    a.take a.length = b.take a.length ↔ a <+: b := by
  induction a generalizing b with
  | nil => simp
  | cons x xs ih =>
    cases b with
    | nil => simp
    | cons y ys =>
      have := ih ys
      simp only [List.take_length] at this
      simp [List.cons_prefix_cons, this]

/-- Calling `fstrncmp` over one more character than the first string has: full equality
under the case rule. -/
theorem fstrncmp_full (icase : Bool) (a b : CStr) :
    fstrncmp icase a b (a.length + 1) = 0 ↔ a.map (cmpFold icase) = b.map (cmpFold icase) := by
  rw [fstrncmp_eq_zero]
  have := take_succ_length_eq (a.map (cmpFold icase)) (b.map (cmpFold icase))
  simpa using this

/-- Calling `fstrncmp` over the length of the first string is the prefix test. -/
theorem fstrncmp_prefix (icase : Bool) (a b : CStr) :
    fstrncmp icase a b a.length = 0 ↔ a.map (cmpFold icase) <+: b.map (cmpFold icase) := by
  rw [fstrncmp_eq_zero]
  have := take_length_eq_iff_prefix (a.map (cmpFold icase)) (b.map (cmpFold icase))
  simpa using this

theorem strcmp_eq_zero (a b : CStr) : strcmp a b = 0 ↔ a = b := by
  unfold strcmp
  rw [strncmpWith_eq_zero]
  have := take_succ_length_eq (a.map id) (b.map id)
  simpa using this

/-! ## The fuzzy scan -/

theorem fstrncmp_char (icase : Bool) (s : CStr) (c : Char) :
    fstrncmp icase s [c] 1 = 0 ↔ (s.map (cmpFold icase)).head? = some (cmpFold icase c) := by
  rw [fstrncmp_eq_zero]
  cases s <;> simp [eq_comm]

theorem cons_sublist_cons_ne {α : Type} {a b : α} {l₁ l₂ : List α} (h : a ≠ b) :
    (a :: l₁).Sublist (b :: l₂) ↔ (a :: l₁).Sublist l₂ := by
  constructor
  · intro hs
    cases hs with
    | cons _ hs => exact hs
    | cons₂ _ hs => exact absurd rfl h
  · intro hs
    exact List.Sublist.cons _ hs

/-- The greedy scan consumes the rest of the query exactly when that rest is a
subsequence of the rest of the item text. -/
theorem fuzzyscan_ne_iff (icase : Bool) (text : CStr) :
    ∀ (cs : CStr) (i pidx : Nat) (sidx : Int), pidx < text.length →
      ((fuzzyscan icase text cs i pidx sidx).2 ≠ -1 ↔
        ((text.drop pidx).map (cmpFold icase)).Sublist (cs.map (cmpFold icase)))
  | [], i, pidx, sidx, h => by
    simp [fuzzyscan]
    omega
  | c :: cs, i, pidx, sidx, h => by
    obtain ⟨a, rest, hd⟩ : ∃ a rest, text.drop pidx = a :: rest := by
      cases hd : text.drop pidx with
      | nil => simp at hd; omega
      | cons a rest => exact ⟨a, rest, rfl⟩
    have hrest : text.drop (pidx + 1) = rest := by
      have := congrArg (List.drop 1) hd
      simpa [List.drop_drop, Nat.add_comm] using this
    unfold fuzzyscan
    by_cases hm : fstrncmp icase (text.drop pidx) [c] 1 = 0
    · have hac : cmpFold icase a = cmpFold icase c := by
        rw [fstrncmp_char, hd] at hm
        simpa using hm
      simp only [hm, if_true]
      by_cases hl : pidx + 1 = text.length
      · have hr : rest = [] := by
          rw [← hrest]; simp; omega
        simp [hl, hd, hr, hac]
      · simp only [hl, if_false]
        rw [fuzzyscan_ne_iff icase text cs (i + 1) (pidx + 1) _ (by omega), hrest, hd]
        simp [hac, List.cons_sublist_cons]
    · have hac : cmpFold icase a ≠ cmpFold icase c := by
        intro hac
        apply hm
        rw [fstrncmp_char, hd]
        simp [hac]
      simp only [hm, if_false]
      rw [fuzzyscan_ne_iff icase text cs (i + 1) pidx sidx h, hd]
      simp only [List.map_cons]
      exact (cons_sublist_cons_ne hac).symm

/-- Bounds on what the greedy scan returns: a start index that is not negative and
an end index at least `text_len - 1` positions after it. -/
theorem fuzzyscan_bounds (icase : Bool) (text : CStr) :
    ∀ (cs : CStr) (i pidx : Nat) (sidx : Int),
      ((sidx = -1 ∧ pidx = 0) ∨ (0 ≤ sidx ∧ sidx + pidx ≤ i)) →
      (fuzzyscan icase text cs i pidx sidx).2 ≠ -1 →
      0 ≤ (fuzzyscan icase text cs i pidx sidx).1 ∧
        (fuzzyscan icase text cs i pidx sidx).1 + text.length ≤
          (fuzzyscan icase text cs i pidx sidx).2 + 1
  | [], i, pidx, sidx, _, h => by simp [fuzzyscan] at h
  | c :: cs, i, pidx, sidx, hinv, h => by
    unfold fuzzyscan at h ⊢
    by_cases hm : fstrncmp icase (text.drop pidx) [c] 1 = 0
    · simp only [hm, if_true] at h ⊢
      by_cases hl : pidx + 1 = text.length
      · simp only [hl, if_true]
        split_ifs with hs
        · constructor
          · exact Int.ofNat_nonneg i
          · rcases hinv with ⟨_, hp⟩ | ⟨h0, _⟩
            · rw [← hl, hp]; simp
            · omega
        · rcases hinv with ⟨h1, _⟩ | ⟨h0, hle⟩
          · exact absurd h1 hs
          · exact ⟨h0, by rw [← hl]; push_cast; omega⟩
      · simp only [hl, if_false] at h ⊢
        refine fuzzyscan_bounds icase text cs (i + 1) (pidx + 1) _ ?_ h
        right
        split_ifs with hs
        · rcases hinv with ⟨_, hp⟩ | ⟨h0, _⟩
          · subst hp; constructor <;> push_cast <;> omega
          · omega
        · rcases hinv with ⟨h1, _⟩ | ⟨h0, hle⟩
          · exact absurd h1 hs
          · constructor <;> push_cast <;> omega
    · simp only [hm, if_false] at h ⊢
      refine fuzzyscan_bounds icase text cs (i + 1) pidx sidx ?_ h
      rcases hinv with hh | ⟨h0, hle⟩
      · exact Or.inl hh
      · right; constructor <;> push_cast <;> omega

/-! ## Structure of `fuzzymatch` -/

theorem foldl_appenditem {K : Type} (l acc : List (Item K)) :
    l.foldl (fun ms it => appenditem it ms) acc = acc ++ l := by
  induction l generalizing acc with
  | nil => simp
  | cons x xs ih =>
    rw [List.foldl_cons, ih]
    simp [appenditem]

theorem fuzzyloop_empty_text {K : Type} [LinearOrderedField K] (ln : ℕ → K) (icase : Bool)
    (items ms : List (Item K)) (n : Nat) :
    fuzzyloop ln icase [] items (ms, n) = (ms ++ items, n) := by
  induction items generalizing ms with
  | nil => simp [fuzzyloop]
  | cons x xs ih => simp [fuzzyloop, ih, appenditem]

theorem fuzzyloop_eq {K : Type} [LinearOrderedField K] (ln : ℕ → K) (icase : Bool)
    (text : CStr) (htext : text ≠ []) (items ms : List (Item K)) (n : Nat) :
    fuzzyloop ln icase text items (ms, n) =
      (ms ++ items.filterMap (fuzzynode ln icase text),
        n + (items.filterMap (fuzzynode ln icase text)).length) := by
  have hlen : text.length ≠ 0 := by simpa using htext
  induction items generalizing ms n with
  | nil => simp [fuzzyloop]
  | cons x xs ih =>
    by_cases hs : (fuzzyscan icase text x.text 0 0 (-1)).2 = -1
    · simp [fuzzyloop, hlen, hs, ih, fuzzynode, List.filterMap_cons]
    · simp [fuzzyloop, hlen, hs, ih, fuzzynode, List.filterMap_cons, appenditem]
      omega

/-- With a non-empty query `fuzzymatch` hands the scanned nodes to `qsort` and keeps
what comes back. -/
theorem fuzzymatch_eq {K : Type} [LinearOrderedField K] (ln : ℕ → K)
    (qsort : List (Item K) → (Item K → Item K → Int) → List (Item K))
    (icase : Bool) (items : List (Item K)) (text : CStr) (htext : text ≠ []) :
    fuzzymatch ln qsort icase items text =
      if (items.filterMap (fuzzynode ln icase text)).length = 0 then []
      else qsort (items.filterMap (fuzzynode ln icase text)) compare_distance := by
  unfold fuzzymatch
  rw [fuzzyloop_eq ln icase text htext]
  by_cases h : (items.filterMap (fuzzynode ln icase text)).length = 0
  · have h0 : items.filterMap (fuzzynode ln icase text) = [] := List.length_eq_zero.mp h
    simp [h0]
  · simp [h, foldl_appenditem]

theorem fuzzymatch_perm {K : Type} [LinearOrderedField K] (ln : ℕ → K)
    (qsort : List (Item K) → (Item K → Item K → Int) → List (Item K))
    (hq : QsortSorts qsort)
    (icase : Bool) (items : List (Item K)) (text : CStr) (htext : text ≠ []) :
    (fuzzymatch ln qsort icase items text).Perm (items.filterMap (fuzzynode ln icase text)) := by
  rw [fuzzymatch_eq ln qsort icase items text htext]
  split_ifs with h
  · rw [List.length_eq_zero.mp h]
  · exact (hq _).1

theorem fuzzymatch_sorted {K : Type} [LinearOrderedField K] (ln : ℕ → K)
    (qsort : List (Item K) → (Item K → Item K → Int) → List (Item K))
    (hq : QsortSorts qsort)
    (icase : Bool) (items : List (Item K)) (text : CStr) (htext : text ≠ []) :
    (fuzzymatch ln qsort icase items text).Pairwise (fun a b => a.distance ≤ b.distance) := by
  rw [fuzzymatch_eq ln qsort icase items text htext]
  split_ifs with h
  · exact List.Pairwise.nil
  · refine (hq _).2.imp ?_
    intro a b hab
    unfold compare_distance at hab
    split_ifs at hab with h1 h2
    · exact le_of_eq h1
    · exact le_of_lt h2
    · omega

theorem fuzzynode_keys {K : Type} [LinearOrderedField K] (ln : ℕ → K) (icase : Bool)
    (text : CStr) (htext : text ≠ []) (items : List (Item K)) :
    (items.filterMap (fuzzynode ln icase text)).map Item.key =
      (items.filter (fun it => decide (IsSubseq icase text it.text))).map Item.key := by
  have hlen : 0 < text.length := List.length_pos.mpr htext
  induction items with
  | nil => simp
  | cons x xs ih =>
    have hx := fuzzyscan_ne_iff icase text x.text 0 0 (-1) hlen
    simp only [List.drop_zero] at hx
    by_cases hs : (fuzzyscan icase text x.text 0 0 (-1)).2 ≠ -1
    · have hsub : IsSubseq icase text x.text := hx.mp hs
      have hn : fuzzynode ln icase text x = some { x with
          distance := fuzzydistance ln x.hp (fuzzyscan icase text x.text 0 0 (-1)).1
            (fuzzyscan icase text x.text 0 0 (-1)).2 text.length } := by
        simp [fuzzynode, hs]
      rw [List.filterMap_cons_some hn, List.filter_cons_of_pos (by simpa using hsub)]
      simp [ih, Item.key]
    · have hsub : ¬ IsSubseq icase text x.text := fun h => hs (hx.mpr h)
      have hn : fuzzynode ln icase text x = none := by
        simp only [fuzzynode, hs, if_false]
      rw [List.filterMap_cons_none hn, List.filter_cons_of_neg (by simpa using hsub)]
      exact ih

/-! ## Two implementations of `qsort` -/

theorem compare_distance_le_zero {K : Type} [LinearOrderedField K] (a b : Item K) :
    compare_distance a b ≤ 0 ↔ a.distance ≤ b.distance := by
  unfold compare_distance
  split_ifs with h1 h2
  · simp [h1]
  · simp [le_of_lt h2]
  · have : ¬ a.distance ≤ b.distance := fun hle => h1 (le_antisymm hle (not_lt.mp h2))
    simp [this]

theorem insertionSort_compare_sorts {K : Type} [LinearOrderedField K] (l : List (Item K)) :
    (l.insertionSort (fun a b => compare_distance a b ≤ 0)).Perm l ∧
      (l.insertionSort (fun a b => compare_distance a b ≤ 0)).Pairwise
        (fun a b => compare_distance a b ≤ 0) := by
  haveI : IsTotal (Item K) (fun a b => compare_distance a b ≤ 0) :=
    ⟨fun a b => by
      simp only [compare_distance_le_zero]
      exact le_total _ _⟩
  haveI : IsTrans (Item K) (fun a b => compare_distance a b ≤ 0) :=
    ⟨fun a b c => by
      simp only [compare_distance_le_zero]
      exact le_trans⟩
  exact ⟨List.perm_insertionSort _ l, List.sorted_insertionSort _ l⟩

theorem qsortStable_sorts {K : Type} [LinearOrderedField K] :
    QsortSorts (qsortStable : List (Item K) → (Item K → Item K → Int) → List (Item K)) :=
  fun l => insertionSort_compare_sorts l

theorem qsortTiesReversed_sorts {K : Type} [LinearOrderedField K] :
    QsortSorts (qsortTiesReversed : List (Item K) → (Item K → Item K → Int) → List (Item K)) :=
  fun l => ⟨(insertionSort_compare_sorts l.reverse).1.trans (List.reverse_perm l),
    (insertionSort_compare_sorts l.reverse).2⟩

theorem orderedInsert_filter_distance {K : Type} [LinearOrderedField K] (d : K) (a : Item K)
    (s : List (Item K)) :
    (List.orderedInsert (fun a b => compare_distance a b ≤ 0) a s).filter
        (fun m => decide (m.distance = d)) =
      (a :: s).filter (fun m => decide (m.distance = d)) := by
  induction s with
  | nil => simp
  | cons b s ih =>
    by_cases hr : compare_distance a b ≤ 0
    · simp [List.orderedInsert, hr]
    · have hlt : b.distance < a.distance := by
        rw [compare_distance_le_zero] at hr
        exact not_le.mp hr
      simp only [List.orderedInsert, hr, if_false]
      by_cases ha : a.distance = d
      · have hb : ¬ b.distance = d := fun hb => by rw [ha, hb] at hlt; exact lt_irrefl _ hlt
        rw [List.filter_cons_of_neg (by simpa using hb), ih]
        simp [List.filter_cons, ha, hb]
      · rw [List.filter_cons, ih]
        simp [List.filter_cons, ha]

theorem qsortStable_filter_distance {K : Type} [LinearOrderedField K] (d : K)
    (l : List (Item K)) :
    (qsortStable l compare_distance).filter (fun m => decide (m.distance = d)) =
      l.filter (fun m => decide (m.distance = d)) := by
  unfold qsortStable
  induction l with
  | nil => simp
  | cons a l ih =>
    rw [List.insertionSort, orderedInsert_filter_distance, List.filter_cons, List.filter_cons, ih]

/-! ## Claims about fuzzy matching -/

/-- Claim C1. In fuzzy mode with a non-empty query (and a `qsort` that sorts), the match
list, read as candidates, is a rearrangement of exactly the candidates of the store
whose text contains the query as a subsequence under the case rule: a candidate of
the store is in the list iff the query is a subsequence of its text, every node comes
from the store, and no candidate is listed twice when the store ids are distinct. -/
theorem C1_fuzzy_matches_iff_subsequence {K : Type} [LinearOrderedField K] (ln : ℕ → K)
    (qsort : List (Item K) → (Item K → Item K → Int) → List (Item K))
    (hq : QsortSorts qsort) (icase : Bool) (items : List (Item K)) (text : CStr)
    (htext : text ≠ []) :
    ((fuzzymatch ln qsort icase items text).map Item.key).Perm
        ((items.filter (fun it => decide (IsSubseq icase text it.text))).map Item.key) ∧
      (∀ it ∈ items, it.key ∈ (fuzzymatch ln qsort icase items text).map Item.key ↔
        IsSubseq icase text it.text) ∧
      (∀ m ∈ fuzzymatch ln qsort icase items text,
        ∃ it ∈ items, m.key = it.key ∧ IsSubseq icase text it.text) ∧
      ((items.map Item.id).Nodup →
        ((fuzzymatch ln qsort icase items text).map Item.id).Nodup) := by
  have hperm : ((fuzzymatch ln qsort icase items text).map Item.key).Perm
      ((items.filter (fun it => decide (IsSubseq icase text it.text))).map Item.key) := by
    rw [← fuzzynode_keys ln icase text htext items]
    exact (fuzzymatch_perm ln qsort hq icase items text htext).map _
  refine ⟨hperm, ?_, ?_, ?_⟩
  · intro it hit
    rw [hperm.mem_iff]
    constructor
    · intro hmem
      obtain ⟨it2, hit2, hkey⟩ := List.mem_map.mp hmem
      have hsub : IsSubseq icase text it2.text := by
        simpa using (List.mem_filter.mp hit2).2
      have htxt : it2.text = it.text := congrArg Prod.fst hkey
      rwa [htxt] at hsub
    · intro hsub
      exact List.mem_map.mpr ⟨it, List.mem_filter.mpr ⟨hit, by simpa using hsub⟩, rfl⟩
  · intro m hm
    have hmem : m.key ∈ (fuzzymatch ln qsort icase items text).map Item.key :=
      List.mem_map.mpr ⟨m, hm, rfl⟩
    rw [hperm.mem_iff] at hmem
    obtain ⟨it, hit, hkey⟩ := List.mem_map.mp hmem
    exact ⟨it, (List.mem_filter.mp hit).1, hkey.symm, by simpa using (List.mem_filter.mp hit).2⟩
  · intro hnd
    have hids : ∀ l : List (Item K), l.map Item.id = (l.map Item.key).map (fun k => k.2.2) := by
      intro l
      simp [Item.key, Function.comp_def]
    have hp2 := hperm.map (fun k : CStr × Bool × Nat => k.2.2)
    rw [← hids, ← hids] at hp2
    refine hp2.nodup_iff.mpr ?_
    exact (List.filter_sublist _).map Item.id |>.nodup hnd

/-- Witness of C1: the fruit store with the query `ap`. -/
theorem C1_fuzzy_matches_iff_subsequence_witness :
    ((fuzzymatch (fun n => (n : ℚ)) qsortStable false (fruitItems ℚ) "ap".toList).map
        Item.key).Perm
      (((fruitItems ℚ).filter
        (fun it => decide (IsSubseq false "ap".toList it.text))).map Item.key) :=
  (C1_fuzzy_matches_iff_subsequence (fun n => (n : ℚ)) qsortStable qsortStable_sorts false
    (fruitItems ℚ) "ap".toList (by decide)).1

theorem fruit_scan (icase : Bool) :
    fuzzyscan icase "ap".toList "apple".toList 0 0 (-1) = (0, 1) ∧
      fuzzyscan icase "ap".toList "apricot".toList 0 0 (-1) = (0, 1) ∧
      fuzzyscan icase "ap".toList "banana".toList 0 0 (-1) = (1, -1) := by
  cases icase <;> decide

/-- The nodes that the scan makes of the fruit store for the query `ap`: apple and
apricot, with the same distance. -/
theorem fruit_nodes {K : Type} [LinearOrderedField K] (ln : ℕ → K) (icase : Bool) :
    (fruitItems K).filterMap (fuzzynode ln icase "ap".toList) =
      [⟨"apple".toList, false, fuzzydistance ln false 0 1 2, 0⟩,
        ⟨"apricot".toList, false, fuzzydistance ln false 0 1 2, 1⟩] := by
  obtain ⟨h1, h2, h3⟩ := fruit_scan icase
  have e1 : ("ap".toList : CStr).length = 2 := by decide
  simp only [fruitItems, fuzzynode, List.filterMap_cons, List.filterMap_nil, h1, h2, h3, e1]
  simp

theorem fruit_reversed {K : Type} [LinearOrderedField K] (ln : ℕ → K) (icase : Bool) :
    fuzzymatch ln qsortTiesReversed icase (fruitItems K) "ap".toList =
      [⟨"apricot".toList, false, fuzzydistance ln false 0 1 2, 1⟩,
        ⟨"apple".toList, false, fuzzydistance ln false 0 1 2, 0⟩] := by
  rw [fuzzymatch_eq ln _ icase _ _ (by decide), fruit_nodes]
  simp [qsortTiesReversed, List.insertionSort, List.orderedInsert, compare_distance]

theorem fruit_distance {K : Type} [LinearOrderedField K] (ln : ℕ → K) :
    fuzzydistance ln false 0 1 2 = ln 2 := by
  simp [fuzzydistance]

/-- The order of matches of equal distance is the one the library sort gives them.
A `qsort` that sorts by distance but returns equal elements in reverse array order
is within what the C standard allows; with it the fruit store and the query `ap`,
where apple and apricot both get distance `ln 2`, give the match list apricot,
apple. -/
theorem fuzzymatch_ties_reversed :
    QsortSorts
        (qsortTiesReversed : List (Item ℝ) → (Item ℝ → Item ℝ → Int) → List (Item ℝ)) ∧
      (fuzzymatch (fun n => Real.log n) qsortTiesReversed false (fruitItems ℝ)
          "ap".toList).map Item.text = ["apricot".toList, "apple".toList] ∧
      (fuzzymatch (fun n => Real.log n) qsortTiesReversed false (fruitItems ℝ)
          "ap".toList).map Item.distance = [Real.log 2, Real.log 2] ∧
      (fuzzymatch (fun n => Real.log n) qsortTiesReversed false (fruitItems ℝ)
          "ap".toList).map Item.text ≠ ["apple".toList, "apricot".toList] := by
  refine ⟨qsortTiesReversed_sorts, ?_, ?_, ?_⟩
  · rw [fruit_reversed]
    rfl
  · rw [fruit_reversed, fruit_distance]
    simp
  · rw [fruit_reversed]
    decide

/-- The part of `fuzzymatch` around the sort keeps the input order: the array is
filled in input order, `compare_distance` has no tie-break and the list is relinked
in array order. So when `qsort` keeps elements that compare equal in their array
order, the matched candidates of any one distance appear in the match list in their
original input order, for every store and query, and the fruit store with the query
`ap` yields apple, apricot. -/
theorem fuzzymatch_ties_stable {K : Type} [LinearOrderedField K] (ln : ℕ → K)
    (qsort : List (Item K) → (Item K → Item K → Int) → List (Item K))
    (hq : QsortStable qsort) (icase : Bool) (items : List (Item K)) (text : CStr) :
    (∀ d : K,
      (((fuzzymatch ln qsort icase items text).filter
        (fun m => decide (m.distance = d))).map Item.key).Sublist (items.map Item.key)) ∧
      (fuzzymatch ln qsort icase (fruitItems K) "ap".toList).map Item.text =
        ["apple".toList, "apricot".toList] := by
  constructor
  · intro d
    by_cases htext : text = []
    · subst htext
      have : fuzzymatch ln qsort icase items [] = items := by
        simp [fuzzymatch, fuzzyloop_empty_text]
      rw [this]
      exact (List.filter_sublist _).map _
    · rw [fuzzymatch_eq ln qsort icase items text htext]
      split_ifs with h
      · simp
      · rw [hq.2]
        refine ((List.filter_sublist _).map Item.key).trans ?_
        rw [fuzzynode_keys ln icase text htext items]
        exact (List.filter_sublist _).map _
  · rw [fuzzymatch_eq ln qsort icase _ _ (by decide), fruit_nodes]
    simp only [List.length_cons, List.length_nil]
    rw [if_neg (by omega)]
    set M : List (Item K) :=
      [⟨"apple".toList, false, fuzzydistance ln false 0 1 2, 0⟩,
        ⟨"apricot".toList, false, fuzzydistance ln false 0 1 2, 1⟩] with hM
    have hfil := hq.2 M (fuzzydistance ln false 0 1 2)
    have hMf : M.filter (fun m => decide (m.distance = fuzzydistance ln false 0 1 2)) = M := by
      simp [hM]
    rw [hMf] at hfil
    have hlen : (qsort M compare_distance).length = M.length := (hq.1 M).1.length_eq
    have hsub : M.Sublist (qsort M compare_distance) := by
      have hs : ((qsort M compare_distance).filter
          (fun m => decide (m.distance = fuzzydistance ln false 0 1 2))).Sublist
          (qsort M compare_distance) := List.filter_sublist _
      rwa [hfil] at hs
    rw [← hsub.eq_of_length hlen.symm]
    rfl

/-- Insertion sort is a stable `qsort`: with it the fruit store gives apple,
apricot. -/
theorem fuzzymatch_ties_stable_fruit :
    (fuzzymatch (fun n => Real.log n) qsortStable false (fruitItems ℝ) "ap".toList).map
        Item.text = ["apple".toList, "apricot".toList] :=
  (fuzzymatch_ties_stable (fun n => Real.log n) qsortStable
    ⟨qsortStable_sorts, fun l d => qsortStable_filter_distance d l⟩ false (fruitItems ℝ)
    "ap".toList).2

/-- Claim C5. In fuzzy mode with a non-empty query (a `qsort` that sorts, and a `log`
with `0 < ln 2 ≤ ln n` for `n ≥ 2`): a matched priority candidate has distance 0; a
matched non-priority candidate has distance `1 + ln (start + 2) + (end - start -
query_length)` for the start and end found by the scan, with `end - start ≥
query_length - 1`, so its distance is at least `ln 2` and positive; and in the match
list no non-priority match stands before a priority match. -/
theorem C5_fuzzy_distance_and_priority {K : Type} [LinearOrderedField K] (ln : ℕ → K)
    (hln : ∀ n, 2 ≤ n → ln 2 ≤ ln n) (hln2 : 0 < ln 2)
    (qsort : List (Item K) → (Item K → Item K → Int) → List (Item K))
    (hq : QsortSorts qsort) (icase : Bool) (items : List (Item K)) (text : CStr)
    (htext : text ≠ []) :
    (∀ m ∈ fuzzymatch ln qsort icase items text,
      (m.hp = true → m.distance = 0) ∧
      (m.hp = false →
        m.distance = 1 + ln ((fuzzyscan icase text m.text 0 0 (-1)).1 + 2).toNat +
          (((fuzzyscan icase text m.text 0 0 (-1)).2 - (fuzzyscan icase text m.text 0 0 (-1)).1
            - (text.length : Int) : Int) : K) ∧
        0 ≤ (fuzzyscan icase text m.text 0 0 (-1)).1 ∧
        (text.length : Int) - 1 ≤
          (fuzzyscan icase text m.text 0 0 (-1)).2 - (fuzzyscan icase text m.text 0 0 (-1)).1 ∧
        ln 2 ≤ m.distance ∧ 0 < m.distance)) ∧
      (fuzzymatch ln qsort icase items text).Pairwise (fun a b => a.hp = false → b.hp = false) := by
  have hmem : ∀ m ∈ fuzzymatch ln qsort icase items text,
      (m.hp = true → m.distance = 0) ∧
      (m.hp = false →
        m.distance = 1 + ln ((fuzzyscan icase text m.text 0 0 (-1)).1 + 2).toNat +
          (((fuzzyscan icase text m.text 0 0 (-1)).2 - (fuzzyscan icase text m.text 0 0 (-1)).1
            - (text.length : Int) : Int) : K) ∧
        0 ≤ (fuzzyscan icase text m.text 0 0 (-1)).1 ∧
        (text.length : Int) - 1 ≤
          (fuzzyscan icase text m.text 0 0 (-1)).2 - (fuzzyscan icase text m.text 0 0 (-1)).1 ∧
        ln 2 ≤ m.distance ∧ 0 < m.distance) := by
    intro m hm
    rw [(fuzzymatch_perm ln qsort hq icase items text htext).mem_iff] at hm
    obtain ⟨it, _, hnode⟩ := List.mem_filterMap.mp hm
    unfold fuzzynode at hnode
    split_ifs at hnode with hs
    simp only [Option.some.injEq] at hnode
    subst hnode
    obtain ⟨hb1, hb2⟩ := fuzzyscan_bounds icase text it.text 0 0 (-1) (Or.inl ⟨rfl, rfl⟩) hs
    constructor
    · intro hhp
      simp only at hhp
      simp [fuzzydistance, hhp]
    · intro hhp
      simp only at hhp
      have hd : fuzzydistance ln it.hp (fuzzyscan icase text it.text 0 0 (-1)).1
          (fuzzyscan icase text it.text 0 0 (-1)).2 text.length =
          1 + ln ((fuzzyscan icase text it.text 0 0 (-1)).1 + 2).toNat +
          (((fuzzyscan icase text it.text 0 0 (-1)).2 - (fuzzyscan icase text it.text 0 0 (-1)).1
            - (text.length : Int) : Int) : K) := by
        simp [fuzzydistance, hhp]
      have h2 : 2 ≤ ((fuzzyscan icase text it.text 0 0 (-1)).1 + 2).toNat := by omega
      have hgap : (-1 : Int) ≤ (fuzzyscan icase text it.text 0 0 (-1)).2 -
          (fuzzyscan icase text it.text 0 0 (-1)).1 - (text.length : Int) := by omega
      have hgapK : (-1 : K) ≤ (((fuzzyscan icase text it.text 0 0 (-1)).2 -
          (fuzzyscan icase text it.text 0 0 (-1)).1 - (text.length : Int) : Int) : K) := by
        have := (Int.cast_le (R := K)).mpr hgap
        simpa using this
      have hge : ln 2 ≤ 1 + ln ((fuzzyscan icase text it.text 0 0 (-1)).1 + 2).toNat +
          (((fuzzyscan icase text it.text 0 0 (-1)).2 - (fuzzyscan icase text it.text 0 0 (-1)).1
            - (text.length : Int) : Int) : K) := by
        have := hln _ h2
        linarith
      refine ⟨hd, hb1, ?_, ?_, ?_⟩
      · dsimp only
        omega
      · show ln 2 ≤ fuzzydistance ln it.hp _ _ _
        rw [hd]; exact hge
      · show 0 < fuzzydistance ln it.hp _ _ _
        rw [hd]; exact lt_of_lt_of_le hln2 hge
  refine ⟨hmem, ?_⟩
  refine List.Pairwise.imp_of_mem ?_ (fuzzymatch_sorted ln qsort hq icase items text htext)
  intro a b ha hb hab hanp
  by_contra hbp
  have hbp2 : b.hp = true := by simpa using hbp
  have h0 := (hmem b hb).1 hbp2
  have hpos := ((hmem a ha).2 hanp).2.2.2.2
  rw [h0] at hab
  exact absurd hab (not_le.mpr hpos)

/-- Witness of C5: the real logarithm, insertion sort as `qsort`, the fruit store and
the query `ap`. -/
theorem C5_fuzzy_distance_and_priority_witness :
    (fuzzymatch (fun n => Real.log n) qsortStable false (fruitItems ℝ) "ap".toList).Pairwise
      (fun a b => a.hp = false → b.hp = false) :=
  (C5_fuzzy_distance_and_priority (fun n => Real.log n)
    (fun n hn => Real.log_le_log (by norm_num) (by exact_mod_cast hn))
    (by simpa using Real.log_pos (by norm_num : (1 : ℝ) < 2))
    qsortStable qsortStable_sorts false (fruitItems ℝ) "ap".toList (by decide)).2

/-! ## Structure of the token matcher -/

theorem strncmpWith_prefix (f : Char → Char) (s sub : CStr) :
    strncmpWith f s sub sub.length = 0 ↔ sub.map f <+: s.map f := by
  rw [strncmpWith_eq_zero, eq_comm]
  have := take_length_eq_iff_prefix (sub.map f) (s.map f)
  simpa using this

theorem strstr_isSome (s sub : CStr) : (strstr s sub).isSome ↔ sub <:+: s := by
  induction s with
  | nil => by_cases h : sub = [] <;> simp [strstr, h]
  | cons c s ih =>
    unfold strstr
    rw [List.infix_cons_iff]
    have hp := strncmpWith_prefix id (c :: s) sub
    simp only [List.map_id] at hp
    by_cases h : strncmp (c :: s) sub sub.length = 0
    · simp [h, hp.mp h]
    · have hn : ¬ sub <+: c :: s := fun hh => h (hp.mpr hh)
      simp [h, hn, ih]

theorem strcasestr_isSome (s sub : CStr) :
    (strcasestr s sub).isSome ↔ sub.map Char.toLower <:+: s.map Char.toLower := by
  induction s with
  | nil => by_cases h : sub = [] <;> simp [strcasestr, h]
  | cons c s ih =>
    unfold strcasestr
    rw [List.map_cons, List.infix_cons_iff]
    have hp := strncmpWith_prefix Char.toLower (c :: s) sub
    rw [List.map_cons] at hp
    by_cases h : strncasecmp (c :: s) sub sub.length = 0
    · simp [h, hp.mp h]
    · have hn : ¬ sub.map Char.toLower <+: c.toLower :: s.map Char.toLower :=
        fun hh => h (hp.mpr hh)
      simp [h, hn, ih]

theorem cistrstr_isSome (s sub : CStr) (hsub : sub ≠ []) :
    (cistrstr s sub).isSome ↔ sub.map Char.toLower <:+: s.map Char.toLower := by
  induction s with
  | nil => simp [cistrstr, hsub]
  | cons c s ih =>
    unfold cistrstr
    rw [List.map_cons, List.infix_cons_iff]
    have hp := strncmpWith_prefix Char.toLower (c :: s) sub
    rw [List.map_cons] at hp
    by_cases h : strncasecmp (c :: s) sub sub.length = 0
    · simp [h, hp.mp h]
    · have hn : ¬ sub.map Char.toLower <+: c.toLower :: s.map Char.toLower :=
        fun hh => h (hp.mpr hh)
      simp [h, hn, ih]

/-- For a non-empty needle `fstrstr` finds it exactly when it is a substring under
the case rule. -/
theorem fstrstr_isSome (json icase : Bool) (s sub : CStr) (hsub : sub ≠ []) :
    (fstrstr json icase s sub).isSome ↔
      sub.map (strFold json icase) <:+: s.map (strFold json icase) := by
  cases json <;> cases icase <;>
    simp [fstrstr, strFold, strstr_isSome, strcasestr_isSome, cistrstr_isSome _ _ hsub]

theorem strtokLoop_ne_nil (delim : Char) :
    ∀ (s cur : CStr), ∀ tok ∈ strtokLoop delim cur s, tok ≠ []
  | [], cur => by
    intro tok htok
    unfold strtokLoop at htok
    split_ifs at htok with h
    · simp at htok
    · simp only [List.mem_singleton] at htok
      subst htok
      simpa using h
  | c :: cs, cur => by
    intro tok htok
    unfold strtokLoop at htok
    split_ifs at htok with h1 h2
    · exact strtokLoop_ne_nil delim cs [] tok htok
    · rcases List.mem_cons.mp htok with h | h
      · subst h
        simpa using h2
      · exact strtokLoop_ne_nil delim cs [] tok h
    · exact strtokLoop_ne_nil delim cs (c :: cur) tok htok

theorem tokv_ne_nil (text : CStr) : ∀ tok ∈ tokv text, tok ≠ [] :=
  strtokLoop_ne_nil ' ' text []

theorem tokv_all_iff {K : Type} (json icase : Bool) (text : CStr) (it : Item K) :
    (tokv text).all (fun tok => (fstrstr json icase it.text tok).isSome) = true ↔
      TokMatched json icase text it := by
  rw [List.all_eq_true]
  unfold TokMatched
  constructor
  · intro h tok htok
    exact (fstrstr_isSome json icase it.text tok (tokv_ne_nil text tok htok)).mp (h tok htok)
  · intro h tok htok
    exact (fstrstr_isSome json icase it.text tok (tokv_ne_nil text tok htok)).mpr (h tok htok)

theorem linklist_eq {K : Type} (ms l : List (Item K)) : linklist ms l = ms ++ l := by
  unfold linklist
  cases l <;> cases ms <;> simp

theorem matchloop_no_tokens {K : Type} (json icase : Bool) (text : CStr)
    (items : List (Item K)) (b : Buckets K) :
    matchloop json icase text [] items b = { b with matches_ := b.matches_ ++ items } := by
  induction items generalizing b with
  | nil => simp [matchloop]
  | cons x xs ih => simp [matchloop, ih, appenditem]

theorem matchloop_eq {K : Type} (json icase : Bool) (text : CStr) (htok : tokv text ≠ [])
    (items : List (Item K)) (b : Buckets K) :
    matchloop json icase text (tokv text) items b =
      ⟨b.matches_ ++ bucket1 json icase text items,
        b.lhpprefix ++ bucket2 json icase text items,
        b.lprefix ++ bucket3 json icase text items,
        b.lsubstr ++ bucket4 json icase text items⟩ := by
  have hlen : (tokv text).length ≠ 0 := by simpa using htok
  induction items generalizing b with
  | nil => simp [matchloop, bucket1, bucket2, bucket3, bucket4]
  | cons x xs ih =>
    have hall := tokv_all_iff json icase text x
    have hex : fstrncmp icase text x.text (text.length + 1) = 0 ↔ IsExact icase text x :=
      fstrncmp_full icase text x.text
    have hst : fstrncmp icase ((tokv text).headD []) x.text ((tokv text).headD []).length = 0 ↔
        StartsFirst icase text x := fstrncmp_prefix icase _ x.text
    rw [matchloop]
    by_cases hM : TokMatched json icase text x
    · have hA : ¬ (tokv text).all (fun tok => (fstrstr json icase x.text tok).isSome) = false := by
        rw [hall.mpr hM]
        simp
      rw [if_neg hA]
      by_cases hE : IsExact icase text x
      · rw [if_pos (Or.inr (hex.mpr hE)), ih]
        simp [hM, hE, bucket1, bucket2, bucket3, bucket4, appenditem, List.filter_cons]
      · have hE2 : ¬ ((tokv text).length = 0 ∨ fstrncmp icase text x.text (text.length + 1) = 0) := by
          rintro (h | h)
          · exact hlen h
          · exact hE (hex.mp h)
        rw [if_neg hE2]
        by_cases hS : StartsFirst icase text x
        · cases hhp : x.hp
          · rw [if_neg (by simp [hhp]), if_pos (hst.mpr hS), ih]
            simp [hM, hE, hS, hhp, bucket1, bucket2, bucket3, bucket4, appenditem, List.filter_cons]
          · rw [if_pos ⟨rfl, hst.mpr hS⟩, ih]
            simp [hM, hE, hS, hhp, bucket1, bucket2, bucket3, bucket4, appenditem, List.filter_cons]
        · have hS2 : ¬ fstrncmp icase ((tokv text).headD []) x.text
              ((tokv text).headD []).length = 0 := fun h => hS (hst.mp h)
          rw [if_neg (fun h => hS2 h.2), if_neg hS2, ih]
          simp [hM, hE, hS, bucket1, bucket2, bucket3, bucket4, appenditem, List.filter_cons]
    · have hA : (tokv text).all (fun tok => (fstrstr json icase x.text tok).isSome) = false := by
        rw [← Bool.not_eq_true]
        exact fun h => hM (hall.mp h)
      rw [if_pos hA, ih]
      simp [hM, bucket1, bucket2, bucket3, bucket4, List.filter_cons]

theorem strtokLoop_eq_splitOn (delim : Char) (s : CStr) :
    ∀ cur : CStr, strtokLoop delim cur s =
      ((s.splitOn delim).modifyHead (fun l => cur.reverse ++ l)).filter (fun t => decide (t ≠ [])) := by
  induction s with
  | nil =>
    intro cur
    by_cases h : cur = [] <;> simp [strtokLoop, List.splitOn, h]
  | cons c cs ih =>
    intro cur
    rw [strtokLoop, List.splitOn, List.splitOnP_cons]
    by_cases hc : c = delim
    · have h0 := ih []
      simp only [List.reverse_nil, List.nil_append] at h0
      have hid : (List.modifyHead (fun l : List Char => l) (List.splitOn delim cs)) =
          List.splitOn delim cs := by
        cases List.splitOn delim cs <;> rfl
      rw [hid] at h0
      by_cases h : cur = []
      · simp [hc, h, h0, List.splitOn]
      · simp [hc, h, h0, List.splitOn]
    · have h1 := ih (c :: cur)
      have hne : cs.splitOnP (fun x => x == delim) ≠ [] := List.splitOnP_ne_nil _ _
      simp only [hc, if_false, beq_iff_eq, Bool.false_eq_true]
      rw [h1, List.splitOn]
      cases hsp : cs.splitOnP (fun x => x == delim) with
      | nil => exact absurd hsp hne
      | cons a as => simp

/-- The token vector of `match` is the query split on spaces, without the empty
pieces. -/
theorem tokv_eq_splitOn (text : CStr) :
    tokv text = (text.splitOn ' ').filter (fun t => decide (t ≠ [])) := by
  unfold tokv
  rw [strtokLoop_eq_splitOn]
  cases text.splitOn ' ' <;> simp

theorem match_token_eq {K : Type} [LinearOrderedField K] (ln : ℕ → K)
    (qsort : List (Item K) → (Item K → Item K → Int) → List (Item K))
    (json icase : Bool) (items : List (Item K)) (text : CStr) (htok : tokv text ≠ []) :
    match_ false ln qsort json icase items text =
      bucket1 json icase text items ++ bucket2 json icase text items ++
        bucket3 json icase text items ++ bucket4 json icase text items := by
  simp [match_, matchloop_eq json icase text htok, linklist_eq]

theorem match_no_tokens {K : Type} [LinearOrderedField K] (ln : ℕ → K)
    (qsort : List (Item K) → (Item K → Item K → Int) → List (Item K))
    (json icase : Bool) (items : List (Item K)) (text : CStr) (htok : tokv text = []) :
    match_ false ln qsort json icase items text = items := by
  simp [match_, htok, matchloop_no_tokens, linklist_eq]

theorem perm_cons_second {α : Type} (x : α) (A B C D : List α) :
    (A ++ x :: B ++ C ++ D).Perm (x :: (A ++ B ++ C ++ D)) := by
  simp

theorem perm_cons_third {α : Type} (x : α) (A B C D : List α) :
    (A ++ B ++ x :: C ++ D).Perm (x :: (A ++ B ++ C ++ D)) := by
  have h : ((A ++ B) ++ x :: (C ++ D)).Perm (x :: ((A ++ B) ++ (C ++ D))) := List.perm_middle
  simpa [List.append_assoc] using h

theorem perm_cons_fourth {α : Type} (x : α) (A B C D : List α) :
    (A ++ B ++ C ++ x :: D).Perm (x :: (A ++ B ++ C ++ D)) := List.perm_middle

theorem buckets_perm {K : Type} (json icase : Bool) (text : CStr) (items : List (Item K)) :
    (bucket1 json icase text items ++ bucket2 json icase text items ++
        bucket3 json icase text items ++ bucket4 json icase text items).Perm
      (items.filter (fun it => decide (TokMatched json icase text it))) := by
  induction items with
  | nil => simp [bucket1, bucket2, bucket3, bucket4]
  | cons x xs ih =>
    by_cases hM : TokMatched json icase text x
    · have hF : (x :: xs).filter (fun it => decide (TokMatched json icase text it)) =
          x :: xs.filter (fun it => decide (TokMatched json icase text it)) :=
        List.filter_cons_of_pos (by simpa using hM)
      rw [hF]
      refine List.Perm.trans ?_ (List.Perm.cons x ih)
      by_cases hE : IsExact icase text x
      · have h1 : bucket1 json icase text (x :: xs) = x :: bucket1 json icase text xs := by
          simp [bucket1, List.filter_cons, hM, hE]
        have h2 : bucket2 json icase text (x :: xs) = bucket2 json icase text xs := by
          simp [bucket2, List.filter_cons, hE]
        have h3 : bucket3 json icase text (x :: xs) = bucket3 json icase text xs := by
          simp [bucket3, List.filter_cons, hE]
        have h4 : bucket4 json icase text (x :: xs) = bucket4 json icase text xs := by
          simp [bucket4, List.filter_cons, hE]
        rw [h1, h2, h3, h4]
        simp
      · have h1 : bucket1 json icase text (x :: xs) = bucket1 json icase text xs := by
          simp [bucket1, List.filter_cons, hE]
        by_cases hS : StartsFirst icase text x
        · have h4 : bucket4 json icase text (x :: xs) = bucket4 json icase text xs := by
            simp [bucket4, List.filter_cons, hS]
          cases hhp : x.hp
          · have h2 : bucket2 json icase text (x :: xs) = bucket2 json icase text xs := by
              simp [bucket2, List.filter_cons, hhp]
            have h3 : bucket3 json icase text (x :: xs) = x :: bucket3 json icase text xs := by
              simp [bucket3, List.filter_cons, hM, hE, hS, hhp]
            rw [h1, h2, h3, h4]
            exact perm_cons_third x _ _ _ _
          · have h2 : bucket2 json icase text (x :: xs) = x :: bucket2 json icase text xs := by
              simp [bucket2, List.filter_cons, hM, hE, hS, hhp]
            have h3 : bucket3 json icase text (x :: xs) = bucket3 json icase text xs := by
              simp [bucket3, List.filter_cons, hhp]
            rw [h1, h2, h3, h4]
            exact perm_cons_second x _ _ _ _
        · have h2 : bucket2 json icase text (x :: xs) = bucket2 json icase text xs := by
            simp [bucket2, List.filter_cons, hS]
          have h3 : bucket3 json icase text (x :: xs) = bucket3 json icase text xs := by
            simp [bucket3, List.filter_cons, hS]
          have h4 : bucket4 json icase text (x :: xs) = x :: bucket4 json icase text xs := by
            simp [bucket4, List.filter_cons, hM, hE, hS]
          rw [h1, h2, h3, h4]
          exact perm_cons_fourth x _ _ _ _
    · have hF : (x :: xs).filter (fun it => decide (TokMatched json icase text it)) =
          xs.filter (fun it => decide (TokMatched json icase text it)) :=
        List.filter_cons_of_neg (by simpa using hM)
      have h1 : bucket1 json icase text (x :: xs) = bucket1 json icase text xs := by
        simp [bucket1, List.filter_cons, hM]
      have h2 : bucket2 json icase text (x :: xs) = bucket2 json icase text xs := by
        simp [bucket2, List.filter_cons, hM]
      have h3 : bucket3 json icase text (x :: xs) = bucket3 json icase text xs := by
        simp [bucket3, List.filter_cons, hM]
      have h4 : bucket4 json icase text (x :: xs) = bucket4 json icase text xs := by
        simp [bucket4, List.filter_cons, hM]
      rw [hF, h1, h2, h3, h4]
      exact ih

/-! ## Claims about token matching and the empty query -/

/-- Claim C2, as stated, fails for a query without tokens. With the store `a`, space and
the query of one space, `match` returns the whole store in input order, while bucket 1
of the claim (the matched candidates equal to the raw query) is the space candidate,
which would have to come first. -/
theorem C2_counterexample :
    tokv " ".toList = [] ∧
      (match_ false (fun n => (n : ℚ)) qsortStable false false (spaceItems ℚ) " ".toList).map
          Item.text = ["a".toList, " ".toList] ∧
      (bucket1 false false " ".toList (spaceItems ℚ)).map Item.text = [" ".toList] ∧
      ¬ ∃ B2 B3 B4 : List (Item ℚ),
        match_ false (fun n => (n : ℚ)) qsortStable false false (spaceItems ℚ) " ".toList =
          bucket1 false false " ".toList (spaceItems ℚ) ++ B2 ++ B3 ++ B4 := by
  have htok : tokv " ".toList = [] := by decide
  have hm : match_ false (fun n => (n : ℚ)) qsortStable false false (spaceItems ℚ) " ".toList =
      spaceItems ℚ := match_no_tokens _ _ _ _ _ _ htok
  have hb : (bucket1 false false " ".toList (spaceItems ℚ)).map Item.text = [" ".toList] := by
    decide
  refine ⟨htok, ?_, hb, ?_⟩
  · rw [hm]
    decide
  · rintro ⟨B2, B3, B4, h⟩
    have h2 := congrArg (List.map Item.text) h
    rw [hm] at h2
    simp only [List.map_append, hb] at h2
    revert h2
    simp [spaceItems]

/-- Claim C2, amended. In token mode, with the tokens being the pieces of the query
between spaces, the match list is a rearrangement of exactly the
candidates whose text contains every token of the query as a substring. When the
query has at least one token the list is `B1 ++ B2 ++ B3 ++ B4`, each bucket in
input order: the matched candidates equal to the raw query, the other matched
priority candidates that start with the first token, the other matched candidates
that start with the first token, the remaining matched candidates. When the query
has no token (it is empty or all spaces) the list is the whole store in input order. -/
theorem C2_token_buckets {K : Type} [LinearOrderedField K] (ln : ℕ → K)
    (qsort : List (Item K) → (Item K → Item K → Int) → List (Item K))
    (json icase : Bool) (items : List (Item K)) (text : CStr) :
    (match_ false ln qsort json icase items text).Perm
        (items.filter (fun it => decide (TokMatched json icase text it))) ∧
      (tokv text ≠ [] →
        match_ false ln qsort json icase items text =
          bucket1 json icase text items ++ bucket2 json icase text items ++
            bucket3 json icase text items ++ bucket4 json icase text items) ∧
      (tokv text = [] → match_ false ln qsort json icase items text = items) ∧
      tokv text = (text.splitOn ' ').filter (fun t => decide (t ≠ [])) := by
  refine ⟨?_, match_token_eq ln qsort json icase items text,
    match_no_tokens ln qsort json icase items text, tokv_eq_splitOn text⟩
  by_cases htok : tokv text = []
  · rw [match_no_tokens ln qsort json icase items text htok]
    have : items.filter (fun it => decide (TokMatched json icase text it)) = items := by
      rw [List.filter_eq_self]
      intro it _
      simp [TokMatched, htok]
    rw [this]
  · rw [match_token_eq ln qsort json icase items text htok]
    exact buckets_perm json icase text items

/-- Witness of the amended C2: the store foo, foobar, barfoo with the query `foo`
gives foo, foobar, barfoo. -/
theorem C2_token_buckets_witness :
    (match_ false (fun n => (n : ℚ)) qsortStable false false (fooItems ℚ) "foo".toList).map
        Item.text = ["foo".toList, "foobar".toList, "barfoo".toList] := by
  rw [(C2_token_buckets (fun n => (n : ℚ)) qsortStable false false (fooItems ℚ)
    "foo".toList).2.1 (by decide)]
  decide

/-- Claim C3. An empty query yields the whole candidate sequence in input order, in
fuzzy mode and in token mode, whatever the priority flags, case rule and `qsort`. -/
theorem C3_empty_query_returns_all {K : Type} [LinearOrderedField K] (ln : ℕ → K)
    (qsort : List (Item K) → (Item K → Item K → Int) → List (Item K))
    (json icase : Bool) (items : List (Item K)) :
    fuzzymatch ln qsort icase items [] = items ∧
      match_ true ln qsort json icase items [] = items ∧
      match_ false ln qsort json icase items [] = items := by
  have hf : fuzzymatch ln qsort icase items [] = items := by
    simp [fuzzymatch, fuzzyloop_empty_text]
  refine ⟨hf, ?_, ?_⟩
  · simp [match_, hf]
  · exact match_no_tokens ln qsort json icase items [] (by decide)

/-! ## The selection set -/

theorem issel_iff (selid : List Int) (id : Nat) : issel selid id = true ↔ (id : Int) ∈ selid := by
  unfold issel
  rw [List.any_eq_true]
  constructor
  · rintro ⟨x, hx, he⟩
    have : x = (id : Int) := of_decide_eq_true he
    exact this ▸ hx
  · intro h
    exact ⟨(id : Int), h, decide_eq_true rfl⟩

theorem issel_deselect (selid : List Int) (id : Nat) :
    issel (selid.map (fun x => if x = (id : Int) then -1 else x)) id = false := by
  rw [← Bool.not_eq_true, issel_iff]
  intro h
  obtain ⟨x, _, hx⟩ := List.mem_map.mp h
  by_cases h1 : x = (id : Int)
  · rw [if_pos h1] at hx
    omega
  · rw [if_neg h1] at hx
    exact h1 hx

theorem reuseslot_mem (id : Int) :
    ∀ (selid s : List Int), reuseslot selid id = some s → id ∈ s
  | [], s, h => by simp [reuseslot] at h
  | x :: xs, s, h => by
    unfold reuseslot at h
    split_ifs at h with hx
    · simp only [Option.some.injEq] at h
      subst h
      exact List.mem_cons_self _ _
    · obtain ⟨r, hr, hs⟩ := Option.map_eq_some'.mp h
      subst hs
      exact List.mem_cons_of_mem _ (reuseslot_mem id xs r hr)

theorem issel_toggle_of_not (selid : List Int) (id : Nat) (h : issel selid id = false) :
    issel (toggle selid id) id = true := by
  rw [issel_iff]
  unfold toggle
  simp only [h, Bool.false_eq_true, if_false]
  cases hr : reuseslot selid (id : Int) with
  | none => simp
  | some s => exact reuseslot_mem _ selid s hr

theorem issel_toggle_of_sel (selid : List Int) (id : Nat) (h : issel selid id = true) :
    issel (toggle selid id) id = false := by
  unfold toggle
  simp only [h, if_true]
  exact issel_deselect selid id

/-- Claim C6. Toggling the same id twice in a row leaves `issel` of that id as it was,
from every state of `selid`. -/
theorem C6_toggle_twice_restores_issel (selid : List Int) (id : Nat) :
    issel (toggle (toggle selid id) id) id = issel selid id := by
  cases h : issel selid id
  · exact issel_toggle_of_sel _ id (issel_toggle_of_not selid id h)
  · exact issel_toggle_of_not _ id (issel_toggle_of_sel selid id h)

theorem deselect_sublist (selid : List Int) (id : Nat) :
    ((selid.map (fun x => if x = (id : Int) then -1 else x)).filter
        (fun x => decide (x ≠ -1))).Sublist
      (selid.filter (fun x => decide (x ≠ -1))) := by
  induction selid with
  | nil => simp
  | cons x xs ih =>
    rw [List.map_cons]
    by_cases h1 : x = (id : Int)
    · have hne : x ≠ -1 := by omega
      rw [if_pos h1, List.filter_cons_of_neg (by simp),
        List.filter_cons_of_pos (by simpa using hne)]
      exact List.Sublist.cons _ ih
    · rw [if_neg h1]
      by_cases h2 : x = -1
      · rw [List.filter_cons_of_neg (by simpa using h2),
          List.filter_cons_of_neg (by simpa using h2)]
        exact ih
      · rw [List.filter_cons_of_pos (by simpa using h2),
          List.filter_cons_of_pos (by simpa using h2)]
        exact List.Sublist.cons₂ _ ih

theorem reuseslot_nodup (id : Int) (hid : id ≠ -1) :
    ∀ (selid s : List Int), id ∉ selid →
      (selid.filter (fun x => decide (x ≠ -1))).Nodup → reuseslot selid id = some s →
      (s.filter (fun x => decide (x ≠ -1))).Nodup ∧ ∀ y ∈ s, y = id ∨ y ∈ selid
  | [], s, _, _, h => by simp [reuseslot] at h
  | x :: xs, s, hmem, hnd, h => by
    unfold reuseslot at h
    have hx_ne : x ≠ id := fun e => hmem (e ▸ List.mem_cons_self _ _)
    have hxs : id ∉ xs := fun e => hmem (List.mem_cons_of_mem _ e)
    split_ifs at h with hx
    · simp only [Option.some.injEq] at h
      subst h
      subst hx
      constructor
      · simp only [List.filter_cons, hid, ne_eq, not_false_eq_true, decide_True, if_true,
          not_true_eq_false, decide_False, Bool.false_eq_true, if_false] at hnd ⊢
        refine List.nodup_cons.mpr ⟨?_, hnd⟩
        intro hh
        exact hxs (List.mem_filter.mp hh).1
      · intro y hy
        rcases List.mem_cons.mp hy with e | e
        · exact Or.inl e
        · exact Or.inr (List.mem_cons_of_mem _ e)
    · obtain ⟨r, hr, hs⟩ := Option.map_eq_some'.mp h
      subst hs
      have hndx : (xs.filter (fun x => decide (x ≠ -1))).Nodup := by
        simp only [List.filter_cons, hx, ne_eq, not_false_eq_true, decide_True, if_true] at hnd
        exact (List.nodup_cons.mp hnd).2
      have hxnot : x ∉ xs.filter (fun x => decide (x ≠ -1)) := by
        simp only [List.filter_cons, hx, ne_eq, not_false_eq_true, decide_True, if_true] at hnd
        exact (List.nodup_cons.mp hnd).1
      obtain ⟨ih1, ih2⟩ := reuseslot_nodup id hid xs r hxs hndx hr
      constructor
      · simp only [List.filter_cons, hx, ne_eq, not_false_eq_true, decide_True, if_true]
        refine List.nodup_cons.mpr ⟨?_, ih1⟩
        intro hh
        have hxr := (List.mem_filter.mp hh).1
        rcases ih2 x hxr with e | e
        · exact hx_ne e
        · exact hxnot (List.mem_filter.mpr ⟨e, by simpa using hx⟩)
      · intro y hy
        rcases List.mem_cons.mp hy with e | e
        · exact Or.inr (e ▸ List.mem_cons_self _ _)
        · rcases ih2 y e with e2 | e2
          · exact Or.inl e2
          · exact Or.inr (List.mem_cons_of_mem _ e2)

/-- One toggle keeps the occupied slots free of repeats. -/
theorem toggle_nodup (selid : List Int) (id : Nat)
    (h : (selid.filter (fun x => decide (x ≠ -1))).Nodup) :
    ((toggle selid id).filter (fun x => decide (x ≠ -1))).Nodup := by
  unfold toggle
  cases hs : issel selid id
  · simp only [Bool.false_eq_true, if_false]
    have hmem : (id : Int) ∉ selid := by
      rw [← issel_iff, hs]
      simp
    have hid : (id : Int) ≠ -1 := by omega
    cases hr : reuseslot selid (id : Int) with
    | none =>
      simp only [List.filter_append, List.filter_cons, hid, ne_eq, not_false_eq_true,
        decide_True, if_true, List.filter_nil]
      refine List.Nodup.append h (List.nodup_singleton _) ?_
      intro y hy1 hy2
      rw [List.mem_singleton] at hy2
      subst hy2
      exact hmem (List.mem_filter.mp hy1).1
    | some s => exact (reuseslot_nodup _ hid selid s hmem h hr).1
  · simp only [if_true]
    exact (deselect_sublist selid id).nodup h

/-- Claim C7. Starting from the empty `selid`, after any finite sequence of toggles no
id occurs in two slots other than tombstones (`-1`). -/
theorem C7_selid_ids_distinct (ids : List Nat) :
    ((ids.foldl toggle []).filter (fun x => decide (x ≠ -1))).Nodup := by
  have key : ∀ (l : List Nat) (s : List Int),
      (s.filter (fun x => decide (x ≠ -1))).Nodup →
      ((l.foldl toggle s).filter (fun x => decide (x ≠ -1))).Nodup := by
    intro l
    induction l with
    | nil => intro s hs; exact hs
    | cons a l ih => intro s hs; exact ih _ (toggle_nodup s a hs)
  exact key ids [] (by simp)

/-! ## The history file -/

theorem getlines_line (r : CStr) (hr : '\n' ∉ r) (rest : List Char) :
    ∀ cur : CStr, getlines cur (r ++ '\n' :: rest) =
      (cur.reverse ++ r ++ ['\n']) :: getlines [] rest := by
  induction r with
  | nil =>
    intro cur
    simp [getlines]
  | cons c cs ih =>
    intro cur
    have hc : c ≠ '\n' := fun e => hr (e ▸ List.mem_cons_self _ _)
    have hcs : '\n' ∉ cs := fun e => hr (List.mem_cons_of_mem _ e)
    rw [List.cons_append, getlines, if_neg hc, ih hcs]
    simp

theorem getlines_tail (t : CStr) (ht : '\n' ∉ t) :
    ∀ cur : CStr, getlines cur t =
      if cur.reverse ++ t = [] then [] else [cur.reverse ++ t] := by
  induction t with
  | nil =>
    intro cur
    simp [getlines]
  | cons c cs ih =>
    intro cur
    have hc : c ≠ '\n' := fun e => ht (e ▸ List.mem_cons_self _ _)
    have hcs : '\n' ∉ cs := fun e => ht (List.mem_cons_of_mem _ e)
    rw [getlines, if_neg hc, ih hcs]
    simp

/-- Reading back a file made of newline-free records, each followed by a newline,
and a newline-free remainder. -/
theorem getlines_records (recs : List CStr) (hrecs : ∀ r ∈ recs, '\n' ∉ r) (t : CStr)
    (ht : '\n' ∉ t) :
    getlines [] ((recs.map (fun r => r ++ ['\n'])).flatten ++ t) =
      recs.map (fun r => r ++ ['\n']) ++ (if t = [] then [] else [t]) := by
  induction recs with
  | nil =>
    have := getlines_tail t ht []
    simpa using this
  | cons r rs ih =>
    have hr : '\n' ∉ r := hrecs r (List.mem_cons_self _ _)
    have hrs : ∀ x ∈ rs, '\n' ∉ x := fun x hx => hrecs x (List.mem_cons_of_mem _ hx)
    have e : ((r :: rs).map (fun r => r ++ ['\n'])).flatten ++ t =
        r ++ '\n' :: ((rs.map (fun r => r ++ ['\n'])).flatten ++ t) := by
      simp
    rw [e, getlines_line r hr, ih hrs]
    simp

theorem strtokLine_of_no_newline (t : CStr) (ht : '\n' ∉ t) : strtokLine t = t := by
  unfold strtokLine
  have h1 : t.takeWhile (fun c => decide (c = '\n')) = [] := by
    cases t with
    | nil => rfl
    | cons c cs =>
      have hc : c ≠ '\n' := fun e => ht (e ▸ List.mem_cons_self _ _)
      simp [List.takeWhile, hc]
  have h2 : t.dropWhile (fun c => decide (c = '\n')) = t := by
    cases t with
    | nil => rfl
    | cons c cs =>
      have hc : c ≠ '\n' := fun e => ht (e ▸ List.mem_cons_self _ _)
      simp [List.dropWhile, hc]
  have h3 : t.takeWhile (fun c => decide (c ≠ '\n')) = t := by
    rw [List.takeWhile_eq_self_iff]
    intro c hc
    simpa using fun e : c = '\n' => ht (e ▸ hc)
  rw [h1, h2, h3]
  rfl

theorem takeWhile_append_stop (r : CStr) (hr : '\n' ∉ r) (rest : CStr) :
    (r ++ '\n' :: rest).takeWhile (fun c => decide (c ≠ '\n')) = r := by
  induction r with
  | nil => simp [List.takeWhile]
  | cons c cs ih =>
    have hc : c ≠ '\n' := fun e => hr (e ▸ List.mem_cons_self _ _)
    have hcs : '\n' ∉ cs := fun e => hr (List.mem_cons_of_mem _ e)
    rw [List.cons_append, List.takeWhile_cons_of_pos (by simpa using hc), ih hcs]

theorem strtokLine_record (r : CStr) (hne : r ≠ []) (hr : '\n' ∉ r) :
    strtokLine (r ++ ['\n']) = r := by
  unfold strtokLine
  cases r with
  | nil => exact absurd rfl hne
  | cons c cs =>
    have hc : c ≠ '\n' := fun e => hr (e ▸ List.mem_cons_self _ _)
    have h1 : ((c :: cs) ++ ['\n']).takeWhile (fun c => decide (c = '\n')) = [] := by
      simp [List.takeWhile, hc]
    have h2 : ((c :: cs) ++ ['\n']).dropWhile (fun c => decide (c = '\n')) =
        (c :: cs) ++ ['\n'] := by
      simp [List.dropWhile, hc]
    rw [h1, h2, takeWhile_append_stop (c :: cs) hr []]
    rfl

/-- Reading a file made of well-formed records and a newline-free last line gives
the records back, followed by the last line when there is one. -/
theorem readrecords_records (recs : List CStr) (hrecs : ∀ r ∈ recs, r ≠ [] ∧ '\n' ∉ r)
    (t : CStr) (ht : '\n' ∉ t) :
    readrecords (some ((recs.map (fun r => r ++ ['\n'])).flatten ++ t)) =
      recs ++ (if t = [] then [] else [t]) := by
  unfold readrecords
  simp only
  rw [getlines_records recs (fun r hr => (hrecs r hr).2) t ht, List.map_append, List.map_map]
  have h1 : recs.map (strtokLine ∘ fun r => r ++ ['\n']) = recs := by
    conv_rhs => rw [← List.map_id recs]
    apply List.map_congr_left
    intro r hr
    exact strtokLine_record r (hrecs r hr).1 (hrecs r hr).2
  rw [h1]
  by_cases h : t = []
  · simp [h]
  · simp [h, strtokLine_of_no_newline t ht]

/-- Once the array has its 64 slots, the loop stores at most 64 records. -/
theorem loadloop_full (ptr : Nat) (hp : 2 ≤ ptr) :
    ∀ (lines history : List CStr), 1 ≤ history.length → history.length ≤ 64 →
      loadloop ptr lines (64 * ptr) history =
        if history.length + lines.length ≤ 64 then some (history ++ lines.map strtokLine)
        else none
  | [], history, _, h2 => by
    unfold loadloop
    rw [if_pos (by simpa using h2)]
    simp
  | line :: rest, history, h1, h2 => by
    have hcap : ¬ 64 * ptr = history.length := by omega
    have hdiv : 64 * ptr / ptr = 64 := Nat.mul_div_cancel 64 (by omega)
    unfold loadloop
    rw [if_neg hcap, hdiv]
    by_cases hlt : history.length < 64
    · rw [if_pos hlt, loadloop_full ptr hp rest (history ++ [strtokLine line])
        (by simp) (by simp; omega)]
      simp only [List.length_append, List.length_cons, List.length_nil, List.map_cons,
        List.append_assoc, List.singleton_append]
      by_cases hfit : history.length + (rest.length + 1) ≤ 64
      · rw [if_pos hfit, if_pos (by omega)]
      · rw [if_neg hfit, if_neg (by omega)]
    · rw [if_neg hlt, if_neg (by simp only [List.length_cons]; omega)]

/-- The capacity slip of `loadhistory`: with pointers of two or more bytes the array
never grows beyond its first 64 slots, so a file of up to 64 lines is loaded whole
and the 65th line is stored outside the array. -/
theorem loadhistory_eq (ptr : Nat) (hp : 2 ≤ ptr) (file : Option (List Char)) :
    loadhistory ptr file =
      if (readrecords file).length ≤ 64 then some (readrecords file) else none := by
  unfold loadhistory readrecords
  cases file with
  | none => simp
  | some content =>
    simp only
    cases getlines [] content with
    | nil => simp [loadloop]
    | cons line rest =>
      have hdiv : (0 + 64 * ptr) / ptr = 64 := by
        rw [Nat.zero_add]
        exact Nat.mul_div_cancel 64 (by omega)
      unfold loadloop
      simp only [List.length_nil, if_true]
      rw [hdiv, if_pos (by omega), Nat.zero_add,
        loadloop_full ptr hp rest ([] ++ [strtokLine line]) (by simp) (by simp)]
      simp only [List.nil_append, List.length_cons, List.length_nil, List.map_cons,
        List.length_map, List.singleton_append]
      by_cases hfit : 0 + 1 + rest.length ≤ 64
      · rw [if_pos hfit, if_pos (by omega)]
      · rw [if_neg hfit, if_neg (by omega)]

theorem savehistory_eq (maxhist : Nat) (hmax : 0 < maxhist) (histnodup : Int)
    (history : List CStr) (input : CStr) (hin : input ≠ []) (file : Option (List Char)) :
    savehistory true maxhist histnodup history input file =
      some (((history.drop (history.length - min history.length maxhist)).map
        (fun r => r ++ ['\n'])).flatten ++
        (if histnodup = 0 ∨ (history ≠ [] ∧ input ≠ history.getLastD []) then input else [])) := by
  have hlen : input.length ≠ 0 := by simpa using hin
  have hfirst : (if history.length < maxhist then 0 else history.length - maxhist) =
      history.length - min history.length maxhist := by
    split_ifs <;> omega
  unfold savehistory
  rw [if_neg (by simp [hlen]; omega)]
  simp only [hfirst, gt_iff_lt, List.length_pos, ne_eq, strcmp_eq_zero]
  split_ifs <;> simp

/-! ## Claims about the history write-back -/

/-- Claim C8, at the failing input. With the settings of `config.h` (`maxhist = 64`,
`histnodup = 1`), an empty history and the committed text `ls`, `savehistory`
rewrites the file as an empty file: the persisted log has no record, so the text was
not appended although it is not empty and there is no last record for it to equal. -/
theorem C8_empty_history_drops_commit :
    savehistory true 64 1 [] "ls".toList none = some [] ∧
      readrecords (savehistory true 64 1 [] "ls".toList none) = [] ∧
      loadhistory 8 (savehistory true 64 1 [] "ls".toList none) = some [] := by
  decide

/-- Claim C9. With dedup enabled, for every non-empty history, committing the text
of the last record never writes that text: `savehistory` either leaves the file alone
or writes exactly the retained records. When a history file is configured,
`maxhist > 0` and the records are well formed, the file is written and the persisted
log is the retained window of the history, ending with that last record and holding
no added copy of it; committing a record of the history other than the last one is
not suppressed, it is written after the retained records. The persisted log is read
as records by `readrecords`; `loadhistory` returns the same records when they are at
most 64. -/
theorem C9_dedup_last_record (maxhist : Nat) (histnodup : Int)
    (hdup : histnodup ≠ 0) (history : List CStr) (hne : history ≠ [])
    (file : Option (List Char)) :
    (savehistory true maxhist histnodup history (history.getLast hne) file = file ∨
      savehistory true maxhist histnodup history (history.getLast hne) file =
        some ((history.drop (history.length - min history.length maxhist)).map
          (fun r => r ++ ['\n'])).flatten) ∧
    (0 < maxhist → (∀ r ∈ history, r ≠ [] ∧ '\n' ∉ r) →
      savehistory true maxhist histnodup history (history.getLast hne) file =
          some ((history.drop (history.length - min history.length maxhist)).map
            (fun r => r ++ ['\n'])).flatten ∧
        readrecords (savehistory true maxhist histnodup history (history.getLast hne) file) =
          history.drop (history.length - min history.length maxhist) ∧
        (history.drop (history.length - min history.length maxhist)).getLast? =
          some (history.getLast hne) ∧
        (∀ input ∈ history, input ≠ history.getLast hne →
          readrecords (savehistory true maxhist histnodup history input file) =
            history.drop (history.length - min history.length maxhist) ++ [input]) ∧
        (∀ ptr, 2 ≤ ptr → min history.length maxhist ≤ 64 →
          loadhistory ptr
              (savehistory true maxhist histnodup history (history.getLast hne) file) =
            some (history.drop (history.length - min history.length maxhist)))) := by
  have hlastD : history.getLastD [] = history.getLast hne := by
    rw [List.getLastD_eq_getLast?, List.getLast?_eq_getLast _ hne]
    rfl
  have hsave : 0 < maxhist → history.getLast hne ≠ [] →
      savehistory true maxhist histnodup history (history.getLast hne) file =
        some ((history.drop (history.length - min history.length maxhist)).map
          (fun r => r ++ ['\n'])).flatten := by
    intro hmax hl
    rw [savehistory_eq maxhist hmax histnodup history _ hl file, hlastD]
    simp [hdup]
  constructor
  · by_cases hskip : maxhist = 0 ∨ (history.getLast hne).length = 0
    · left
      unfold savehistory
      rw [if_pos (Or.inr hskip)]
    · right
      have h1 : 0 < maxhist := by
        rcases Nat.eq_zero_or_pos maxhist with h | h
        · exact absurd (Or.inl h) hskip
        · exact h
      have h2 : history.getLast hne ≠ [] := by
        intro h
        exact hskip (Or.inr (by rw [h]; rfl))
      exact hsave h1 h2
  · intro hmax hrec
    have hwin : ∀ r ∈ history.drop (history.length - min history.length maxhist),
        r ≠ [] ∧ '\n' ∉ r := fun r hr => hrec r (List.mem_of_mem_drop hr)
    have hlast := hrec _ (List.getLast_mem hne)
    have hread : readrecords
        (savehistory true maxhist histnodup history (history.getLast hne) file) =
          history.drop (history.length - min history.length maxhist) := by
      rw [hsave hmax hlast.1]
      have := readrecords_records _ hwin [] (by simp)
      simpa using this
    refine ⟨hsave hmax hlast.1, hread, ?_, ?_, ?_⟩
    · have hlt : history.length - min history.length maxhist < history.length := by
        have : 0 < history.length := List.length_pos.mpr hne
        omega
      rw [List.getLast?_drop, if_neg (by omega), List.getLast?_eq_getLast _ hne]
    · intro input hin hneq
      have hi := hrec input hin
      rw [savehistory_eq maxhist hmax histnodup history input hi.1 file, hlastD,
        if_pos (Or.inr ⟨hne, hneq⟩)]
      have := readrecords_records _ hwin input hi.2
      simpa [hi.1] using this
    · intro ptr hp hfit
      rw [loadhistory_eq ptr hp, hread, if_pos]
      rw [List.length_drop]
      omega

/-- Witness of C9: the history a, b with the settings of `config.h`. -/
theorem C9_dedup_last_record_witness :
    readrecords (savehistory true 64 1 ["a".toList, "b".toList]
        (["a".toList, "b".toList].getLast (by decide)) none) =
      ["a".toList, "b".toList].drop
        (["a".toList, "b".toList].length - min ["a".toList, "b".toList].length 64) :=
  ((C9_dedup_last_record 64 1 (by decide) ["a".toList, "b".toList] (by decide) none).2
    (by decide) (by decide)).2.1

/-- Claim C10, as stated, fails when the committed text holds a newline: with the
history a, `maxhist = 2`, and the committed text `b`, newline, `c`, the text is
appended, and reloading the written file gives three records a, b, c, not a followed
by the committed text. -/
theorem C10_counterexample :
    savehistory true 2 1 ["a".toList] "b\nc".toList none = some "a\nb\nc".toList ∧
      loadhistory 8 (savehistory true 2 1 ["a".toList] "b\nc".toList none) =
        some ["a".toList, "b".toList, "c".toList] ∧
      loadhistory 8 (savehistory true 2 1 ["a".toList] "b\nc".toList none) ≠
        some (["a".toList] ++ ["b\nc".toList]) := by
  decide

/-- Claim C10, amended. For a history of `N` non-empty, newline-free records, a history
file configured, `maxhist > 0`, a committed text that is not empty and holds no
newline (so that `savehistory` writes the file), and a written file of at most 64
records (the slots of the array of `loadhistory`, for pointers of two or more
bytes): reloading the written file gives the last `min N maxhist` records of the
history in their order, followed by the committed text exactly when `savehistory`
appends it (dedup off, or the history is non-empty and its last record differs from
the text). -/
theorem C10_history_roundtrip (ptr : Nat) (hp : 2 ≤ ptr) (maxhist : Nat) (hmax : 0 < maxhist)
    (histnodup : Int) (history : List CStr) (hrec : ∀ r ∈ history, r ≠ [] ∧ '\n' ∉ r)
    (input : CStr) (hin : input ≠ []) (hnl : '\n' ∉ input) (file : Option (List Char))
    (hfit : min history.length maxhist +
      (if histnodup = 0 ∨ (history ≠ [] ∧ input ≠ history.getLastD []) then 1 else 0) ≤ 64) :
    loadhistory ptr (savehistory true maxhist histnodup history input file) =
        some (history.drop (history.length - min history.length maxhist) ++
          (if histnodup = 0 ∨ (history ≠ [] ∧ input ≠ history.getLastD []) then [input]
            else [])) ∧
      (history.drop (history.length - min history.length maxhist)).length =
        min history.length maxhist := by
  have hwin : ∀ r ∈ history.drop (history.length - min history.length maxhist),
      r ≠ [] ∧ '\n' ∉ r := fun r hr => hrec r (List.mem_of_mem_drop hr)
  have hlen : (history.drop (history.length - min history.length maxhist)).length =
      min history.length maxhist := by
    rw [List.length_drop]
    omega
  refine ⟨?_, hlen⟩
  have hread : readrecords (savehistory true maxhist histnodup history input file) =
      history.drop (history.length - min history.length maxhist) ++
        (if histnodup = 0 ∨ (history ≠ [] ∧ input ≠ history.getLastD []) then [input]
          else []) := by
    rw [savehistory_eq maxhist hmax histnodup history input hin file]
    split_ifs with h
    · have := readrecords_records _ hwin input hnl
      simpa [hin] using this
    · have := readrecords_records _ hwin [] (by simp)
      simpa using this
  rw [loadhistory_eq ptr hp, hread, if_pos]
  rw [List.length_append, hlen]
  split_ifs at hfit ⊢ with h
  · simpa using hfit
  · simpa using hfit

/-- Witness of the amended C10: the history a, b, c with `maxhist = 2` and the
committed text c persists b, c. -/
theorem C10_history_roundtrip_witness :
    loadhistory 8
        (savehistory true 2 1 ["a".toList, "b".toList, "c".toList] "c".toList none) =
      some ["b".toList, "c".toList] :=
  (C10_history_roundtrip 8 (by decide) 2 (by decide) 1 ["a".toList, "b".toList, "c".toList]
    (by decide) "c".toList (by decide) (by decide) none (by decide)).1.trans (by decide)

/-! ## Priority items -/

theorem take_min_eq_iff_prefix {α : Type} (a b : List α) :
    a.take (min a.length b.length) = b.take (min a.length b.length) ↔ a <+: b ∨ b <+: a := by
  rcases Nat.le_total a.length b.length with h | h
  · rw [Nat.min_eq_left h, List.take_length]
    constructor
    · intro e
      exact Or.inl (List.prefix_iff_eq_take.mpr e)
    · rintro (e | e)
      · exact List.prefix_iff_eq_take.mp e
      · have hab : b = a := e.eq_of_length (Nat.le_antisymm e.length_le h)
        rw [hab, List.take_length]
  · rw [Nat.min_eq_right h, List.take_length]
    constructor
    · intro e
      exact Or.inr (List.prefix_iff_eq_take.mpr e.symm)
    · rintro (e | e)
      · have hab : a = b := e.eq_of_length (Nat.le_antisymm e.length_le h)
        rw [hab, List.take_length]
      · exact (List.prefix_iff_eq_take.mp e).symm

theorem arrayhas_zero_or_one (icase : Bool) (list : List CStr) (item : CStr) :
    arrayhas icase list item = 1 ∨ arrayhas icase list item = 0 := by
  induction list with
  | nil => right; rfl
  | cons p rest ih =>
    unfold arrayhas
    dsimp only
    by_cases h : fstrncmp icase p item
        (if p.length > item.length then item.length else p.length) = 0
    · rw [if_pos h]
      left; rfl
    · rw [if_neg h]
      exact ih

theorem arrayhas_eq_one_iff (icase : Bool) (list : List CStr) (item : CStr) :
    arrayhas icase list item = 1 ↔
      ∃ p ∈ list, (p.map (cmpFold icase)).take (min p.length item.length) =
        (item.map (cmpFold icase)).take (min p.length item.length) := by
  induction list with
  | nil => simp [arrayhas]
  | cons p rest ih =>
    have hmin : (if p.length > item.length then item.length else p.length) =
        min p.length item.length := by
      split_ifs with h <;> omega
    unfold arrayhas
    dsimp only
    rw [hmin]
    by_cases h : fstrncmp icase p item (min p.length item.length) = 0
    · rw [if_pos h]
      simp only [List.mem_cons, exists_eq_or_imp, true_iff]
      exact Or.inl ((fstrncmp_eq_zero icase p item _).mp h)
    · rw [if_neg h, ih]
      simp only [List.mem_cons, exists_eq_or_imp]
      constructor
      · intro hh
        exact Or.inr hh
      · rintro (hh | hh)
        · exact absurd ((fstrncmp_eq_zero icase p item _).mpr hh) h
        · exact hh

/-- Claim C17. For every candidate text and every list of priority strings, `arrayhas`
returns 1 exactly when some priority string agrees with the text on their first
`min` of the two lengths characters under the case rule of `fstrncmp`, that is, when
one of the two is a prefix of the other, and it returns 0 otherwise; so the empty
text is a priority item whenever the list is not empty, and the text a is a priority
item for the priority string ab although the two differ. -/
theorem C17_arrayhas_prefix_either_way (icase : Bool) (list : List CStr) (item : CStr) :
    (arrayhas icase list item = 1 ↔
        ∃ p ∈ list, (p.map (cmpFold icase)).take (min p.length item.length) =
          (item.map (cmpFold icase)).take (min p.length item.length)) ∧
      (arrayhas icase list item = 1 ↔
        ∃ p ∈ list, p.map (cmpFold icase) <+: item.map (cmpFold icase) ∨
          item.map (cmpFold icase) <+: p.map (cmpFold icase)) ∧
      (arrayhas icase list item = 1 ∨ arrayhas icase list item = 0) ∧
      (list ≠ [] → arrayhas icase list [] = 1) ∧
      arrayhas icase ["ab".toList] "a".toList = 1 := by
  have h1 := arrayhas_eq_one_iff icase list item
  have h2 : arrayhas icase list item = 1 ↔
      ∃ p ∈ list, p.map (cmpFold icase) <+: item.map (cmpFold icase) ∨
        item.map (cmpFold icase) <+: p.map (cmpFold icase) := by
    rw [h1]
    constructor
    · rintro ⟨p, hp, e⟩
      refine ⟨p, hp, ?_⟩
      have := take_min_eq_iff_prefix (p.map (cmpFold icase)) (item.map (cmpFold icase))
      simp only [List.length_map] at this
      exact this.mp e
    · rintro ⟨p, hp, e⟩
      refine ⟨p, hp, ?_⟩
      have := take_min_eq_iff_prefix (p.map (cmpFold icase)) (item.map (cmpFold icase))
      simp only [List.length_map] at this
      exact this.mpr e
  refine ⟨h1, h2, arrayhas_zero_or_one icase list item, ?_, ?_⟩
  · intro hne
    rw [arrayhas_eq_one_iff]
    obtain ⟨p, hp⟩ := List.exists_mem_of_ne_nil list hne
    exact ⟨p, hp, by simp⟩
  · cases icase <;> decide

/-- Witness of C17: with the one priority string x the empty text is a priority item. -/
theorem C17_arrayhas_prefix_either_way_witness : arrayhas false ["x".toList] [] = 1 :=
  (C17_arrayhas_prefix_either_way false ["x".toList] []).2.2.2.1 (by decide)

/-! ## The sort-and-relink step -/

/-- Claim C20. In fuzzy mode with a non-empty query (and a `qsort` that sorts), the
final match list is a rearrangement of the list of candidates that the scan loop
built, none lost and none doubled, and its distances do not decrease from head to
tail. -/
theorem C20_fuzzy_sorted_permutation {K : Type} [LinearOrderedField K] (ln : ℕ → K)
    (qsort : List (Item K) → (Item K → Item K → Int) → List (Item K))
    (hq : QsortSorts qsort) (icase : Bool) (items : List (Item K)) (text : CStr)
    (htext : text ≠ []) :
    (fuzzymatch ln qsort icase items text).Perm (fuzzyloop ln icase text items ([], 0)).1 ∧
      (fuzzymatch ln qsort icase items text).Pairwise
        (fun a b => a.distance ≤ b.distance) := by
  constructor
  · rw [fuzzyloop_eq ln icase text htext]
    simpa using fuzzymatch_perm ln qsort hq icase items text htext
  · exact fuzzymatch_sorted ln qsort hq icase items text htext

/-- Witness of C20: the real logarithm, insertion sort as `qsort`, the fruit store and
the query `ap`. -/
theorem C20_fuzzy_sorted_permutation_witness :
    (fuzzymatch (fun n => Real.log n) qsortStable false (fruitItems ℝ) "ap".toList).Pairwise
      (fun a b => a.distance ≤ b.distance) :=
  (C20_fuzzy_sorted_permutation (fun n => Real.log n) qsortStable qsortStable_sorts false
    (fruitItems ℝ) "ap".toList (by decide)).2

/-! ## The match counter -/

theorem foldl_count {α : Type} (l : List α) (k : Nat) :
    l.foldl (fun n _ => n + 1) k = k + l.length := by
  induction l generalizing k with
  | nil => rfl
  | cons x xs ih =>
    rw [List.foldl_cons, ih, List.length_cons]
    omega

/-- Claim C13, as stated, fails. In a grid of one line and one column the page built
for the three matches of the fruit store under the empty query shows one item, so
the last visible item has rank 1, while `recalculatenumbers` gives position 3. -/
theorem C13_counterexample :
    (rebuild gridOne (fruitItems ℚ) [] 0).curr = some 0 ∧
      (rebuild gridOne (fruitItems ℚ) [] 0).next = some 1 ∧
      pageLastRank (rebuild gridOne (fruitItems ℚ) [] 0) = 1 ∧
      recalculatenumbers (fruitItems ℚ) (rebuild gridOne (fruitItems ℚ) [] 0).matches_ =
        (3, 3) := by
  decide

/-- Claim C13, amended. For every item store and match list, whatever the page
window, `recalculatenumbers` gives total = the number of all candidates and
position = the number of items of the match list, which is the 1-based rank of the
list tail and 0 for the empty list. -/
theorem C13_counter_is_match_count {K : Type} (items ms : List (Item K)) :
    recalculatenumbers items ms = (ms.length, items.length) := by
  unfold recalculatenumbers
  cases h : ms.reverse with
  | nil =>
    have : ms = [] := by simpa using h
    simp [this, foldl_count]
  | cons x lefts =>
    have hl : ms.length = lefts.length + 1 := by
      have := congrArg List.length h
      simpa using this
    simp [foldl_count, hl, Nat.add_comm]

/-! ## History navigation -/

theorem take_min_length {α : Type} (p : List α) (m : Nat) :
    p.take (min p.length m) = p.take m := by
  rcases Nat.le_total p.length m with h | h
  · rw [Nat.min_eq_left h, List.take_length, List.take_of_length_le h]
  · rw [Nat.min_eq_right h]

theorem settext_text (bufsiz : Nat) (h : Hist) (p : CStr) :
    (settext bufsiz h p).text = p.take (bufsiz - 1) ∧
      (settext bufsiz h p).histpos = h.histpos ∧
      (settext bufsiz h p).history = h.history ∧
      (settext bufsiz h p).def_ = h.def_ := by
  unfold settext
  exact ⟨take_min_length p _, rfl, rfl, rfl⟩

/-- One step towards older records, from a position that is not 0. -/
theorem navhistory_older (bufsiz : Nat) (h : Hist) (hne : h.history ≠ [])
    (hpos : 0 < h.histpos) (hle : h.histpos ≤ h.history.length) :
    ∃ h1, navhistory bufsiz (-1) h = some h1 ∧ h1.history = h.history ∧
      h1.histpos = h.histpos - 1 ∧
      h1.text = (h.history.getD (h.histpos - 1) []).take (bufsiz - 1) ∧
      h1.def_ = (if h.history.length = h.histpos then h.text.take bufsiz else h.def_) := by
  have hlt : h.histpos - 1 < h.history.length := by omega
  have hget : h.history[h.histpos - 1]? = some (h.history.getD (h.histpos - 1) []) := by
    rw [List.getD_eq_getElem?_getD, List.getElem?_eq_getElem hlt]
    rfl
  unfold navhistory
  rw [if_neg (by simp [hne])]
  by_cases hN : h.history.length = h.histpos
  · simp only [hN, if_true, hpos, gt_iff_lt, hget,
      show ((-1 : Int) = 1) = False from by simp]
    refine ⟨_, rfl, ?_⟩
    have := settext_text bufsiz
      { h with def_ := h.text.take bufsiz, histpos := h.histpos - 1 }
      (h.history.getD (h.histpos - 1) [])
    exact ⟨this.2.2.1, this.2.1, this.1, this.2.2.2⟩
  · simp only [hN, if_false, hpos, gt_iff_lt, hget, if_true,
      show ((-1 : Int) = 1) = False from by simp]
    refine ⟨_, rfl, ?_⟩
    have := settext_text bufsiz { h with histpos := h.histpos - 1 }
      (h.history.getD (h.histpos - 1) [])
    exact ⟨this.2.2.1, this.2.1, this.1, this.2.2.2⟩

/-- One step towards newer records that lands on a stored record. -/
theorem navhistory_newer_mid (bufsiz : Nat) (h : Hist) (hlt : h.histpos + 1 < h.history.length) :
    ∃ h1, navhistory bufsiz 1 h = some h1 ∧ h1.history = h.history ∧
      h1.histpos = h.histpos + 1 ∧
      h1.text = (h.history.getD (h.histpos + 1) []).take (bufsiz - 1) ∧
      h1.def_ = h.def_ := by
  have hne : h.history ≠ [] := by
    intro e
    rw [e] at hlt
    simp at hlt
  have hget : h.history[h.histpos + 1]? = some (h.history.getD (h.histpos + 1) []) := by
    rw [List.getD_eq_getElem?_getD, List.getElem?_eq_getElem hlt]
    rfl
  have hN : ¬ h.history.length = h.histpos := by omega
  have hc : h.histpos < h.history.length - 1 := by omega
  unfold navhistory
  rw [if_neg (by simp [hne])]
  simp only [hN, if_false, if_true, hc, hget]
  refine ⟨_, rfl, ?_⟩
  have := settext_text bufsiz { h with histpos := h.histpos + 1 }
    (h.history.getD (h.histpos + 1) [])
  exact ⟨this.2.2.1, this.2.1, this.1, this.2.2.2⟩

/-- The step towards newer records that crosses back to the fresh text. -/
theorem navhistory_newer_last (bufsiz : Nat) (h : Hist) (heq : h.histpos + 1 = h.history.length) :
    ∃ h1, navhistory bufsiz 1 h = some h1 ∧ h1.history = h.history ∧
      h1.histpos = h.history.length ∧ h1.text = h.def_.take (bufsiz - 1) ∧
      h1.def_ = h.def_ := by
  have hne : h.history ≠ [] := by
    intro e
    rw [e] at heq
    simp at heq
  have hN : ¬ h.history.length = h.histpos := by omega
  have hc : ¬ h.histpos < h.history.length - 1 := by omega
  have hc2 : h.histpos = h.history.length - 1 := by omega
  unfold navhistory
  rw [if_neg (by simp [hne])]
  simp only [hN, if_false, if_true, hc]
  rw [if_pos hc2]
  refine ⟨_, rfl, ?_⟩
  have := settext_text bufsiz { h with histpos := h.histpos + 1 } h.def_
  exact ⟨this.2.2.1, by rw [this.2.1]; exact heq, this.1, this.2.2.2⟩

/-- No step towards older records is taken at position 0. -/
theorem navhistory_older_at_zero (bufsiz : Nat) (h : Hist) (h0 : h.histpos = 0) :
    ∃ h1, navhistory bufsiz (-1) h = some h1 ∧ h1.history = h.history ∧
      h1.histpos = h.histpos ∧ h1.text = h.text := by
  unfold navhistory
  by_cases hne : h.history = []
  · rw [if_pos (Or.inl hne)]
    exact ⟨h, rfl, rfl, rfl, rfl⟩
  · rw [if_neg (by simp [hne])]
    have hpos : 0 < h.history.length := List.length_pos.mpr hne
    have hN : ¬ h.history.length = h.histpos := by omega
    have hc : ¬ h.histpos > 0 := by omega
    simp only [hN, if_false, if_true, show ((-1 : Int) = 1) = False from by simp]
    rw [if_neg hc]
    exact ⟨_, rfl, rfl, rfl, rfl⟩

/-- No step towards newer records is taken at position `histsz`. -/
theorem navhistory_newer_at_top (bufsiz : Nat) (h : Hist) (htop : h.histpos = h.history.length) :
    ∃ h1, navhistory bufsiz 1 h = some h1 ∧ h1.history = h.history ∧
      h1.histpos = h.histpos ∧ h1.text = h.text := by
  unfold navhistory
  by_cases hne : h.history = []
  · rw [if_pos (Or.inl hne)]
    exact ⟨h, rfl, rfl, rfl, rfl⟩
  · rw [if_neg (by simp [hne])]
    have hpos : 0 < h.history.length := List.length_pos.mpr hne
    have hc : ¬ h.histpos < h.history.length - 1 := by omega
    have hc2 : ¬ h.histpos = h.history.length - 1 := by omega
    have hN : h.history.length = h.histpos := htop.symm
    rw [if_pos hN]
    simp only [if_true]
    rw [if_neg hc, if_neg hc2]
    exact ⟨_, rfl, rfl, rfl, rfl⟩

/-- Every call of `navhistory` reads inside the history and keeps the position
between 0 and `histsz`. -/
theorem navhistory_inv (bufsiz : Nat) (dir : Int) (h : Hist)
    (hle : h.histpos ≤ h.history.length) :
    ∃ h1, navhistory bufsiz dir h = some h1 ∧ h1.history = h.history ∧
      h1.histpos ≤ h1.history.length := by
  by_cases hne : h.history = []
  · refine ⟨h, ?_, rfl, hle⟩
    unfold navhistory
    rw [if_pos (Or.inl hne)]
  · by_cases hd1 : dir = 1
    · subst hd1
      by_cases h1 : h.histpos + 1 < h.history.length
      · obtain ⟨r, e1, e2, e3, _⟩ := navhistory_newer_mid bufsiz h h1
        exact ⟨r, e1, e2, by rw [e2, e3]; omega⟩
      · by_cases h2 : h.histpos + 1 = h.history.length
        · obtain ⟨r, e1, e2, e3, _⟩ := navhistory_newer_last bufsiz h h2
          exact ⟨r, e1, e2, by rw [e2, e3]⟩
        · obtain ⟨r, e1, e2, e3, _⟩ := navhistory_newer_at_top bufsiz h (by omega)
          exact ⟨r, e1, e2, by rw [e2, e3]; exact hle⟩
    · by_cases hd2 : dir = -1
      · subst hd2
        by_cases h0 : h.histpos = 0
        · obtain ⟨r, e1, e2, e3, _⟩ := navhistory_older_at_zero bufsiz h h0
          exact ⟨r, e1, e2, by rw [e2, e3]; exact hle⟩
        · obtain ⟨r, e1, e2, e3, _⟩ := navhistory_older bufsiz h hne (by omega) hle
          exact ⟨r, e1, e2, by rw [e2, e3]; omega⟩
      · unfold navhistory
        rw [if_neg (by simp [hne])]
        simp only [hd1, hd2, if_false]
        by_cases hN : h.history.length = h.histpos
        · rw [if_pos hN]
          exact ⟨_, rfl, rfl, hle⟩
        · rw [if_neg hN]
          exact ⟨_, rfl, rfl, hle⟩

theorem navsteps_inv (bufsiz : Nat) (dirs : List Int) :
    ∀ h : Hist, h.histpos ≤ h.history.length →
      ∃ h1, navsteps bufsiz dirs h = some h1 ∧ h1.history = h.history ∧
        h1.histpos ≤ h1.history.length := by
  induction dirs with
  | nil => intro h hle; exact ⟨h, rfl, rfl, hle⟩
  | cons d ds ih =>
    intro h hle
    obtain ⟨r, e1, e2, e3⟩ := navhistory_inv bufsiz d h hle
    obtain ⟨r2, f1, f2, f3⟩ := ih r e3
    refine ⟨r2, ?_, by rw [f2, e2], f3⟩
    simp only [navsteps, e1]
    exact f1

theorem navsteps_append (bufsiz : Nat) (l1 l2 : List Int) (h h1 : Hist)
    (e : navsteps bufsiz l1 h = some h1) :
    navsteps bufsiz (l1 ++ l2) h = navsteps bufsiz l2 h1 := by
  induction l1 generalizing h with
  | nil =>
    simp only [navsteps, Option.some.injEq] at e
    subst e
    rfl
  | cons d ds ih =>
    simp only [navsteps, List.cons_append] at e ⊢
    cases hn : navhistory bufsiz d h with
    | none => rw [hn] at e; exact absurd e (by simp)
    | some r =>
      rw [hn] at e
      simp only at e ⊢
      exact ih r e

/-- After `i` steps towards older records from position `p ≥ i`. -/
theorem navsteps_older (bufsiz : Nat) :
    ∀ (i : Nat) (h : Hist), h.history ≠ [] → h.histpos ≤ h.history.length →
      1 ≤ i → i ≤ h.histpos →
      ∃ h1, navsteps bufsiz (List.replicate i (-1)) h = some h1 ∧ h1.history = h.history ∧
        h1.histpos = h.histpos - i ∧
        h1.text = (h.history.getD (h.histpos - i) []).take (bufsiz - 1) ∧
        h1.def_ = (if h.history.length = h.histpos then h.text.take bufsiz else h.def_)
  | 0, _, _, _, h1, _ => absurd h1 (by omega)
  | i + 1, h, hne, hle, _, hi => by
    obtain ⟨r, e1, e2, e3, e4, e5⟩ := navhistory_older bufsiz h hne (by omega) hle
    by_cases hi0 : i = 0
    · subst hi0
      refine ⟨r, ?_, e2, e3, e4, e5⟩
      simp [navsteps, e1]
    · obtain ⟨r2, f1, f2, f3, f4, f5⟩ := navsteps_older bufsiz i r (by rw [e2]; exact hne)
        (by rw [e2, e3]; omega) (by omega) (by rw [e3]; omega)
      refine ⟨r2, ?_, by rw [f2, e2], by rw [f3, e3]; omega, ?_, ?_⟩
      · simp only [List.replicate_succ, navsteps, e1]
        exact f1
      · rw [f4, e2, e3]
        congr 2
        omega
      · rw [f5, e2, e3, e5]
        rw [if_neg (by omega)]

/-- After `k` steps towards newer records from position `histsz - k`. -/
theorem navsteps_newer (bufsiz : Nat) :
    ∀ (k : Nat) (h : Hist), 1 ≤ k → h.histpos + k = h.history.length →
      ∃ h1, navsteps bufsiz (List.replicate k 1) h = some h1 ∧
        h1.histpos = h.history.length ∧ h1.text = h.def_.take (bufsiz - 1)
  | 0, _, h1, _ => absurd h1 (by omega)
  | k + 1, h, _, hk => by
    by_cases hk0 : k = 0
    · subst hk0
      obtain ⟨r, e1, _, e3, e4, _⟩ := navhistory_newer_last bufsiz h (by omega)
      refine ⟨r, ?_, e3, e4⟩
      simp [navsteps, e1]
    · obtain ⟨r, e1, e2, e3, _, e5⟩ := navhistory_newer_mid bufsiz h (by omega)
      obtain ⟨r2, f1, f2, f3⟩ := navsteps_newer bufsiz k r (by omega) (by rw [e2, e3]; omega)
      refine ⟨r2, ?_, by rw [f2, e2], by rw [f3, e5]⟩
      simp only [List.replicate_succ, navsteps, e1]
      exact f1
theorem option_cases {α : Type} (o : Option α) : o = none ∨ ∃ a, o = some a := by
  cases o with
  | none => exact Or.inl rfl
  | some a => exact Or.inr ⟨a, rfl⟩


/-- A history file of one line of `n` letters, read with `BUFSIZ = n`: the first step
towards older records keeps `n - 1` letters. -/
theorem navhistory_long_record (n : Nat) (hn : 1 ≤ n) :
    ∃ h0, histinit 8 (some (List.replicate n 'a')) [] 0 = some h0 ∧
      h0.history = [List.replicate n 'a'] ∧
      ∃ h1, navsteps n [-1] h0 = some h1 ∧
        h1.histpos = 0 ∧ h1.text = List.replicate (n - 1) 'a' ∧
        h1.text ≠ h0.history.getD 0 [] := by
  have hread : readrecords (some (List.replicate n 'a')) = [List.replicate n 'a'] := by
    have hnl : '\n' ∉ List.replicate n 'a' := by
      intro hmem
      have := List.eq_of_mem_replicate hmem
      exact absurd this (by decide)
    have h := readrecords_records [] (by simp) (List.replicate n 'a') hnl
    have hne : List.replicate n 'a' ≠ [] := by
      intro e
      have := congrArg List.length e
      simp at this
      omega
    simpa [hne] using h
  have hload : loadhistory 8 (some (List.replicate n 'a')) = some [List.replicate n 'a'] := by
    rw [loadhistory_eq 8 (by decide), hread]
    rfl
  have hinit : histinit 8 (some (List.replicate n 'a')) [] 0 =
      some ⟨[List.replicate n 'a'], 1, [], [], 0⟩ := by
    unfold histinit
    rw [hload]
    rfl
  refine ⟨_, hinit, rfl, ?_⟩
  obtain ⟨r, e1, _, e3, e4, _⟩ := navsteps_older n 1
    ⟨[List.replicate n 'a'], 1, [], [], 0⟩ (by simp) (by simp) (le_refl 1) (by simp)
  have htext : r.text = List.replicate (n - 1) 'a' := by
    rw [e4]
    simp [List.take_replicate]
  refine ⟨r, e1, e3, htext, ?_⟩
  rw [htext]
  intro e
  have := congrArg List.length e
  simp at this
  omega

/-- Claim C11, as stated, fails for a record of `BUFSIZ` or more characters. With
`BUFSIZ = 8192` and a history file whose one line is 8192 times the letter a, the
first step towards older records sets the query to 8191 letters, not to the record. -/
theorem C11_counterexample :
    ∃ h0, histinit 8 (some (List.replicate 8192 'a')) [] 0 = some h0 ∧
      h0.history = [List.replicate 8192 'a'] ∧
      ∃ h1, navsteps 8192 [-1] h0 = some h1 ∧
        h1.histpos = 0 ∧ h1.text = List.replicate (8192 - 1) 'a' ∧
        h1.text ≠ h0.history.getD 0 [] :=
  navhistory_long_record 8192 (by decide)

/-- Claim C11, amended. For every history of `histsz ≥ 1` records and every query text
(shorter than `BUFSIZ`, as the text buffer requires), starting at `histpos = histsz`:
the `i`-th step towards older records, `1 ≤ i ≤ histsz`, sets `histpos` to
`histsz - i` and the query to the first `BUFSIZ - 1` characters of
`history[histsz - i]`, which is the record itself when it is shorter than `BUFSIZ`;
and after `k ≤ histsz` steps towards older records followed by `k` steps towards
newer ones the query text is the original text and `histpos = histsz` again. -/
theorem C11_history_navigation (bufsiz : Nat) (history : List CStr) (hne : history ≠ [])
    (text : CStr) (htext : text.length < bufsiz) (cursor : Nat) (def0 : CStr) :
    (∀ i, 1 ≤ i → i ≤ history.length →
      ∃ h1, navsteps bufsiz (List.replicate i (-1))
          ⟨history, history.length, def0, text, cursor⟩ = some h1 ∧
        h1.histpos = history.length - i ∧
        h1.text = (history.getD (history.length - i) []).take (bufsiz - 1) ∧
        ((history.getD (history.length - i) []).length < bufsiz →
          h1.text = history.getD (history.length - i) [])) ∧
      (∀ k, k ≤ history.length →
        ∃ h2, navsteps bufsiz (List.replicate k (-1) ++ List.replicate k 1)
            ⟨history, history.length, def0, text, cursor⟩ = some h2 ∧
          h2.text = text ∧ h2.histpos = history.length) := by
  constructor
  · intro i hi1 hi2
    obtain ⟨r, e1, _, e3, e4, _⟩ := navsteps_older bufsiz i
      ⟨history, history.length, def0, text, cursor⟩ hne (le_refl _) hi1 hi2
    simp only at e3 e4
    refine ⟨r, e1, e3, e4, ?_⟩
    intro hlen
    rw [e4]
    exact List.take_of_length_le (by omega)
  · intro k hk
    by_cases hk0 : k = 0
    · subst hk0
      exact ⟨⟨history, history.length, def0, text, cursor⟩, rfl, rfl, rfl⟩
    · obtain ⟨r, e1, e2, e3, _, e5⟩ := navsteps_older bufsiz k
        ⟨history, history.length, def0, text, cursor⟩ hne (le_refl _) (by omega) hk
      simp only at e2 e3 e5
      obtain ⟨r2, f1, f2, f3⟩ := navsteps_newer bufsiz k r (by omega)
        (by rw [e2, e3]; omega)
      refine ⟨r2, ?_, ?_, by rw [f2, e2]⟩
      · rw [navsteps_append bufsiz _ _ _ r e1]
        exact f1
      · rw [f3, e5, if_pos trivial, List.take_of_length_le (l := text) (by omega),
          List.take_of_length_le (by omega)]

/-- Witness of the amended C11: the history a, bb, ccc with the query q and
`BUFSIZ = 8192`; two steps back and two steps forth restore the query. -/
theorem C11_history_navigation_witness :
    ∃ h2, navsteps 8192 (List.replicate 2 (-1) ++ List.replicate 2 1)
        ⟨["a".toList, "bb".toList, "ccc".toList], 3, [], "q".toList, 1⟩ = some h2 ∧
      h2.text = "q".toList ∧ h2.histpos = 3 :=
  (C11_history_navigation 8192 ["a".toList, "bb".toList, "ccc".toList] (by decide)
    "q".toList (by decide) 1 []).2 2 (by decide)

/-- Claim C12. From the state that `loadhistory` leaves (`histpos = histsz`), for a
history of any records, every finite sequence of `navhistory` calls (in either
direction) reads only records inside the history and leaves `histpos` between 0 and
`histsz`; a step towards older records at `histpos = 0` and a step towards newer
records at `histpos = histsz` change neither `histpos` nor the query text. -/
theorem C12_histpos_in_bounds (bufsiz : Nat) (ptr : Nat) (file : Option (List Char))
    (history : List CStr) (text : CStr) (cursor : Nat) (dirs : List Int) :
    (∃ h1, navsteps bufsiz dirs ⟨history, history.length, [], text, cursor⟩ = some h1 ∧
      h1.history = history ∧ 0 ≤ h1.histpos ∧ h1.histpos ≤ h1.history.length) ∧
    (∀ h0, histinit ptr file text cursor = some h0 →
      loadhistory ptr file = some h0.history ∧
      ∃ h1, navsteps bufsiz dirs h0 = some h1 ∧
        h1.history = h0.history ∧ 0 ≤ h1.histpos ∧ h1.histpos ≤ h1.history.length) ∧
    (∀ h : Hist, h.histpos ≤ h.history.length →
      (h.histpos = 0 →
        ∃ h1, navhistory bufsiz (-1) h = some h1 ∧ h1.histpos = h.histpos ∧
          h1.text = h.text) ∧
      (h.histpos = h.history.length →
        ∃ h1, navhistory bufsiz 1 h = some h1 ∧ h1.histpos = h.histpos ∧
          h1.text = h.text)) := by
  refine ⟨?_, ?_, ?_⟩
  · obtain ⟨r, e1, e2, e3⟩ := navsteps_inv bufsiz dirs
      ⟨history, history.length, [], text, cursor⟩ (le_refl _)
    exact ⟨r, e1, e2, Nat.zero_le _, e3⟩
  · intro h0 hh
    unfold histinit at hh
    rcases option_cases (loadhistory ptr file) with hl | ⟨hs, hl⟩
    · rw [hl] at hh
      exact absurd hh (by simp)
    · rw [hl] at hh
      simp only [Option.map_some', Option.some.injEq] at hh
      subst hh
      refine ⟨hl, ?_⟩
      obtain ⟨r, e1, e2, e3⟩ := navsteps_inv bufsiz dirs
        ⟨hs, hs.length, [], text, cursor⟩ (le_refl _)
      exact ⟨r, e1, e2, Nat.zero_le _, e3⟩
  · intro h _
    constructor
    · intro h0
      obtain ⟨r, e1, _, e3, e4⟩ := navhistory_older_at_zero bufsiz h h0
      exact ⟨r, e1, e3, e4⟩
    · intro htop
      obtain ⟨r, e1, _, e3, e4⟩ := navhistory_newer_at_top bufsiz h htop
      exact ⟨r, e1, e3, e4⟩

/-- Witness of C12: at the oldest record of the history a, b a further step towards
older records changes nothing. -/
theorem C12_histpos_in_bounds_witness :
    ∃ h1, navhistory 8192 (-1) ⟨["a".toList, "b".toList], 0, "q".toList, "a".toList, 1⟩ =
        some h1 ∧
      h1.histpos = 0 ∧ h1.text = "a".toList :=
  ((C12_histpos_in_bounds 8192 8 none [] [] 0 []).2.2
    ⟨["a".toList, "b".toList], 0, "q".toList, "a".toList, 1⟩ (by decide)).1 rfl

/-! ## Commit -/

theorem putselected_eq {K : Type} (items : List (Item K)) (sel : Option (Item K)) :
    ∀ selid : List Int, (∀ x ∈ selid, x = -1 ∨ (0 ≤ x ∧ x.toNat < items.length)) →
      putselected items sel selid =
        some ((selid.filter (fun x => decide (x ≠ -1 ∧ ishighlighted sel x = false))).map
          (fun x => ((items[x.toNat]?).map Item.text).getD []))
  | [], _ => rfl
  | x :: xs, hx => by
    have ih := putselected_eq items sel xs (fun y hy => hx y (List.mem_cons_of_mem _ hy))
    unfold putselected
    by_cases hc : x ≠ -1 ∧ ishighlighted sel x = false
    · rw [if_pos hc, List.filter_cons_of_pos (by simpa using hc)]
      rcases hx x (List.mem_cons_self _ _) with h1 | ⟨h0, hlt⟩
      · exact absurd h1 hc.1
      · rw [if_neg (by omega), ih]
        simp [List.getElem?_eq_getElem hlt]
    · rw [if_neg hc, List.filter_cons_of_neg (by simpa using hc)]
      exact ih

theorem reuseslot_mem_iff (id : Int) :
    ∀ (selid s : List Int), reuseslot selid id = some s →
      ∀ x, x ≠ -1 → (x ∈ s ↔ x = id ∨ x ∈ selid)
  | [], s, h => by simp [reuseslot] at h
  | y :: ys, s, h => by
    intro x hx
    unfold reuseslot at h
    by_cases hy : y = -1
    · rw [if_pos hy] at h
      simp only [Option.some.injEq] at h
      subst h
      subst hy
      simp only [List.mem_cons]
      constructor
      · rintro (e | e)
        · exact Or.inl e
        · exact Or.inr (Or.inr e)
      · rintro (e | e | e)
        · exact Or.inl e
        · exact absurd e hx
        · exact Or.inr e
    · rw [if_neg hy] at h
      obtain ⟨r, hr, hs⟩ := Option.map_eq_some'.mp h
      subst hs
      have ih := reuseslot_mem_iff id ys r hr x hx
      simp only [List.mem_cons, ih]
      constructor
      · rintro (e | e | e)
        · exact Or.inr (Or.inl e)
        · exact Or.inl e
        · exact Or.inr (Or.inr e)
      · rintro (e | e | e)
        · exact Or.inr (Or.inl e)
        · exact Or.inl e
        · exact Or.inr (Or.inr e)

theorem toggle_mem_of_sel (selid : List Int) (id : Nat) (h : issel selid id = true) (n : Nat) :
    (n : Int) ∈ toggle selid id ↔ n ≠ id ∧ (n : Int) ∈ selid := by
  unfold toggle
  rw [if_pos h, List.mem_map]
  constructor
  · rintro ⟨y, hy, e⟩
    by_cases hyid : y = (id : Int)
    · rw [if_pos hyid] at e
      omega
    · rw [if_neg hyid] at e
      subst e
      exact ⟨fun e2 => hyid (by rw [e2]), hy⟩
  · rintro ⟨hne, hmem⟩
    refine ⟨(n : Int), hmem, ?_⟩
    rw [if_neg (by omega)]

theorem toggle_mem_of_not_sel (selid : List Int) (id : Nat) (h : issel selid id = false)
    (n : Nat) :
    (n : Int) ∈ toggle selid id ↔ n = id ∨ (n : Int) ∈ selid := by
  unfold toggle
  simp only [h, Bool.false_eq_true, if_false]
  cases hr : reuseslot selid (id : Int) with
  | none =>
    simp only [List.mem_append, List.mem_singleton]
    constructor
    · rintro (e | e)
      · exact Or.inr e
      · exact Or.inl (by omega)
    · rintro (e | e)
      · exact Or.inr (by omega)
      · exact Or.inl e
  | some s =>
    simp only
    rw [reuseslot_mem_iff _ selid s hr (n : Int) (by omega)]
    constructor
    · rintro (e | e)
      · exact Or.inl (by omega)
      · exact Or.inr e
    · rintro (e | e)
      · exact Or.inl (by omega)
      · exact Or.inr e

theorem toggle_entries (selid : List Int) (id : Nat) :
    ∀ x ∈ toggle selid id, x = -1 ∨ x = (id : Int) ∨ x ∈ selid := by
  intro x hx
  unfold toggle at hx
  cases hs : issel selid id
  · simp only [hs, Bool.false_eq_true, if_false] at hx
    cases hr : reuseslot selid (id : Int) with
    | none =>
      rw [hr] at hx
      simp only [List.mem_append, List.mem_singleton] at hx
      rcases hx with e | e
      · exact Or.inr (Or.inr e)
      · exact Or.inr (Or.inl e)
    | some s =>
      rw [hr] at hx
      simp only at hx
      by_cases hx1 : x = -1
      · exact Or.inl hx1
      · exact Or.inr ((reuseslot_mem_iff _ selid s hr x hx1).mp hx)
  · simp only [hs, if_true] at hx
    obtain ⟨y, hy, e⟩ := List.mem_map.mp hx
    by_cases hyid : y = (id : Int)
    · rw [if_pos hyid] at e
      exact Or.inl e.symm
    · rw [if_neg hyid] at e
      subst e
      exact Or.inr (Or.inr hy)

/-- The slots of `selid` after a sequence of toggles hold the selected ids and
nothing else but tombstones. -/
theorem toggles_inv (ids : List Nat) :
    ∀ (s : List Int) (acc : List Nat), acc.Nodup → (∀ n : Nat, (n : Int) ∈ s ↔ n ∈ acc) →
      (∀ x ∈ s, x = -1 ∨ ∃ n : Nat, x = (n : Int)) →
      (∀ n : Nat, (n : Int) ∈ ids.foldl toggle s ↔
        n ∈ ids.foldl (fun acc id => if id ∈ acc then acc.erase id else acc ++ [id]) acc) ∧
      (∀ x ∈ ids.foldl toggle s, x = -1 ∨ ∃ n : Nat, x = (n : Int) ∧ (n ∈ ids ∨ n ∈ acc)) := by
  induction ids with
  | nil =>
    intro s acc _ hmem hent
    refine ⟨hmem, ?_⟩
    intro x hx
    rcases hent x hx with e | ⟨n, e⟩
    · exact Or.inl e
    · refine Or.inr ⟨n, e, Or.inr ?_⟩
      rw [← hmem n, ← e]
      exact hx
  | cons id rest ih =>
    intro s acc hnd hmem hent
    rw [List.foldl_cons, List.foldl_cons]
    have hent2 : ∀ x ∈ toggle s id, x = -1 ∨ ∃ n : Nat, x = (n : Int) := by
      intro x hx
      rcases toggle_entries s id x hx with e | e | e
      · exact Or.inl e
      · exact Or.inr ⟨id, e⟩
      · exact hent x e
    by_cases hsel : id ∈ acc
    · have hs : issel s id = true := (issel_iff s id).mpr ((hmem id).mpr hsel)
      rw [if_pos hsel]
      have hmem2 : ∀ n : Nat, (n : Int) ∈ toggle s id ↔ n ∈ acc.erase id := by
        intro n
        rw [toggle_mem_of_sel s id hs n, hnd.mem_erase_iff, hmem n]
      obtain ⟨r1, r2⟩ := ih (toggle s id) (acc.erase id) (hnd.erase id) hmem2 hent2
      refine ⟨r1, ?_⟩
      intro x hx
      rcases r2 x hx with e | ⟨n, e, hn⟩
      · exact Or.inl e
      · refine Or.inr ⟨n, e, ?_⟩
        rcases hn with hn | hn
        · exact Or.inl (List.mem_cons_of_mem _ hn)
        · exact Or.inr (List.mem_of_mem_erase hn)
    · have hs : issel s id = false := by
        rw [← Bool.not_eq_true, issel_iff, hmem id]
        exact hsel
      rw [if_neg hsel]
      have hmem2 : ∀ n : Nat, (n : Int) ∈ toggle s id ↔ n ∈ acc ++ [id] := by
        intro n
        rw [toggle_mem_of_not_sel s id hs n, List.mem_append, List.mem_singleton, hmem n]
        exact or_comm
      have hnd2 : (acc ++ [id]).Nodup := by
        refine List.Nodup.append hnd (List.nodup_singleton _) ?_
        intro y hy1 hy2
        rw [List.mem_singleton] at hy2
        subst hy2
        exact hsel hy1
      obtain ⟨r1, r2⟩ := ih (toggle s id) (acc ++ [id]) hnd2 hmem2 hent2
      refine ⟨r1, ?_⟩
      intro x hx
      rcases r2 x hx with e | ⟨n, e, hn⟩
      · exact Or.inl e
      · refine Or.inr ⟨n, e, ?_⟩
        rcases hn with hn | hn
        · exact Or.inl (List.mem_cons_of_mem _ hn)
        · rcases List.mem_append.mp hn with h1 | h1
          · exact Or.inr h1
          · rw [List.mem_singleton] at h1
            exact Or.inl (h1 ▸ List.mem_cons_self _ _)

/-- Claim C14, as stated, fails. After the toggles of the ids 0, 1, 0, 2 the ids 1 and
2 are selected, in that order, and `selid` holds 2 in the reused first slot and 1 in
the second; on commit with the item d highlighted the output is c, b, d, not b, c, d.
With Shift held the last line is the query q although an item is highlighted. -/
theorem C14_counterexample :
    [0, 1, 0, 2].foldl toggle [] = [2, 1] ∧ selectionOrder [0, 1, 0, 2] = [1, 2] ∧
      commitlines (letterItems ℚ) ([0, 1, 0, 2].foldl toggle []) ((letterItems ℚ)[3]?)
          "q".toList false = some ["c".toList, "b".toList, "d".toList] ∧
      commitlines (letterItems ℚ) ([0, 1, 0, 2].foldl toggle []) ((letterItems ℚ)[3]?)
          "q".toList true = some ["c".toList, "b".toList, "q".toList] := by
  decide

/-- Claim C14, amended. On commit (Return without Control, the highlighted item
carrying no JSON value) after any sequence of toggles of ids of the store, the slots
of `selid` hold exactly the currently selected ids, and the output is the texts of the ids in the slots other than tombstones, in
slot order, leaving out the highlighted item, followed by one last line: the text of
the highlighted item when an item is highlighted and Shift is not held, the raw
query text otherwise. -/
theorem C14_commit_output {K : Type} (items : List (Item K)) (ids : List Nat)
    (hids : ∀ id ∈ ids, id < items.length) (sel : Option (Item K)) (text : CStr)
    (shift : Bool) :
    commitlines items (ids.foldl toggle []) sel text shift =
        some (((ids.foldl toggle []).filter
            (fun x => decide (x ≠ -1 ∧ ishighlighted sel x = false))).map
            (fun x => ((items[x.toNat]?).map Item.text).getD []) ++
          [match sel with
            | none => text
            | some s => if shift then text else s.text]) ∧
      (∀ n : Nat, (n : Int) ∈ ids.foldl toggle [] ↔ n ∈ selectionOrder ids) := by
  obtain ⟨r1, r2⟩ := toggles_inv ids [] [] List.nodup_nil (by simp) (by simp)
  refine ⟨?_, r1⟩
  unfold commitlines
  rw [putselected_eq items sel (ids.foldl toggle [])]
  · rfl
  · intro x hx
    rcases r2 x hx with e | ⟨n, e, hn⟩
    · exact Or.inl e
    · right
      rcases hn with hn | hn
      · have := hids n hn
        subst e
        exact ⟨Int.ofNat_nonneg n, by simpa using this⟩
      · simp at hn

/-- Witness of the amended C14: the toggles 0, 1, 0, 2 on the store a, b, c, d with d
highlighted. -/
theorem C14_commit_output_witness :
    commitlines (letterItems ℚ) ([0, 1, 0, 2].foldl toggle []) ((letterItems ℚ)[3]?)
        "q".toList false = some ["c".toList, "b".toList, "d".toList] :=
  (C14_commit_output (letterItems ℚ) [0, 1, 0, 2] (by decide) ((letterItems ℚ)[3]?)
    "q".toList false).1.trans (by decide)

/-! ## The loops of `calcoffsets` -/

theorem asUnsigned_small (x : Int) (h0 : 0 ≤ x) (h1 : x < 4294967296) : asUnsigned x = x := by
  unfold asUnsigned
  exact Int.emod_eq_of_lt h0 h1

theorem asInt_small (x : Int) (h0 : 0 ≤ x) (h1 : x < 2147483648) : asInt x = x := by
  unfold asInt
  have e : x % 4294967296 = x := Int.emod_eq_of_lt h0 (by omega)
  rw [e, if_pos h1]

theorem asUnsigned_mul (a b : Int) :
    asUnsigned (asUnsigned a * asUnsigned b) = asUnsigned (a * b) := by
  unfold asUnsigned
  exact (Int.mul_emod a b 4294967296).symm

theorem asUnsigned_add (a b : Int) :
    asUnsigned (asUnsigned a + b) = asUnsigned (a + b) := by
  unfold asUnsigned
  exact Int.emod_add_emod a 4294967296 b

theorem asUnsigned_sub (a b : Int) :
    asUnsigned (asUnsigned a - asUnsigned b) = asUnsigned (a - b) := by
  unfold asUnsigned
  exact (Int.sub_emod a b 4294967296).symm

theorem TEXTW_range (L : Layout) (s : CStr) : 0 ≤ TEXTW L s ∧ TEXTW L s < 4294967296 := by
  unfold TEXTW asUnsigned
  exact ⟨Int.emod_nonneg _ (by decide), Int.emod_lt_of_pos _ (by decide)⟩

/-- In range, the budget that `calcoffsets` computes is the budget of the
specification. -/
theorem budget_eq (L : Layout) (hR : InRange L) : budget L = specBudget L := by
  obtain ⟨h0, h1, _⟩ := hR
  by_cases hl : L.lines > 0
  · have hs : specBudget L = (L.lines : Int) * (L.columns : Int) * L.bh := by
      unfold specBudget
      rw [if_pos hl]
      push_cast
      rfl
    rw [hs] at h0 h1 ⊢
    unfold budget
    rw [if_pos hl, asUnsigned_mul, asUnsigned_small _ h0 (by omega),
      asInt_small _ h0 (by omega)]
  · have hs : specBudget L =
        L.mw - (L.promptw + L.inputw + TEXTW L ['<'] + TEXTW L ['>']) := by
      unfold specBudget
      rw [if_neg hl]
    rw [hs] at h0 h1 ⊢
    have e1 : asUnsigned (asUnsigned (asUnsigned (L.promptw + L.inputw) + TEXTW L ['<']) +
        TEXTW L ['>']) =
        asUnsigned (L.promptw + L.inputw + TEXTW L ['<'] + TEXTW L ['>']) := by
      unfold asUnsigned
      omega
    unfold budget
    rw [if_neg hl, e1, asUnsigned_sub, asUnsigned_small _ h0 (by omega),
      asInt_small _ h0 (by omega)]

/-- In range, the cost that `calcoffsets` adds is the cost of the specification. -/
theorem itemcost_eq {K : Type} (L : Layout) (hR : InRange L) (x : Item K) :
    itemcost L x = specCost L x := by
  have hb := budget_eq L hR
  obtain ⟨h0, h1, h2⟩ := hR
  unfold itemcost specCost
  by_cases hl : L.lines > 0
  · rw [if_pos hl, if_pos hl]
    exact asUnsigned_small _ (h2 hl).1 (by have := (h2 hl).2; omega)
  · rw [if_neg hl, if_neg hl, hb, asUnsigned_small _ h0 (by omega)]
    by_cases ht : TEXTW L x.text < specBudget L
    · rw [if_pos ht, min_eq_left (le_of_lt ht)]
    · rw [if_neg ht, min_eq_right (not_lt.mp ht)]

theorem specCost_range {K : Type} (L : Layout) (hR : InRange L) (x : Item K) :
    0 ≤ specCost L x ∧ specCost L x < 1073741824 := by
  obtain ⟨h0, h1, h2⟩ := hR
  unfold specCost
  by_cases hl : L.lines > 0
  · rw [if_pos hl]
    exact h2 hl
  · rw [if_neg hl]
    exact ⟨le_min (TEXTW_range L x.text).1 h0, lt_of_le_of_lt (min_le_right _ _) h1⟩

/-- While the running sum is within a budget in range, `i += cost` does not wrap. -/
theorem addcost_eq {K : Type} (L : Layout) (hR : InRange L) (x : Item K) (i : Int)
    (h0 : 0 ≤ i) (h1 : i ≤ specBudget L) :
    addcost i (itemcost L x) = i + specCost L x := by
  have hc := specCost_range L hR x
  have hb := hR.2.1
  unfold addcost
  rw [itemcost_eq L hR x, asUnsigned_add, asUnsigned_small _ (by omega) (by omega),
    asInt_small _ (by omega) (by omega)]

theorem nextloop_eq {K : Type} (L : Layout) (hR : InRange L) :
    ∀ (l : List (Item K)) (i : Int) (pos : Nat), 0 ≤ i → i ≤ specBudget L →
      nextloop L l i pos =
        if takecount L l i < l.length then some (pos + takecount L l i) else none
  | [], _, _, _, _ => by simp [nextloop, takecount]
  | x :: rest, i, pos, h0, h1 => by
    have hc := specCost_range L hR x
    unfold nextloop takecount
    rw [addcost_eq L hR x i h0 h1, budget_eq L hR]
    by_cases h : i + specCost L x > specBudget L
    · simp [h]
    · rw [if_neg h, if_neg h, nextloop_eq L hR rest (i + specCost L x) (pos + 1) (by omega)
        (by omega)]
      by_cases h2 : takecount L rest (i + specCost L x) < rest.length
      · rw [if_pos h2, if_pos (by simpa using h2)]
        congr 1
        omega
      · rw [if_neg h2, if_neg (by simpa using h2)]

theorem prevloop_eq {K : Type} (L : Layout) (hR : InRange L) :
    ∀ (l : List (Item K)) (i : Int) (pos : Nat), 0 ≤ i → i ≤ specBudget L →
      prevloop L l i pos = pos - takecount L l i
  | [], _, _, _, _ => by simp [prevloop, takecount]
  | x :: rest, i, pos, h0, h1 => by
    have hc := specCost_range L hR x
    unfold prevloop takecount
    rw [addcost_eq L hR x i h0 h1, budget_eq L hR]
    by_cases h : i + specCost L x > specBudget L
    · simp [h]
    · rw [if_neg h, if_neg h, prevloop_eq L hR rest (i + specCost L x) (pos - 1) (by omega)
        (by omega)]
      omega

/-- Whatever the layout, `prev` does not move to the right of `curr`. -/
theorem prevloop_le {K : Type} (L : Layout) :
    ∀ (l : List (Item K)) (i : Int) (pos : Nat), prevloop L l i pos ≤ pos
  | [], _, _ => by simp [prevloop]
  | x :: rest, i, pos => by
    unfold prevloop
    split_ifs
    · exact le_refl _
    · have := prevloop_le L rest (addcost i (itemcost L x)) (pos - 1)
      omega

theorem takecount_le {K : Type} (L : Layout) :
    ∀ (l : List (Item K)) (i : Int), takecount L l i ≤ l.length
  | [], _ => by simp [takecount]
  | x :: rest, i => by
    unfold takecount
    split_ifs
    · exact Nat.zero_le _
    · have := takecount_le L rest (i + specCost L x)
      simp only [List.length_cons]
      omega

/-- Every prefix that the running sum takes in stays within the budget. -/
theorem takecount_fits {K : Type} (L : Layout) :
    ∀ (l : List (Item K)) (i : Int) (k : Nat), 1 ≤ k → k ≤ takecount L l i →
      i + ((l.take k).map (specCost L)).sum ≤ specBudget L
  | [], _, k, h1, h2 => by
    simp [takecount] at h2
    omega
  | x :: rest, i, k, h1, h2 => by
    unfold takecount at h2
    by_cases h : i + specCost L x > specBudget L
    · rw [if_pos h] at h2
      omega
    · rw [if_neg h] at h2
      obtain ⟨k', rfl⟩ : ∃ k', k = k' + 1 := ⟨k - 1, by omega⟩
      simp only [List.take_succ_cons, List.map_cons, List.sum_cons]
      by_cases hk : k' = 0
      · subst hk
        simp only [List.take_zero, List.map_nil, List.sum_nil]
        omega
      · have := takecount_fits L rest (i + specCost L x) k' (by omega) (by omega)
        omega

/-- The item after the ones taken in, when there is one, exceeds the budget. -/
theorem takecount_stop {K : Type} (L : Layout) :
    ∀ (l : List (Item K)) (i : Int), takecount L l i < l.length →
      specBudget L < i + ((l.take (takecount L l i + 1)).map (specCost L)).sum
  | [], _, h => by simp at h
  | x :: rest, i, h => by
    unfold takecount at h ⊢
    by_cases hx : i + specCost L x > specBudget L
    · rw [if_pos hx]
      simp only [List.take_succ_cons, List.take_zero, List.map_cons, List.map_nil,
        List.sum_cons, List.sum_nil]
      omega
    · rw [if_neg hx] at h ⊢
      simp only [List.take_succ_cons, List.map_cons, List.sum_cons]
      have := takecount_stop L rest (i + specCost L x) (by simpa using h)
      omega

/-- With costs that are not negative, a prefix within the budget is taken in whole. -/
theorem takecount_ge {K : Type} (L : Layout) (hpos : ∀ x : Item K, 0 ≤ specCost L x) :
    ∀ (l : List (Item K)) (i : Int) (k : Nat), k ≤ l.length →
      i + ((l.take k).map (specCost L)).sum ≤ specBudget L → k ≤ takecount L l i
  | [], _, k, h1, _ => by
    simp at h1
    omega
  | x :: rest, i, k, h1, h2 => by
    by_cases hk : k = 0
    · omega
    · obtain ⟨k', rfl⟩ : ∃ k', k = k' + 1 := ⟨k - 1, by omega⟩
      simp only [List.take_succ_cons, List.map_cons, List.sum_cons] at h2
      have hnn : 0 ≤ ((rest.take k').map (specCost L)).sum :=
        List.sum_nonneg (by
          intro y hy
          obtain ⟨z, _, rfl⟩ := List.mem_map.mp hy
          exact hpos z)
      unfold takecount
      rw [if_neg (by omega)]
      have := takecount_ge L hpos rest (i + specCost L x) k' (by simpa using h1) (by omega)
      omega

theorem admits_cost {K : Type} (L : Layout) (hA : Admits L) (x : Item K) :
    0 ≤ specCost L x ∧ specCost L x ≤ specBudget L := by
  obtain ⟨⟨h0, _, _⟩, hg⟩ := hA
  unfold specCost
  by_cases hl : L.lines > 0
  · rw [if_pos hl]
    obtain ⟨hcol, hbh⟩ := hg hl
    refine ⟨le_of_lt hbh, ?_⟩
    unfold specBudget
    rw [if_pos hl]
    have h1 : (1 : Int) ≤ ((L.lines * L.columns : Nat) : Int) := by
      have : 1 ≤ L.lines * L.columns := Nat.mul_pos hl hcol
      exact_mod_cast this
    nlinarith [hbh]
  · rw [if_neg hl]
    constructor
    · exact le_min (TEXTW_range L x.text).1 h0
    · exact min_le_right _ _

theorem admits_budget (L : Layout) (hA : Admits L) : 0 ≤ specBudget L := hA.1.1

/-- When the budget admits an item, the first item is always taken in. -/
theorem takecount_pos {K : Type} (L : Layout) (hA : Admits L) (l : List (Item K))
    (hl : l ≠ []) : 1 ≤ takecount L l 0 := by
  cases l with
  | nil => exact absurd rfl hl
  | cons x rest =>
    unfold takecount
    have := (admits_cost L hA x).2
    rw [if_neg (by omega)]
    omega

/-- In grid mode the running sum takes in `lines * columns` items. -/
theorem takecount_grid {K : Type} (L : Layout) (hl : L.lines > 0) (hbh : 0 < L.bh) :
    ∀ (l : List (Item K)) (k : Nat), k ≤ L.lines * L.columns →
      takecount L l ((k : Int) * L.bh) = min (L.lines * L.columns - k) l.length
  | [], k, _ => by simp [takecount]
  | x :: rest, k, hk => by
    have hcost : specCost L x = L.bh := by
      unfold specCost
      rw [if_pos hl]
    have hbud : specBudget L = ((L.lines * L.columns : Nat) : Int) * L.bh := by
      unfold specBudget
      rw [if_pos hl]
    unfold takecount
    rw [hcost, hbud]
    have hsucc : (k : Int) * L.bh + L.bh = ((k + 1 : Nat) : Int) * L.bh := by
      push_cast
      ring
    rw [hsucc]
    by_cases hk2 : k = L.lines * L.columns
    · have : ((k + 1 : Nat) : Int) * L.bh > ((L.lines * L.columns : Nat) : Int) * L.bh := by
        rw [hk2]
        have : ((L.lines * L.columns : Nat) : Int) < ((L.lines * L.columns + 1 : Nat) : Int) := by
          exact_mod_cast Nat.lt_succ_self _
        exact mul_lt_mul_of_pos_right this hbh
      rw [if_pos this, hk2]
      simp
    · have hlt : k + 1 ≤ L.lines * L.columns := by omega
      have : ¬ ((k + 1 : Nat) : Int) * L.bh > ((L.lines * L.columns : Nat) : Int) * L.bh := by
        have h1 : ((k + 1 : Nat) : Int) ≤ ((L.lines * L.columns : Nat) : Int) := by
          exact_mod_cast hlt
        have := mul_le_mul_of_nonneg_right h1 (le_of_lt hbh)
        omega
      rw [if_neg this, takecount_grid L hl hbh rest (k + 1) hlt]
      simp only [List.length_cons]
      omega

theorem fwd_take_sum {K : Type} (L : Layout) (ms : List (Item K)) (c k : Nat) :
    (((ms.drop c).take k).map (specCost L)).sum = pagecost L ms c (c + k) := by
  unfold pagecost
  rw [Nat.add_sub_cancel_left]

theorem rev_take_sum {K : Type} (L : Layout) (ms : List (Item K)) (c k : Nat)
    (hc : c ≤ ms.length) :
    ((((ms.take c).reverse).take k).map (specCost L)).sum = pagecost L ms (c - k) c := by
  unfold pagecost
  have hlen : (ms.take c).length = c := by
    rw [List.length_take]
    omega
  rw [List.take_reverse, hlen, List.map_reverse, List.sum_reverse, List.drop_take]

/-- The position of `next` that `calcoffsets` computes, as a count of items. -/
theorem calc_next_eq {K : Type} (L : Layout) (hR : InRange L) (ms : List (Item K))
    (c : Nat) :
    nextloop L (ms.drop c) 0 c =
      if c + takecount L (ms.drop c) 0 < ms.length then
        some (c + takecount L (ms.drop c) 0) else none := by
  rw [nextloop_eq L hR _ 0 c (le_refl _) hR.1]
  by_cases h : takecount L (ms.drop c) 0 < (ms.drop c).length
  · rw [if_pos h, if_pos (by rw [List.length_drop] at h; omega)]
  · rw [if_neg h, if_neg (by rw [List.length_drop] at h; omega)]

theorem next_bounds {K : Type} (L : Layout) (hA : Admits L) (ms : List (Item K)) (c : Nat)
    (hc : c < ms.length) :
    ∀ j, nextloop L (ms.drop c) 0 c = some j → c < j ∧ j < ms.length := by
  intro j hj
  rw [calc_next_eq L hA.1] at hj
  have hne : ms.drop c ≠ [] := by
    intro e
    have := congrArg List.length e
    rw [List.length_drop] at this
    simp at this
    omega
  have := takecount_pos L hA (ms.drop c) hne
  split_ifs at hj with h
  simp only [Option.some.injEq] at hj
  omega

theorem prev_bounds {K : Type} (L : Layout) (hA : Admits L) (ms : List (Item K)) (c : Nat)
    (hc : c ≤ ms.length) :
    prevloop L (ms.take c).reverse 0 c ≤ c ∧
      (0 < c → prevloop L (ms.take c).reverse 0 c < c) := by
  rw [prevloop_eq L hA.1 _ 0 c (le_refl _) hA.1.1]
  refine ⟨Nat.sub_le _ _, ?_⟩
  intro h0
  have hne : (ms.take c).reverse ≠ [] := by
    intro e
    have := congrArg List.length e
    rw [List.length_reverse, List.length_take] at this
    simp only [List.length_nil] at this
    omega
  have := takecount_pos L hA _ hne
  omega

/-- The page computed from `prev` reaches at least up to the old `curr`. -/
theorem next_after_prev {K : Type} (L : Layout) (hA : Admits L) (ms : List (Item K)) (c : Nat)
    (hc : c ≤ ms.length) :
    ∀ j, nextloop L (ms.drop (prevloop L (ms.take c).reverse 0 c)) 0
        (prevloop L (ms.take c).reverse 0 c) = some j → c ≤ j := by
  intro j hj
  rw [calc_next_eq L hA.1] at hj
  rw [prevloop_eq L hA.1 _ 0 c (le_refl _) hA.1.1] at hj
  have hlen : ((ms.take c).reverse).length = c := by
    rw [List.length_reverse, List.length_take]
    omega
  have hk : takecount L (ms.take c).reverse 0 ≤ c := by
    have := takecount_le L (ms.take c).reverse 0
    omega
  have hsum : (0 : Int) + (((ms.drop (c - takecount L (ms.take c).reverse 0)).take
      (takecount L (ms.take c).reverse 0)).map (specCost L)).sum ≤ specBudget L := by
    by_cases h0 : takecount L (ms.take c).reverse 0 = 0
    · rw [h0]
      simpa using admits_budget L hA
    · have h1 := takecount_fits L (ms.take c).reverse 0 _ (by omega) (le_refl _)
      rw [rev_take_sum L ms c _ hc] at h1
      rw [fwd_take_sum]
      have e : c - takecount L (ms.take c).reverse 0 + takecount L (ms.take c).reverse 0 = c := by
        omega
      rw [e]
      exact h1
  have hge := takecount_ge L (fun x => (admits_cost L hA x).1)
    (ms.drop (c - takecount L (ms.take c).reverse 0)) 0 (takecount L (ms.take c).reverse 0)
    (by rw [List.length_drop]; omega) hsum
  split_ifs at hj with h
  simp only [Option.some.injEq] at hj
  omega
/-! ## Claims about `calcoffsets` -/

/-- Claim C18, as stated, fails outside the range of `int`. In a grid of one line and
268435456 columns with rows 16 high, `lines * columns * bh` is `2 ^ 32`, the budget
that `calcoffsets` computes is 0 and `next` is `curr`: the page holds no item, not
the `min (lines * columns) 3 = 3` items of the claim. In a strip 10 wide with arrows
of 10 each the budget is -10; with the claimed cost `min (width, n)` no running sum
exceeds it, so `next` would be null, but the unsigned comparison of `MIN` makes the
cost the width and `next` is `curr`. -/
theorem C18_counterexample :
    0 < gridWide.lines ∧ 0 < gridWide.bh ∧ budget gridWide = 0 ∧
      (calcoffsets gridWide
        (⟨fruitItems ℚ, none, some 0, none, some 0, [], 0⟩ : Menu ℚ)).next = some 0 ∧
      min (gridWide.lines * gridWide.columns) ((fruitItems ℚ).length - 0) = 3 ∧
      budget stripNarrow = -10 ∧ specBudget stripNarrow = -10 ∧
      (∀ j < 3, pagecost stripNarrow (fruitItems ℚ) 0 (j + 1) ≤ specBudget stripNarrow) ∧
      (calcoffsets stripNarrow
        (⟨fruitItems ℚ, none, some 0, none, some 0, [], 0⟩ : Menu ℚ)).next = some 0 := by
  decide

theorem inRange_gridOne : InRange gridOne := by
  unfold InRange
  decide

/-- Claim C18, amended. For a layout in range (the budget of the specification,
`lines * columns * bh` in grid mode and `mw - (promptw + inputw + TEXTW("<") +
TEXTW(">"))` in strip mode, lies in `[0, 2 ^ 30)`, and so does `bh` in grid mode),
every match list and non-null `curr` (at position `c`): the budget and the per-item
cost that `calcoffsets` computes are those of the specification, `bh` in grid mode
and `min (width, n)` in strip mode; `calcoffsets` sets `next` to the first item at or
after `curr` at which the running sum of the costs from `curr` exceeds the budget,
null when there is none, and `prev` to the farthest item reached leftwards from
`curr` while the running sum of the costs of the items passed stays within the
budget; in grid mode with `bh > 0` the page `[curr, next)` holds
`min (lines * columns) (items from curr to the tail)` items and `prev` lies
`min (lines * columns) c` items before `curr`. -/
theorem C18_calcoffsets_window {K : Type} (L : Layout) (hR : InRange L) (m : Menu K)
    (c : Nat) (hcurr : m.curr = some c) (hc : c < m.matches_.length) :
    (budget L = specBudget L ∧ ∀ x : Item K, itemcost L x = specCost L x) ∧
    (L.lines > 0 →
      budget L = ((L.lines * L.columns : Nat) : Int) * L.bh ∧
        ∀ x : Item K, itemcost L x = L.bh) ∧
    (¬ L.lines > 0 →
      budget L = L.mw - (L.promptw + L.inputw + TEXTW L ['<'] + TEXTW L ['>']) ∧
        ∀ x : Item K, itemcost L x = min (TEXTW L x.text) (budget L)) ∧
    (∀ j, (calcoffsets L m).next = some j ↔
      (c ≤ j ∧ j < m.matches_.length ∧ specBudget L < pagecost L m.matches_ c (j + 1) ∧
        ∀ j', c ≤ j' → j' < j → pagecost L m.matches_ c (j' + 1) ≤ specBudget L)) ∧
    ((calcoffsets L m).next = none ↔
      ∀ j, c ≤ j → j < m.matches_.length → pagecost L m.matches_ c (j + 1) ≤ specBudget L) ∧
    (∃ p, (calcoffsets L m).prev = some p ∧ p ≤ c ∧
      (∀ q, p ≤ q → q < c → pagecost L m.matches_ q c ≤ specBudget L) ∧
      (p = 0 ∨ specBudget L < pagecost L m.matches_ (p - 1) c)) ∧
    (L.lines > 0 → 0 < L.bh →
      (match (calcoffsets L m).next with
        | some j => j
        | none => m.matches_.length) - c =
          min (L.lines * L.columns) (m.matches_.length - c) ∧
      (calcoffsets L m).prev = some (c - min (L.lines * L.columns) c)) := by
  have hnext : (calcoffsets L m).next =
      if c + takecount L (m.matches_.drop c) 0 < m.matches_.length then
        some (c + takecount L (m.matches_.drop c) 0) else none := by
    unfold calcoffsets
    rw [hcurr]
    exact calc_next_eq L hR m.matches_ c
  have hprev : (calcoffsets L m).prev =
      some (c - takecount L (m.matches_.take c).reverse 0) := by
    unfold calcoffsets
    rw [hcurr]
    simp only
    rw [prevloop_eq L hR _ 0 c (le_refl _) hR.1]
  have hfit : ∀ k, 1 ≤ k → k ≤ takecount L (m.matches_.drop c) 0 →
      pagecost L m.matches_ c (c + k) ≤ specBudget L := by
    intro k h1 h2
    have := takecount_fits L (m.matches_.drop c) 0 k h1 h2
    rw [fwd_take_sum] at this
    omega
  have hstop : c + takecount L (m.matches_.drop c) 0 < m.matches_.length →
      specBudget L < pagecost L m.matches_ c (c + (takecount L (m.matches_.drop c) 0 + 1)) := by
    intro h
    have := takecount_stop L (m.matches_.drop c) 0 (by rw [List.length_drop]; omega)
    rw [fwd_take_sum] at this
    omega
  have hrevlen : ((m.matches_.take c).reverse).length = c := by
    rw [List.length_reverse, List.length_take]
    omega
  have hrle : takecount L (m.matches_.take c).reverse 0 ≤ c := by
    have := takecount_le L (m.matches_.take c).reverse 0
    omega
  refine ⟨⟨budget_eq L hR, itemcost_eq L hR⟩, ?_, ?_, ?_, ?_, ?_, ?_⟩
  · intro hl
    constructor
    · rw [budget_eq L hR]
      unfold specBudget
      rw [if_pos hl]
    · intro x
      rw [itemcost_eq L hR]
      unfold specCost
      rw [if_pos hl]
  · intro hl
    constructor
    · rw [budget_eq L hR]
      unfold specBudget
      rw [if_neg hl]
    · intro x
      rw [itemcost_eq L hR, budget_eq L hR]
      unfold specCost
      rw [if_neg hl]
  · intro j
    rw [hnext]
    constructor
    · intro hj
      split_ifs at hj with h
      simp only [Option.some.injEq] at hj
      subst hj
      refine ⟨by omega, h, ?_, ?_⟩
      · have := hstop h
        rwa [← Nat.add_assoc] at this
      · intro j' h1 h2
        have := hfit (j' - c + 1) (by omega) (by omega)
        have e : c + (j' - c + 1) = j' + 1 := by omega
        rwa [e] at this
    · rintro ⟨h1, h2, h3, h4⟩
      have hk : takecount L (m.matches_.drop c) 0 = j - c := by
        rcases Nat.lt_trichotomy (takecount L (m.matches_.drop c) 0) (j - c) with h | h | h
        · have hs := hstop (by omega)
          have := h4 (c + takecount L (m.matches_.drop c) 0) (by omega) (by omega)
          rw [← Nat.add_assoc] at hs
          omega
        · exact h
        · have := hfit (j - c + 1) (by omega) (by omega)
          have e : c + (j - c + 1) = j + 1 := by omega
          rw [e] at this
          omega
      rw [hk, if_pos (by omega)]
      congr 1
      omega
  · rw [hnext]
    constructor
    · intro hn j h1 h2
      split_ifs at hn with h
      have := hfit (j - c + 1) (by omega) (by
        have := takecount_le L (m.matches_.drop c) 0
        rw [List.length_drop] at this
        omega)
      have e : c + (j - c + 1) = j + 1 := by omega
      rwa [e] at this
    · intro hall
      rw [if_neg]
      intro h
      have hs := hstop h
      have := hall (c + takecount L (m.matches_.drop c) 0) (by omega) h
      rw [← Nat.add_assoc] at hs
      omega
  · refine ⟨_, hprev, Nat.sub_le _ _, ?_, ?_⟩
    · intro q h1 h2
      have := takecount_fits L (m.matches_.take c).reverse 0 (c - q) (by omega) (by omega)
      rw [rev_take_sum L m.matches_ c _ (le_of_lt hc)] at this
      have e : c - (c - q) = q := by omega
      rw [e] at this
      omega
    · by_cases h : takecount L (m.matches_.take c).reverse 0 < c
      · right
        have := takecount_stop L (m.matches_.take c).reverse 0 (by omega)
        rw [rev_take_sum L m.matches_ c _ (le_of_lt hc)] at this
        have e : c - (takecount L (m.matches_.take c).reverse 0 + 1) =
            c - takecount L (m.matches_.take c).reverse 0 - 1 := by omega
        rw [e] at this
        omega
      · left
        omega
  · intro hl hbh
    have h0 : ((0 : Nat) : Int) * L.bh = 0 := by simp
    have g1 := takecount_grid L hl hbh (m.matches_.drop c) 0 (Nat.zero_le _)
    have g2 := takecount_grid L hl hbh (m.matches_.take c).reverse 0 (Nat.zero_le _)
    rw [h0] at g1 g2
    rw [List.length_drop, Nat.sub_zero] at g1
    rw [hrevlen, Nat.sub_zero] at g2
    constructor
    · rw [hnext, g1]
      clear hstop hfit g1 g2 hnext hprev h0 hbh hl hrle hrevlen hcurr
      generalize L.lines * L.columns = P
      generalize m.matches_.length = len at *
      by_cases h : c + min P (len - c) < len
      · have hP : P ≤ len - c := by
          by_contra hcon
          rw [min_eq_right (le_of_lt (not_le.mp hcon))] at h
          omega
        rw [if_pos h, min_eq_left hP]
        show c + P - c = P
        omega
      · have hP : len - c ≤ P := by
          by_contra hcon
          rw [min_eq_left (le_of_lt (not_le.mp hcon))] at h
          omega
        rw [if_neg h, min_eq_right hP]
    · rw [hprev, g2]

/-- Witness of the amended C18: the fruit store in a grid of one line and one column,
with `curr` at the head: the page holds one item. -/
theorem C18_calcoffsets_window_witness :
    InRange gridOne ∧
      (match (calcoffsets gridOne
          (⟨fruitItems ℚ, none, some 0, none, some 0, [], 0⟩ : Menu ℚ)).next with
        | some j => j
        | none => (fruitItems ℚ).length) - 0 =
          min (gridOne.lines * gridOne.columns) ((fruitItems ℚ).length - 0) :=
  ⟨inRange_gridOne,
    ((C18_calcoffsets_window gridOne inRange_gridOne
      (⟨fruitItems ℚ, none, some 0, none, some 0, [], 0⟩ : Menu ℚ)
      0 rfl (by decide)).2.2.2.2.2.2 (by decide) (by decide)).1⟩

/-! ## The page-window invariant -/

theorem calcoffsets_frame {K : Type} (L : Layout) (m : Menu K) :
    (calcoffsets L m).matches_ = m.matches_ ∧ (calcoffsets L m).curr = m.curr ∧
      (calcoffsets L m).sel = m.sel ∧ (calcoffsets L m).text = m.text ∧
      (calcoffsets L m).cursor = m.cursor := by
  unfold calcoffsets
  cases m.curr <;> exact ⟨rfl, rfl, rfl, rfl, rfl⟩

theorem calcoffsets_some {K : Type} (L : Layout) (m : Menu K) (c : Nat)
    (hcurr : m.curr = some c) :
    (calcoffsets L m).next = nextloop L (m.matches_.drop c) 0 c ∧
      (calcoffsets L m).prev = some (prevloop L (m.matches_.take c).reverse 0 c) := by
  unfold calcoffsets
  rw [hcurr]
  exact ⟨rfl, rfl⟩

/-- The invariant only reads the match list and the four pointers. -/
theorem windowInv_congr {K : Type} (L : Layout) (m m1 : Menu K)
    (h1 : m1.matches_ = m.matches_) (h2 : m1.prev = m.prev) (h3 : m1.curr = m.curr)
    (h4 : m1.next = m.next) (h5 : m1.sel = m.sel) (h : WindowInv L m) : WindowInv L m1 := by
  unfold WindowInv at h ⊢
  rw [h1, h2, h3, h4, h5]
  exact h

/-- After `calcoffsets` the invariant holds as soon as `sel` lies on the new page. -/
theorem windowInv_calc {K : Type} (L : Layout) (m : Menu K) (c s : Nat)
    (hcurr : m.curr = some c) (hc : c < m.matches_.length) (hsel : m.sel = some s)
    (h1 : c ≤ s) (h2 : s < m.matches_.length)
    (h3 : ∀ j, nextloop L (m.matches_.drop c) 0 c = some j → s < j) :
    WindowInv L (calcoffsets L m) := by
  obtain ⟨f1, f2, f3, _, _⟩ := calcoffsets_frame L m
  obtain ⟨g1, g2⟩ := calcoffsets_some L m c hcurr
  right
  refine ⟨c, s, by rw [f2, hcurr], by rw [f1]; exact hc, by rw [g1, f1], by rw [g2, f1],
    by rw [f3, hsel], h1, by rw [f1]; exact h2, ?_⟩
  intro j hj
  rw [g1] at hj
  exact h3 j hj

/-- After `sel = curr = p; calcoffsets()` the invariant holds. -/
theorem windowInv_calc_self {K : Type} (L : Layout) (hA : Admits L) (m : Menu K) (c : Nat)
    (hcurr : m.curr = some c) (hc : c < m.matches_.length) (hsel : m.sel = some c) :
    WindowInv L (calcoffsets L m) :=
  windowInv_calc L m c c hcurr hc hsel (le_refl _) hc
    (fun j hj => (next_bounds L hA m.matches_ c hc j hj).1)

theorem headptr_eq {K : Type} (ms : List (Item K)) :
    (ms = [] → headptr ms = none) ∧ (ms ≠ [] → headptr ms = some 0) := by
  unfold headptr
  cases ms <;> simp

theorem tailptr_eq {K : Type} (ms : List (Item K)) :
    (ms = [] → tailptr ms = none) ∧ (ms ≠ [] → tailptr ms = some (ms.length - 1)) := by
  unfold tailptr
  cases ms <;> simp

/-- The invariant holds right after a match rebuild. -/
theorem windowInv_rebuild {K : Type} (L : Layout) (hA : Admits L) (ms : List (Item K))
    (text : CStr) (cursor : Nat) : WindowInv L (rebuild L ms text cursor) := by
  unfold rebuild
  by_cases hms : ms = []
  · subst hms
    left
    exact ⟨rfl, rfl, rfl, rfl, rfl⟩
  · have hh := (headptr_eq ms).2 hms
    exact windowInv_calc_self L hA _ 0 hh (List.length_pos.mpr hms) hh

theorem windowInv_pageOK {K : Type} (L : Layout) (hA : Admits L) (m : Menu K)
    (h : WindowInv L m) : PageOK m := by
  rcases h with ⟨h1, h2, h3, h4, h5⟩ | ⟨c, s, h1, h2, h3, h4, h5, h6, h7, h8⟩
  · refine ⟨fun hne => absurd h1 hne, ?_, ?_, ?_⟩
    · intro p hp
      rw [h4] at hp
      exact absurd hp (by simp)
    · intro j hj
      rw [h5] at hj
      exact absurd hj (by simp)
    · intro s hs
      rw [h3] at hs
      exact absurd hs (by simp)
  · refine ⟨fun _ => by rw [h1]; simp, ?_, ?_, ?_⟩
    · intro p hp
      rw [h4] at hp
      simp only [Option.some.injEq] at hp
      have := (prev_bounds L hA m.matches_ c (le_of_lt h2)).1
      omega
    · intro j hj
      rw [h3] at hj
      exact (next_bounds L hA m.matches_ c h2 j hj).2
    · intro s' hs'
      rw [h5] at hs'
      simp only [Option.some.injEq] at hs'
      subst hs'
      exact ⟨c, h1, h6, h7, h8⟩

theorem keyUp_inv {K : Type} (L : Layout) (hA : Admits L) (m : Menu K) (h : WindowInv L m) :
    WindowInv L (keyUp L m) := by
  rcases h with ⟨h1, h2, h3, h4, h5⟩ | ⟨c, s, h1, h2, h3, h4, h5, h6, h7, h8⟩
  · unfold keyUp
    rw [h3]
    exact Or.inl ⟨h1, h2, h3, h4, h5⟩
  · have hinv : WindowInv L m := Or.inr ⟨c, s, h1, h2, h3, h4, h5, h6, h7, h8⟩
    unfold keyUp
    rw [h5]
    dsimp only
    by_cases hs0 : s = 0
    · rw [if_pos hs0]
      exact hinv
    · rw [if_neg hs0]
      by_cases hsc : some s = m.curr
      · rw [if_pos hsc]
        have hsc2 : s = c := by
          rw [h1] at hsc
          exact Option.some.inj hsc
        subst hsc2
        have hpb := prev_bounds L hA m.matches_ s (le_of_lt h2)
        refine windowInv_calc L _ (prevloop L (m.matches_.take s).reverse 0 s) (s - 1)
          h4 ?_ rfl ?_ ?_ ?_
        · show prevloop L (m.matches_.take s).reverse 0 s < m.matches_.length
          omega
        · have := hpb.2 (by omega)
          omega
        · show s - 1 < m.matches_.length
          omega
        · intro j hj
          have := next_after_prev L hA m.matches_ s (le_of_lt h2) j hj
          omega
      · rw [if_neg hsc]
        have hne : s ≠ c := by
          intro e
          apply hsc
          rw [h1, e]
        right
        refine ⟨c, s - 1, h1, h2, h3, h4, rfl, by omega, ?_, ?_⟩
        · show s - 1 < m.matches_.length
          omega
        · intro j hj
          have := h8 j hj
          omega

theorem keyDown_inv {K : Type} (L : Layout) (hA : Admits L) (m : Menu K) (h : WindowInv L m) :
    WindowInv L (keyDown L m) := by
  rcases h with ⟨h1, h2, h3, h4, h5⟩ | ⟨c, s, h1, h2, h3, h4, h5, h6, h7, h8⟩
  · unfold keyDown
    rw [h3]
    exact Or.inl ⟨h1, h2, h3, h4, h5⟩
  · have hinv : WindowInv L m := Or.inr ⟨c, s, h1, h2, h3, h4, h5, h6, h7, h8⟩
    unfold keyDown
    rw [h5]
    dsimp only
    by_cases hs1 : s + 1 < m.matches_.length
    · rw [if_pos hs1]
      by_cases hsn : some (s + 1) = m.next
      · rw [if_pos hsn]
        exact windowInv_calc_self L hA _ (s + 1) hsn.symm hs1 rfl
      · rw [if_neg hsn]
        right
        refine ⟨c, s + 1, h1, h2, h3, h4, rfl, by omega, hs1, ?_⟩
        intro j hj
        have := h8 j hj
        have hne : j ≠ s + 1 := by
          intro e
          apply hsn
          show some (s + 1) = m.next
          rw [hj, e]
        omega
    · rw [if_neg hs1]
      exact hinv

theorem keyHome_inv {K : Type} (L : Layout) (hA : Admits L) (m : Menu K) (h : WindowInv L m) :
    WindowInv L (keypress L Key.home m) := by
  unfold keypress
  dsimp only
  by_cases hsel : m.sel = headptr m.matches_
  · rw [if_pos hsel]
    exact windowInv_congr L m _ rfl rfl rfl rfl rfl h
  · rw [if_neg hsel]
    rcases h with ⟨h1, h2, h3, h4, h5⟩ | ⟨c, s, h1, h2, h3, h4, h5, h6, h7, h8⟩
    · exfalso
      apply hsel
      rw [h3, (headptr_eq m.matches_).1 h1]
    · have hne : m.matches_ ≠ [] := by
        intro e
        rw [e] at h2
        simp at h2
      have hh := (headptr_eq m.matches_).2 hne
      exact windowInv_calc_self L hA _ 0 hh (List.length_pos.mpr hne) hh

theorem keyNext_inv {K : Type} (L : Layout) (hA : Admits L) (m : Menu K) (h : WindowInv L m) :
    WindowInv L (keypress L Key.pageNext m) := by
  unfold keypress
  dsimp only
  cases hn : m.next with
  | none =>
    simp only [Option.isSome_none, Bool.false_eq_true, if_false]
    exact h
  | some j =>
    simp only [Option.isSome_some, if_true]
    rcases h with ⟨h1, h2, h3, h4, h5⟩ | ⟨c, s, h1, h2, h3, h4, h5, h6, h7, h8⟩
    · rw [h5] at hn
      exact absurd hn (by simp)
    · have hj : j < m.matches_.length := by
        rw [h3] at hn
        exact (next_bounds L hA m.matches_ c h2 j hn).2
      exact windowInv_calc_self L hA _ j rfl hj rfl

theorem keyPrior_inv {K : Type} (L : Layout) (hA : Admits L) (m : Menu K) (h : WindowInv L m) :
    WindowInv L (keypress L Key.pagePrior m) := by
  unfold keypress
  dsimp only
  cases hp : m.prev with
  | none =>
    simp only [Option.isSome_none, Bool.false_eq_true, if_false]
    exact h
  | some p =>
    simp only [Option.isSome_some, if_true]
    rcases h with ⟨h1, h2, h3, h4, h5⟩ | ⟨c, s, h1, h2, h3, h4, h5, h6, h7, h8⟩
    · rw [h4] at hp
      exact absurd hp (by simp)
    · have hpl : p < m.matches_.length := by
        rw [h4] at hp
        simp only [Option.some.injEq] at hp
        have := (prev_bounds L hA m.matches_ c (le_of_lt h2)).1
        omega
      exact windowInv_calc_self L hA _ p rfl hpl rfl

theorem endloop_of_none {K : Type} (L : Layout) (rest : List (Item K)) (m : Menu K)
    (hn : m.next = none) : endloop L rest m = m := by
  cases rest <;> simp [endloop, hn]

theorem endloop_of_some {K : Type} (L : Layout) (x : Item K) (rest : List (Item K))
    (m : Menu K) (j : Nat) (hn : m.next = some j) :
    endloop L (x :: rest) m =
      endloop L rest (calcoffsets L { m with curr := m.curr.map (fun c => c + 1) }) := by
  simp [endloop, hn]

/-- The loop of the `XK_End` branch stops on a page without a next page. -/
theorem endloop_spec {K : Type} (L : Layout) (hA : Admits L) :
    ∀ (rest : List (Item K)) (m : Menu K) (c : Nat), m.curr = some c →
      c < m.matches_.length → rest = m.matches_.drop (c + 1) →
      m.next = nextloop L (m.matches_.drop c) 0 c →
      m.prev = some (prevloop L (m.matches_.take c).reverse 0 c) →
      ∃ c1, (endloop L rest m).curr = some c1 ∧ c1 < m.matches_.length ∧
        (endloop L rest m).next = none ∧
        (endloop L rest m).next = nextloop L (m.matches_.drop c1) 0 c1 ∧
        (endloop L rest m).prev = some (prevloop L (m.matches_.take c1).reverse 0 c1) ∧
        (endloop L rest m).matches_ = m.matches_
  | [], m, c, hcurr, hc, hrest, hnext, hprev => by
    have hlen : m.matches_.length ≤ c + 1 := by
      have := congrArg List.length hrest
      rw [List.length_drop] at this
      simp only [List.length_nil] at this
      omega
    have hnone : m.next = none := by
      rcases option_cases m.next with hn | ⟨j, hn⟩
      · exact hn
      · have hn2 := hn
        rw [hnext] at hn2
        have := next_bounds L hA m.matches_ c hc j hn2
        omega
    rw [endloop_of_none L [] m hnone]
    exact ⟨c, hcurr, hc, hnone, hnext, hprev, rfl⟩
  | x :: rest, m, c, hcurr, hc, hrest, hnext, hprev => by
    rcases option_cases m.next with hn | ⟨j, hn⟩
    · rw [endloop_of_none L _ m hn]
      exact ⟨c, hcurr, hc, hn, hnext, hprev, rfl⟩
    · rw [endloop_of_some L x rest m j hn]
      have hlen : c + 1 < m.matches_.length := by
        have := congrArg List.length hrest
        rw [List.length_drop] at this
        simp only [List.length_cons] at this
        omega
      have hrest2 : rest = m.matches_.drop (c + 1 + 1) := by
        have hd : m.matches_.drop (c + 1 + 1) = (m.matches_.drop (c + 1)).drop 1 := by
          rw [List.drop_drop]
        rw [hd, ← hrest]
        rfl
      have hcm : ({ m with curr := m.curr.map (fun c => c + 1) } : Menu K).curr =
          some (c + 1) := by
        show m.curr.map (fun c => c + 1) = some (c + 1)
        rw [hcurr]
        rfl
      obtain ⟨f1, f2, _, _, _⟩ :=
        calcoffsets_frame L { m with curr := m.curr.map (fun c => c + 1) }
      obtain ⟨g1, g2⟩ := calcoffsets_some L { m with curr := m.curr.map (fun c => c + 1) }
        (c + 1) hcm
      have f1' : (calcoffsets L { m with curr := m.curr.map (fun c => c + 1) }).matches_ =
          m.matches_ := f1
      have g1' : (calcoffsets L { m with curr := m.curr.map (fun c => c + 1) }).next =
          nextloop L (m.matches_.drop (c + 1)) 0 (c + 1) := g1
      have g2' : (calcoffsets L { m with curr := m.curr.map (fun c => c + 1) }).prev =
          some (prevloop L (m.matches_.take (c + 1)).reverse 0 (c + 1)) := g2
      obtain ⟨c1, r1, r2, r3, r4, r5, r6⟩ := endloop_spec L hA rest
        (calcoffsets L { m with curr := m.curr.map (fun c => c + 1) }) (c + 1)
        (by rw [f2]; exact hcm)
        (by rw [f1']; exact hlen) (by rw [f1']; exact hrest2) (by rw [g1', f1'])
        (by rw [g2', f1'])
      rw [f1'] at r2 r4 r5 r6
      exact ⟨c1, r1, r2, r3, r4, r5, r6⟩

theorem keyEnd_of_cursor {K : Type} (L : Layout) (m : Menu K) (hcur : m.cursor < m.text.length) :
    keypress L Key.endKey m = { m with cursor := m.text.length } := by
  unfold keypress
  dsimp only
  rw [if_pos hcur]

theorem keyEnd_of_none {K : Type} (L : Layout) (m : Menu K) (hcur : ¬ m.cursor < m.text.length)
    (hn : m.next = none) :
    keypress L Key.endKey m = { m with sel := tailptr m.matches_ } := by
  unfold keypress
  dsimp only
  rw [if_neg hcur, hn]
  simp

theorem keyEnd_of_some {K : Type} (L : Layout) (m : Menu K) (hcur : ¬ m.cursor < m.text.length)
    (j : Nat) (hn : m.next = some j) :
    keypress L Key.endKey m =
      { endloop L
          (rightOf (calcoffsets L { calcoffsets L { m with curr := tailptr m.matches_ } with
              curr := (calcoffsets L { m with curr := tailptr m.matches_ }).prev }).matches_
            (calcoffsets L { calcoffsets L { m with curr := tailptr m.matches_ } with
              curr := (calcoffsets L { m with curr := tailptr m.matches_ }).prev }).curr)
          (calcoffsets L { calcoffsets L { m with curr := tailptr m.matches_ } with
            curr := (calcoffsets L { m with curr := tailptr m.matches_ }).prev }) with
        sel := tailptr m.matches_ } := by
  unfold keypress
  dsimp only
  rw [if_neg hcur, if_pos (by rw [hn]; rfl)]

/-- The `XK_End` branch on a non-empty match list with the text cursor at the end. -/
theorem keyEnd_spec {K : Type} (L : Layout) (hA : Admits L) (m : Menu K) (h : WindowInv L m)
    (hne : m.matches_ ≠ []) (hcur : ¬ m.cursor < m.text.length) :
    ∃ c1, (keypress L Key.endKey m).curr = some c1 ∧ c1 < m.matches_.length ∧
      (keypress L Key.endKey m).next = none ∧
      (keypress L Key.endKey m).sel = some (m.matches_.length - 1) ∧
      (keypress L Key.endKey m).matches_ = m.matches_ ∧
      WindowInv L (keypress L Key.endKey m) := by
  have hpos : 0 < m.matches_.length := List.length_pos.mpr hne
  have htail := (tailptr_eq m.matches_).2 hne
  rcases h with ⟨h1, _⟩ | ⟨c, s, h1, h2, h3, h4, h5, h6, h7, h8⟩
  · exact absurd h1 hne
  · rcases option_cases m.next with hn | ⟨j, hn⟩
    · rw [keyEnd_of_none L m hcur hn]
      refine ⟨c, h1, h2, hn, htail, rfl, ?_⟩
      right
      refine ⟨c, m.matches_.length - 1, h1, h2, h3, h4, htail, by omega, ?_, ?_⟩
      · show m.matches_.length - 1 < m.matches_.length
        omega
      · intro j hj
        have hj2 : m.next = some j := hj
        rw [hn] at hj2
        exact absurd hj2 (by simp)
    · rw [keyEnd_of_some L m hcur j hn]
      obtain ⟨a1, _, _, _, _⟩ := calcoffsets_frame L { m with curr := tailptr m.matches_ }
      obtain ⟨_, a4⟩ := calcoffsets_some L { m with curr := tailptr m.matches_ }
        (m.matches_.length - 1) htail
      have a1' : (calcoffsets L { m with curr := tailptr m.matches_ }).matches_ = m.matches_ := a1
      have a4' : (calcoffsets L { m with curr := tailptr m.matches_ }).prev =
          some (prevloop L (m.matches_.take (m.matches_.length - 1)).reverse 0
            (m.matches_.length - 1)) := a4
      have hpb := (prev_bounds L hA m.matches_ (m.matches_.length - 1) (by omega)).1
      generalize calcoffsets L { m with curr := tailptr m.matches_ } = a at a1' a4' ⊢
      generalize prevloop L (m.matches_.take (m.matches_.length - 1)).reverse 0
        (m.matches_.length - 1) = p at hpb a4'
      obtain ⟨b1, b2, _, _, _⟩ := calcoffsets_frame L { a with curr := a.prev }
      obtain ⟨b3, b4⟩ := calcoffsets_some L { a with curr := a.prev } p a4'
      have b1' : (calcoffsets L { a with curr := a.prev }).matches_ = m.matches_ := by
        rw [b1]
        exact a1'
      have b2' : (calcoffsets L { a with curr := a.prev }).curr = some p := by
        rw [b2]
        exact a4'
      have b3' : (calcoffsets L { a with curr := a.prev }).next =
          nextloop L (m.matches_.drop p) 0 p := by
        rw [b3]
        show nextloop L (a.matches_.drop p) 0 p = _
        rw [a1']
      have b4' : (calcoffsets L { a with curr := a.prev }).prev =
          some (prevloop L (m.matches_.take p).reverse 0 p) := by
        rw [b4]
        show some (prevloop L (a.matches_.take p).reverse 0 p) = _
        rw [a1']
      generalize calcoffsets L { a with curr := a.prev } = b at b1' b2' b3' b4' ⊢
      have hright : rightOf b.matches_ b.curr = b.matches_.drop (p + 1) := by
        rw [b2']
        rfl
      rw [hright]
      obtain ⟨c1, r1, r2, r3, r4, r5, r6⟩ := endloop_spec L hA (b.matches_.drop (p + 1)) b p b2'
        (by rw [b1']; omega) rfl (by rw [b3', b1']) (by rw [b4', b1'])
      have r6' : (endloop L (b.matches_.drop (p + 1)) b).matches_ = m.matches_ := r6.trans b1'
      have r2' : c1 < m.matches_.length := by
        rw [← b1']
        exact r2
      refine ⟨c1, r1, r2', r3, htail, r6', ?_⟩
      right
      refine ⟨c1, m.matches_.length - 1, r1, ?_, ?_, ?_, htail, by omega, ?_, ?_⟩
      · show c1 < (endloop L (b.matches_.drop (p + 1)) b).matches_.length
        rw [r6']
        exact r2'
      · show (endloop L (b.matches_.drop (p + 1)) b).next =
          nextloop L ((endloop L (b.matches_.drop (p + 1)) b).matches_.drop c1) 0 c1
        rw [r6', r4, b1']
      · show (endloop L (b.matches_.drop (p + 1)) b).prev =
          some (prevloop L ((endloop L (b.matches_.drop (p + 1)) b).matches_.take c1).reverse 0 c1)
        rw [r6', r5, b1']
      · show m.matches_.length - 1 < (endloop L (b.matches_.drop (p + 1)) b).matches_.length
        rw [r6']
        omega
      · intro j2 hj2
        have : (endloop L (b.matches_.drop (p + 1)) b).next = some j2 := hj2
        rw [r3] at this
        exact absurd this (by simp)

theorem keyEnd_inv {K : Type} (L : Layout) (hA : Admits L) (m : Menu K) (h : WindowInv L m) :
    WindowInv L (keypress L Key.endKey m) := by
  by_cases hcur : m.cursor < m.text.length
  · rw [keyEnd_of_cursor L m hcur]
    exact windowInv_congr L m _ rfl rfl rfl rfl rfl h
  · by_cases hne : m.matches_ = []
    · rcases h with ⟨h1, h2, h3, h4, h5⟩ | ⟨c, s, h1, h2, h3, h4, h5, h6, h7, h8⟩
      · rw [keyEnd_of_none L m hcur h5]
        left
        exact ⟨h1, h2, (tailptr_eq m.matches_).1 h1, h4, h5⟩
      · rw [hne] at h2
        simp at h2
    · obtain ⟨_, _, _, _, _, _, r⟩ := keyEnd_spec L hA m h hne hcur
      exact r

theorem leftloop_some (c : Nat) :
    ∀ (k t : Nat) (off : Bool) (t1 : Nat) (off1 : Bool),
      leftloop (some c) k t off = some (t1, off1) →
      t1 = t - k ∧ k ≤ t ∧ (off1 = true ↔ off = true ∨ (t - k < c ∧ c ≤ t))
  | 0, t, off, t1, off1, h => by
    simp only [leftloop, Option.some.injEq, Prod.mk.injEq] at h
    obtain ⟨rfl, rfl⟩ := h
    refine ⟨rfl, Nat.zero_le _, ?_⟩
    constructor
    · intro e
      exact Or.inl e
    · rintro (e | ⟨e1, e2⟩)
      · exact e
      · omega
  | k + 1, t, off, t1, off1, h => by
    unfold leftloop at h
    by_cases ht : t = 0
    · rw [if_pos ht] at h
      exact absurd h (by simp)
    · rw [if_neg ht] at h
      obtain ⟨e1, e2, e3⟩ := leftloop_some c k (t - 1) _ t1 off1 h
      refine ⟨by omega, by omega, ?_⟩
      rw [e3]
      by_cases htc : t = c
      · subst htc
        simp only [if_true, true_or, true_iff]
        right
        omega
      · have hne : ¬ some t = some c := by
          intro e
          exact htc (Option.some.inj e)
        rw [if_neg hne]
        constructor
        · rintro (e | ⟨a1, a2⟩)
          · exact Or.inl e
          · exact Or.inr ⟨by omega, by omega⟩
        · rintro (e | ⟨a1, a2⟩)
          · exact Or.inl e
          · exact Or.inr ⟨by omega, by omega⟩

theorem rightloop_some (len : Nat) (next : Option Nat) :
    ∀ (k t : Nat) (off : Bool) (t1 : Nat) (off1 : Bool),
      rightloop len next k t off = some (t1, off1) →
      t1 = t + k ∧ (k = 0 ∨ t + k < len) ∧
        (off1 = true ↔ off = true ∨ ∃ j, next = some j ∧ t < j ∧ j ≤ t + k)
  | 0, t, off, t1, off1, h => by
    simp only [rightloop, Option.some.injEq, Prod.mk.injEq] at h
    obtain ⟨rfl, rfl⟩ := h
    refine ⟨rfl, Or.inl rfl, ?_⟩
    constructor
    · intro e
      exact Or.inl e
    · rintro (e | ⟨j, _, e1, e2⟩)
      · exact e
      · omega
  | k + 1, t, off, t1, off1, h => by
    unfold rightloop at h
    by_cases ht : t + 1 < len
    · rw [if_pos ht] at h
      obtain ⟨e1, e2, e3⟩ := rightloop_some len next k (t + 1) _ t1 off1 h
      refine ⟨by omega, Or.inr (by omega), ?_⟩
      rw [e3]
      by_cases htn : some (t + 1) = next
      · rw [if_pos htn]
        simp only [true_or, true_iff]
        right
        exact ⟨t + 1, htn.symm, by omega, by omega⟩
      · rw [if_neg htn]
        constructor
        · rintro (e | ⟨j, a0, a1, a2⟩)
          · exact Or.inl e
          · exact Or.inr ⟨j, a0, by omega, by omega⟩
        · rintro (e | ⟨j, a0, a1, a2⟩)
          · exact Or.inl e
          · refine Or.inr ⟨j, a0, ?_, by omega⟩
            have : j ≠ t + 1 := by
              intro e
              apply htn
              rw [a0, e]
            omega
    · rw [if_neg ht] at h
      exact absurd h (by simp)

/-- In grid mode `next` lies `lines * columns` items after `curr`. -/
theorem grid_next {K : Type} (L : Layout) (hR : InRange L) (hl : L.lines > 0)
    (hbh : 0 < L.bh) (ms : List (Item K)) (c : Nat) (hc : c ≤ ms.length) :
    nextloop L (ms.drop c) 0 c =
      if c + L.lines * L.columns < ms.length then some (c + L.lines * L.columns) else none := by
  have g := takecount_grid L hl hbh (ms.drop c) 0 (Nat.zero_le _)
  have h0 : ((0 : Nat) : Int) * L.bh = 0 := by simp
  rw [h0, List.length_drop, Nat.sub_zero] at g
  rw [calc_next_eq L hR, g]
  generalize L.lines * L.columns = P
  by_cases h : c + P < ms.length
  · have hP : P ≤ ms.length - c := by omega
    rw [min_eq_left hP, if_pos h]
  · have hP : ms.length - c ≤ P := by omega
    rw [min_eq_right hP, if_neg h, if_neg (by omega)]

/-- In grid mode `prev` lies `lines * columns` items before `curr`, or at the head. -/
theorem grid_prev {K : Type} (L : Layout) (hR : InRange L) (hl : L.lines > 0)
    (hbh : 0 < L.bh) (ms : List (Item K)) (c : Nat) (hc : c ≤ ms.length) :
    prevloop L (ms.take c).reverse 0 c = c - min (L.lines * L.columns) c := by
  have g := takecount_grid L hl hbh (ms.take c).reverse 0 (Nat.zero_le _)
  have h0 : ((0 : Nat) : Int) * L.bh = 0 := by simp
  have hlen : ((ms.take c).reverse).length = c := by
    rw [List.length_reverse, List.length_take]
    omega
  rw [h0, hlen, Nat.sub_zero] at g
  rw [prevloop_eq L hR _ 0 c (le_refl _) hR.1, g]

theorem admits_grid (L : Layout) (hA : Admits L) (hl : L.lines > 0) :
    0 < L.bh ∧ L.lines ≤ L.lines * L.columns :=
  ⟨(hA.2 hl).2, Nat.le_mul_of_pos_right _ (hA.2 hl).1⟩

theorem keyLeft_inv {K : Type} (L : Layout) (hA : Admits L) (m : Menu K) (h : WindowInv L m) :
    WindowInv L (keypress L Key.left m) := by
  unfold keypress
  dsimp only
  by_cases hcol : L.columns > 1
  · rw [if_pos hcol]
    rcases h with ⟨h1, h2, h3, h4, h5⟩ | ⟨c, s, h1, h2, h3, h4, h5, h6, h7, h8⟩
    · rw [h3]
      exact Or.inl ⟨h1, h2, h3, h4, h5⟩
    · have hinv : WindowInv L m := Or.inr ⟨c, s, h1, h2, h3, h4, h5, h6, h7, h8⟩
      rw [h5]
      dsimp only
      rcases option_cases (leftloop m.curr L.lines s false) with hll | ⟨⟨t, off⟩, hll⟩
      · rw [hll]
        exact hinv
      · rw [hll]
        dsimp only
        have hll2 := hll
        rw [h1] at hll2
        obtain ⟨e1, e2, e3⟩ := leftloop_some c L.lines s false t off hll2
        cases off with
        | false =>
          simp only [Bool.false_eq_true, if_false]
          have hnot : ¬ (s - L.lines < c ∧ c ≤ s) := by
            intro hh
            have := e3.mpr (Or.inr hh)
            exact absurd this (by simp)
          right
          refine ⟨c, t, h1, h2, h3, h4, rfl, by omega, ?_, ?_⟩
          · show t < m.matches_.length
            omega
          · intro j hj
            have := h8 j hj
            omega
        | true =>
          simp only [if_true]
          have hoff : s - L.lines < c ∧ c ≤ s := by
            rcases e3.mp rfl with e | e
            · exact absurd e (by simp)
            · exact e
          have hl : L.lines > 0 := by omega
          obtain ⟨hbh, hP⟩ := admits_grid L hA hl
          have hp := grid_prev L hA.1 hl hbh m.matches_ c (le_of_lt h2)
          refine windowInv_calc L _ (prevloop L (m.matches_.take c).reverse 0 c) t h4 ?_ rfl
            ?_ ?_ ?_
          · show prevloop L (m.matches_.take c).reverse 0 c < m.matches_.length
            rw [hp]
            omega
          · rw [hp]
            generalize L.lines * L.columns = P at hP
            rcases Nat.le_total P c with hPc | hPc
            · rw [min_eq_left hPc]
              omega
            · rw [min_eq_right hPc]
              omega
          · show t < m.matches_.length
            omega
          · intro j hj
            have hj2 : nextloop L (m.matches_.drop (prevloop L (m.matches_.take c).reverse 0 c)) 0
                (prevloop L (m.matches_.take c).reverse 0 c) = some j := hj
            rw [grid_next L hA.1 hl hbh m.matches_ _ (by rw [hp]; omega)] at hj2
            split_ifs at hj2 with hlt
            simp only [Option.some.injEq] at hj2
            rw [hp] at hj2
            generalize L.lines * L.columns = P at hP hj2
            rcases Nat.le_total P c with hPc | hPc
            · rw [min_eq_left hPc] at hj2
              omega
            · rw [min_eq_right hPc] at hj2
              omega
  · rw [if_neg hcol]
    by_cases hcur : m.cursor > 0 ∧ (m.sel = none ∨ m.sel = some 0 ∨ L.lines > 0)
    · rw [if_pos hcur]
      exact windowInv_congr L m _ rfl rfl rfl rfl rfl h
    · rw [if_neg hcur]
      by_cases hl : L.lines > 0
      · rw [if_pos hl]
        exact h
      · rw [if_neg hl]
        exact keyUp_inv L hA m h

theorem keyRight_inv {K : Type} (L : Layout) (hA : Admits L) (m : Menu K) (h : WindowInv L m) :
    WindowInv L (keypress L Key.right m) := by
  unfold keypress
  dsimp only
  by_cases hcol : L.columns > 1
  · rw [if_pos hcol]
    rcases h with ⟨h1, h2, h3, h4, h5⟩ | ⟨c, s, h1, h2, h3, h4, h5, h6, h7, h8⟩
    · rw [h3]
      exact Or.inl ⟨h1, h2, h3, h4, h5⟩
    · have hinv : WindowInv L m := Or.inr ⟨c, s, h1, h2, h3, h4, h5, h6, h7, h8⟩
      rw [h5]
      dsimp only
      rcases option_cases (rightloop m.matches_.length m.next L.lines s false) with
        hll | ⟨⟨t, off⟩, hll⟩
      · rw [hll]
        exact hinv
      · rw [hll]
        dsimp only
        obtain ⟨e1, e2, e3⟩ := rightloop_some m.matches_.length m.next L.lines s false t off hll
        have ht : t < m.matches_.length := by omega
        cases off with
        | false =>
          simp only [Bool.false_eq_true, if_false]
          right
          refine ⟨c, t, h1, h2, h3, h4, rfl, by omega, ht, ?_⟩
          intro j hj
          have hj2 : m.next = some j := hj
          have := h8 j hj2
          by_contra hcon
          have := e3.mpr (Or.inr ⟨j, hj2, by omega, by omega⟩)
          exact absurd this (by simp)
        | true =>
          simp only [if_true]
          obtain ⟨j, hj, hj1, hj2⟩ : ∃ j, m.next = some j ∧ s < j ∧ j ≤ s + L.lines := by
            rcases e3.mp rfl with e | e
            · exact absurd e (by simp)
            · exact e
          have hl : L.lines > 0 := by omega
          obtain ⟨hbh, hP⟩ := admits_grid L hA hl
          have hjl : j < m.matches_.length := by omega
          refine windowInv_calc L _ j t hj hjl rfl (by omega) ht ?_
          intro j2 hj3
          have hj4 : nextloop L (m.matches_.drop j) 0 j = some j2 := hj3
          rw [grid_next L hA.1 hl hbh m.matches_ j (le_of_lt hjl)] at hj4
          split_ifs at hj4 with hlt
          simp only [Option.some.injEq] at hj4
          omega
  · rw [if_neg hcol]
    by_cases hcur : m.cursor < m.text.length
    · rw [if_pos hcur]
      exact windowInv_congr L m _ rfl rfl rfl rfl rfl h
    · rw [if_neg hcur]
      by_cases hl : L.lines > 0
      · rw [if_pos hl]
        exact h
      · rw [if_neg hl]
        exact keyDown_inv L hA m h

/-- Every navigation key keeps the page-window invariant. -/
theorem keypress_inv {K : Type} (L : Layout) (hA : Admits L) (key : Key) (m : Menu K)
    (h : WindowInv L m) : WindowInv L (keypress L key m) := by
  cases key with
  | home => exact keyHome_inv L hA m h
  | endKey => exact keyEnd_inv L hA m h
  | pageNext => exact keyNext_inv L hA m h
  | pagePrior => exact keyPrior_inv L hA m h
  | up => exact keyUp_inv L hA m h
  | down => exact keyDown_inv L hA m h
  | left => exact keyLeft_inv L hA m h
  | right => exact keyRight_inv L hA m h

/-! ## The pointers and the End key for any budget -/

theorem endloop_matches {K : Type} (L : Layout) :
    ∀ (rest : List (Item K)) (m : Menu K), (endloop L rest m).matches_ = m.matches_
  | [], m => by
    unfold endloop
    split_ifs <;> rfl
  | _ :: rest, m => by
    unfold endloop
    split_ifs
    · rw [endloop_matches L rest]
      exact (calcoffsets_frame L _).1
    · rfl

/-- No navigation key changes the match list. -/
theorem keypress_matches {K : Type} (L : Layout) (key : Key) (m : Menu K) :
    (keypress L key m).matches_ = m.matches_ := by
  have hc : ∀ x : Menu K, (calcoffsets L x).matches_ = x.matches_ :=
    fun x => (calcoffsets_frame L x).1
  have hup : (keyUp L m).matches_ = m.matches_ := by
    unfold keyUp
    split
    · rfl
    · split_ifs
      · rfl
      · exact hc _
      · rfl
  have hdown : (keyDown L m).matches_ = m.matches_ := by
    unfold keyDown
    split
    · rfl
    · split_ifs
      · exact hc _
      · rfl
      · rfl
  cases key with
  | home =>
    unfold keypress
    dsimp only
    split_ifs
    · rfl
    · exact hc _
  | endKey =>
    unfold keypress
    dsimp only
    split_ifs
    · rfl
    · show (endloop L _ _).matches_ = m.matches_
      rw [endloop_matches, hc, hc]
    · rfl
  | pageNext =>
    unfold keypress
    dsimp only
    split_ifs
    · exact hc _
    · rfl
  | pagePrior =>
    unfold keypress
    dsimp only
    split_ifs
    · exact hc _
    · rfl
  | up => exact hup
  | down => exact hdown
  | left =>
    unfold keypress
    dsimp only
    split_ifs
    · split
      · rfl
      · split
        · rfl
        · split_ifs
          · exact hc _
          · rfl
    · rfl
    · rfl
    · exact hup
  | right =>
    unfold keypress
    dsimp only
    split_ifs
    · split
      · rfl
      · split
        · rfl
        · split_ifs
          · exact hc _
          · rfl
    · rfl
    · rfl
    · exact hdown

theorem nextloop_single {K : Type} (L : Layout) (x : Item K) (h : admitsItem L x) (pos : Nat) :
    nextloop L [x] 0 pos = none := by
  unfold admitsItem at h
  unfold nextloop
  rw [if_neg h]
  rfl

/-- Whatever the layout, `next` is a node at or after `curr`. -/
theorem nextloop_lt {K : Type} (L : Layout) :
    ∀ (l : List (Item K)) (i : Int) (pos j : Nat), nextloop L l i pos = some j →
      pos ≤ j ∧ j < pos + l.length
  | [], _, _, _, h => by simp [nextloop] at h
  | x :: rest, i, pos, j, h => by
    unfold nextloop at h
    split_ifs at h
    · simp only [Option.some.injEq] at h
      simp only [List.length_cons]
      omega
    · have := nextloop_lt L rest _ (pos + 1) j h
      simp only [List.length_cons]
      omega

/-- After `calcoffsets` at a node the pointers are nodes, whatever the layout. -/
theorem calc_nodes {K : Type} (L : Layout) (m : Menu K) (c : Nat) (hcurr : m.curr = some c)
    (hc : c < m.matches_.length) :
    ∃ c1 p, (calcoffsets L m).curr = some c1 ∧ c1 < (calcoffsets L m).matches_.length ∧
      (calcoffsets L m).prev = some p ∧ p < (calcoffsets L m).matches_.length ∧
      ∀ j, (calcoffsets L m).next = some j → j < (calcoffsets L m).matches_.length := by
  obtain ⟨f1, f2, _, _, _⟩ := calcoffsets_frame L m
  obtain ⟨g1, g2⟩ := calcoffsets_some L m c hcurr
  rw [f1]
  refine ⟨c, _, by rw [f2, hcurr], hc, g2, ?_, ?_⟩
  · have := prevloop_le L (m.matches_.take c).reverse 0 c
    omega
  · intro j hj
    rw [g1] at hj
    have := nextloop_lt L _ _ _ _ hj
    rw [List.length_drop] at this
    omega

theorem nodesOK_calc {K : Type} (L : Layout) (m : Menu K) (c : Nat) (hcurr : m.curr = some c)
    (hc : c < m.matches_.length) : NodesOK (calcoffsets L m) :=
  fun _ => calc_nodes L m c hcurr hc

theorem nodesOK_congr {K : Type} (m m1 : Menu K)
    (h1 : m1.matches_ = m.matches_) (h2 : m1.prev = m.prev) (h3 : m1.curr = m.curr)
    (h4 : m1.next = m.next) (h : NodesOK m) : NodesOK m1 := by
  unfold NodesOK at h ⊢
  rw [h1, h2, h3, h4]
  exact h

theorem nodesOK_rebuild {K : Type} (L : Layout) (ms : List (Item K)) (text : CStr)
    (cursor : Nat) : NodesOK (rebuild L ms text cursor) := by
  unfold rebuild
  by_cases hms : ms = []
  · subst hms
    intro hne
    exact absurd (calcoffsets_frame L _).1 hne
  · exact nodesOK_calc L _ 0 ((headptr_eq ms).2 hms) (List.length_pos.mpr hms)

/-- The loop of the `XK_End` branch ends on a page without a next page whenever the
budget admits the items of the list, whatever else the layout is. -/
theorem endloop_stops {K : Type} (L : Layout) :
    ∀ (rest : List (Item K)) (m : Menu K) (c : Nat), m.curr = some c →
      c < m.matches_.length → rest = m.matches_.drop (c + 1) →
      m.next = nextloop L (m.matches_.drop c) 0 c →
      (∃ p, m.prev = some p ∧ p < m.matches_.length) →
      (∀ x ∈ m.matches_, admitsItem L x) →
      ∃ c1 p1, (endloop L rest m).curr = some c1 ∧ c1 < m.matches_.length ∧
        (endloop L rest m).prev = some p1 ∧ p1 < m.matches_.length ∧
        (endloop L rest m).next = none ∧ (endloop L rest m).matches_ = m.matches_
  | [], m, c, hcurr, hc, hrest, hnext, hprev, hadm => by
    have hdrop : m.matches_.drop c = [m.matches_.get ⟨c, hc⟩] := by
      rw [List.drop_eq_getElem_cons hc, ← hrest]
      rfl
    have hnone : m.next = none := by
      rw [hnext, hdrop]
      exact nextloop_single L _ (hadm _ (List.get_mem _ _ _)) c
    obtain ⟨p, hp1, hp2⟩ := hprev
    rw [endloop_of_none L [] m hnone]
    exact ⟨c, p, hcurr, hc, hp1, hp2, hnone, rfl⟩
  | x :: rest, m, c, hcurr, hc, hrest, hnext, hprev, hadm => by
    rcases option_cases m.next with hn | ⟨j, hn⟩
    · obtain ⟨p, hp1, hp2⟩ := hprev
      rw [endloop_of_none L _ m hn]
      exact ⟨c, p, hcurr, hc, hp1, hp2, hn, rfl⟩
    · rw [endloop_of_some L x rest m j hn]
      have hlen : c + 1 < m.matches_.length := by
        have := congrArg List.length hrest
        rw [List.length_drop] at this
        simp only [List.length_cons] at this
        omega
      have hrest2 : rest = m.matches_.drop (c + 1 + 1) := by
        have hd : m.matches_.drop (c + 1 + 1) = (m.matches_.drop (c + 1)).drop 1 := by
          rw [List.drop_drop]
        rw [hd, ← hrest]
        rfl
      have hcm : ({ m with curr := m.curr.map (fun c => c + 1) } : Menu K).curr =
          some (c + 1) := by
        show m.curr.map (fun c => c + 1) = some (c + 1)
        rw [hcurr]
        rfl
      obtain ⟨f1, f2, _, _, _⟩ :=
        calcoffsets_frame L { m with curr := m.curr.map (fun c => c + 1) }
      obtain ⟨g1, _⟩ := calcoffsets_some L { m with curr := m.curr.map (fun c => c + 1) }
        (c + 1) hcm
      obtain ⟨_, p2, _, _, k3, k4, _⟩ :=
        calc_nodes L { m with curr := m.curr.map (fun c => c + 1) } (c + 1) hcm hlen
      have f1' : (calcoffsets L { m with curr := m.curr.map (fun c => c + 1) }).matches_ =
          m.matches_ := f1
      have g1' : (calcoffsets L { m with curr := m.curr.map (fun c => c + 1) }).next =
          nextloop L (m.matches_.drop (c + 1)) 0 (c + 1) := g1
      obtain ⟨c1, p1, r1, r2, r3, r4, r5, r6⟩ := endloop_stops L rest
        (calcoffsets L { m with curr := m.curr.map (fun c => c + 1) }) (c + 1)
        (by rw [f2]; exact hcm)
        (by rw [f1']; exact hlen) (by rw [f1']; exact hrest2) (by rw [g1', f1'])
        ⟨p2, k3, k4⟩ (by rw [f1']; exact hadm)
      rw [f1'] at r2 r4 r6
      exact ⟨c1, p1, r1, r2, r3, r4, r5, r6⟩

/-- The `XK_End` branch with the text cursor at the end, for any layout whose budget
admits the items of the list. -/
theorem keyEnd_general {K : Type} (L : Layout) (m : Menu K) (hne : m.matches_ ≠ [])
    (hadm : ∀ x ∈ m.matches_, admitsItem L x) (hN : NodesOK m)
    (hcur : ¬ m.cursor < m.text.length) :
    ∃ c1 p1, (keypress L Key.endKey m).curr = some c1 ∧ c1 < m.matches_.length ∧
      (keypress L Key.endKey m).prev = some p1 ∧ p1 < m.matches_.length ∧
      (keypress L Key.endKey m).next = none ∧
      (keypress L Key.endKey m).sel = some (m.matches_.length - 1) ∧
      (keypress L Key.endKey m).matches_ = m.matches_ := by
  have hpos : 0 < m.matches_.length := List.length_pos.mpr hne
  have htail := (tailptr_eq m.matches_).2 hne
  obtain ⟨c, p0, h1, h2, h3, h4, _⟩ := hN hne
  rcases option_cases m.next with hn | ⟨j, hn⟩
  · rw [keyEnd_of_none L m hcur hn]
    exact ⟨c, p0, h1, h2, h3, h4, hn, htail, rfl⟩
  · rw [keyEnd_of_some L m hcur j hn]
    obtain ⟨a1, _, _, _, _⟩ := calcoffsets_frame L { m with curr := tailptr m.matches_ }
    obtain ⟨_, a4⟩ := calcoffsets_some L { m with curr := tailptr m.matches_ }
      (m.matches_.length - 1) htail
    have a1' : (calcoffsets L { m with curr := tailptr m.matches_ }).matches_ = m.matches_ := a1
    have a4' : (calcoffsets L { m with curr := tailptr m.matches_ }).prev =
        some (prevloop L (m.matches_.take (m.matches_.length - 1)).reverse 0
          (m.matches_.length - 1)) := a4
    have hpb := prevloop_le L (m.matches_.take (m.matches_.length - 1)).reverse 0
      (m.matches_.length - 1)
    generalize calcoffsets L { m with curr := tailptr m.matches_ } = a at a1' a4' ⊢
    generalize prevloop L (m.matches_.take (m.matches_.length - 1)).reverse 0
      (m.matches_.length - 1) = p at hpb a4'
    obtain ⟨b1, b2, _, _, _⟩ := calcoffsets_frame L { a with curr := a.prev }
    obtain ⟨b3, _⟩ := calcoffsets_some L { a with curr := a.prev } p a4'
    obtain ⟨_, p2, _, _, k3, k4, _⟩ := calc_nodes L { a with curr := a.prev } p a4'
      (by show p < a.matches_.length; rw [a1']; omega)
    have b1' : (calcoffsets L { a with curr := a.prev }).matches_ = m.matches_ := by
      rw [b1]
      exact a1'
    have b2' : (calcoffsets L { a with curr := a.prev }).curr = some p := by
      rw [b2]
      exact a4'
    have b3' : (calcoffsets L { a with curr := a.prev }).next =
        nextloop L (m.matches_.drop p) 0 p := by
      rw [b3]
      show nextloop L (a.matches_.drop p) 0 p = _
      rw [a1']
    generalize calcoffsets L { a with curr := a.prev } = b at b1' b2' b3' k3 k4 ⊢
    have hright : rightOf b.matches_ b.curr = b.matches_.drop (p + 1) := by
      rw [b2']
      rfl
    rw [hright]
    obtain ⟨c1, p1, r1, r2, r3, r4, r5, r6⟩ := endloop_stops L (b.matches_.drop (p + 1)) b p b2'
      (by rw [b1']; omega) rfl (by rw [b3', b1']) ⟨p2, k3, k4⟩ (by rw [b1']; exact hadm)
    have r6' : (endloop L (b.matches_.drop (p + 1)) b).matches_ = m.matches_ := r6.trans b1'
    rw [b1'] at r2 r4
    exact ⟨c1, p1, r1, r2, r3, r4, r5, htail, r6'⟩

theorem asInt_range (x : Int) : -2147483648 ≤ asInt x ∧ asInt x < 2147483648 := by
  unfold asInt
  split_ifs <;> omega

/-- With display widths below `2 ^ 31`, a budget that admits one item of the list
admits them all: in grid mode all items cost the same, and in strip mode the cost of
an item is capped at the budget. -/
theorem admits_all_of_one {K : Type} (L : Layout) (ms : List (Item K))
    (hw : ∀ x ∈ ms, L.textw x.text < 2147483648)
    (hone : ∃ x ∈ ms, admitsItem L x) : ∀ x ∈ ms, admitsItem L x := by
  obtain ⟨x0, hx0, h0⟩ := hone
  intro x hx
  unfold admitsItem itemcost at h0 ⊢
  by_cases hl : L.lines > 0
  · rw [if_pos hl] at h0 ⊢
    exact h0
  · rw [if_neg hl] at h0 ⊢
    have hr := asInt_range (budget L)
    have hb : budget L = asInt (budget L) := by
      unfold budget
      rw [if_neg hl]
      unfold asInt asUnsigned
      split_ifs <;> omega
    have hw0 : (L.textw x0.text : Int) < 2147483648 := by exact_mod_cast hw x0 hx0
    have hwx : (L.textw x.text : Int) < 2147483648 := by exact_mod_cast hw x hx
    have hn0 : (0 : Int) ≤ (L.textw x0.text : Int) := Int.ofNat_nonneg _
    have hnx : (0 : Int) ≤ (L.textw x.text : Int) := Int.ofNat_nonneg _
    rw [hb] at h0 ⊢
    unfold addcost TEXTW at h0 ⊢
    generalize asInt (budget L) = n at hr h0 ⊢
    generalize (L.textw x0.text : Int) = w0 at hw0 hn0 h0
    generalize (L.textw x.text : Int) = w at hwx hnx ⊢
    unfold asInt asUnsigned at h0 ⊢
    split_ifs at h0 ⊢ <;> omega

/-- Every navigation key keeps the pointers on the list, for any layout whose budget
admits the items of the list. -/
theorem keypress_nodes {K : Type} (L : Layout) (key : Key) (m : Menu K)
    (hadm : ∀ x ∈ m.matches_, admitsItem L x) (hN : NodesOK m) :
    NodesOK (keypress L key m) := by
  by_cases hne : m.matches_ = []
  · intro h
    rw [keypress_matches] at h
    exact absurd hne h
  obtain ⟨c, p, h1, h2, h3, h4, h5⟩ := hN hne
  have hup : NodesOK (keyUp L m) := by
    unfold keyUp
    split
    · exact hN
    · split_ifs
      · exact hN
      · exact nodesOK_calc L _ p h3 h4
      · exact nodesOK_congr m _ rfl rfl rfl rfl hN
  have hdown : NodesOK (keyDown L m) := by
    unfold keyDown
    split
    · exact hN
    · rename_i s _
      split_ifs with ha hb
      · exact nodesOK_calc L _ (s + 1) hb.symm ha
      · exact nodesOK_congr m _ rfl rfl rfl rfl hN
      · exact hN
  cases key with
  | home =>
    unfold keypress
    dsimp only
    split_ifs
    · exact nodesOK_congr m _ rfl rfl rfl rfl hN
    · exact nodesOK_calc L _ 0 ((headptr_eq m.matches_).2 hne) (List.length_pos.mpr hne)
  | endKey =>
    by_cases hcur : m.cursor < m.text.length
    · rw [keyEnd_of_cursor L m hcur]
      exact nodesOK_congr m _ rfl rfl rfl rfl hN
    · obtain ⟨c1, p1, r1, r2, r3, r4, r5, _, r7⟩ := keyEnd_general L m hne hadm hN hcur
      intro _
      rw [r7]
      refine ⟨c1, p1, r1, r2, r3, r4, ?_⟩
      intro j hj
      rw [r5] at hj
      exact absurd hj (by simp)
  | pageNext =>
    unfold keypress
    dsimp only
    rcases option_cases m.next with hn | ⟨j, hn⟩
    · rw [hn]
      exact hN
    · rw [if_pos (by rw [hn]; rfl)]
      exact nodesOK_calc L _ j hn (h5 j hn)
  | pagePrior =>
    unfold keypress
    dsimp only
    rw [if_pos (by rw [h3]; rfl)]
    exact nodesOK_calc L _ p h3 h4
  | up => exact hup
  | down => exact hdown
  | left =>
    unfold keypress
    dsimp only
    split_ifs
    · split
      · exact hN
      · split
        · exact hN
        · split_ifs
          · exact nodesOK_calc L _ p h3 h4
          · exact nodesOK_congr m _ rfl rfl rfl rfl hN
    · exact nodesOK_congr m _ rfl rfl rfl rfl hN
    · exact hN
    · exact hup
  | right =>
    unfold keypress
    dsimp only
    split_ifs
    · split
      · exact hN
      · rename_i s _
        split
        · exact hN
        · rename_i t off hrl
          obtain ⟨_, _, e3⟩ := rightloop_some m.matches_.length m.next L.lines s false t off hrl
          split_ifs with hoff
          · obtain ⟨j, hj, _, _⟩ : ∃ j, m.next = some j ∧ s < j ∧ j ≤ s + L.lines := by
              rcases e3.mp hoff with e | e
              · exact absurd e (by simp)
              · exact e
            exact nodesOK_calc L _ j hj (h5 j hj)
          · exact nodesOK_congr m _ rfl rfl rfl rfl hN
    · exact nodesOK_congr m _ rfl rfl rfl rfl hN
    · exact hN
    · exact hdown

theorem keys_nodes {K : Type} (L : Layout) :
    ∀ (keys : List Key) (m : Menu K), (∀ x ∈ m.matches_, admitsItem L x) → NodesOK m →
      NodesOK (keys.foldl (fun m k => keypress L k m) m) ∧
        (keys.foldl (fun m k => keypress L k m) m).matches_ = m.matches_
  | [], _, _, h => ⟨h, rfl⟩
  | k :: ks, m, hadm, h => by
    obtain ⟨a, b⟩ := keys_nodes L ks (keypress L k m)
      (by rw [keypress_matches]; exact hadm) (keypress_nodes L k m hadm h)
    exact ⟨a, b.trans (keypress_matches L k m)⟩

/-- In the grid of one line and 268435456 columns the budget is 0 and admits no item:
End right after a rebuild walks `curr` off the list. -/
theorem end_runs_off_gridWide :
    budget gridWide = 0 ∧
      (keypress gridWide Key.endKey (rebuild gridWide (fruitItems ℚ) [] 0)).curr = none := by
  decide

theorem keys_inv {K : Type} (L : Layout) (hA : Admits L) :
    ∀ (keys : List Key) (m : Menu K), WindowInv L m →
      WindowInv L (keys.foldl (fun m k => keypress L k m) m) ∧
        (keys.foldl (fun m k => keypress L k m) m).matches_ = m.matches_
  | [], _, h => ⟨h, rfl⟩
  | k :: ks, m, h => by
    obtain ⟨a, b⟩ := keys_inv L hA ks (keypress L k m) (keypress_inv L hA k m h)
    exact ⟨a, b.trans (keypress_matches L k m)⟩

theorem admits_gridOne : Admits gridOne := by
  unfold Admits InRange
  decide

theorem admits_stripWide : Admits stripWide := by
  unfold Admits InRange
  decide

/-- Claim C15, as stated, fails when the product `lines * columns * bh` leaves the
range of `unsigned int`. A grid of one line and 268435456 columns with rows 16 high
has `lines ≥ 1`, `columns ≥ 1` and `bh > 0`, but the budget that `calcoffsets`
computes is 0: right after a rebuild over the three fruit items `next` is `curr`, so
the highlighted item `sel = curr` does not lie before `next`. -/
theorem C15_counterexample :
    1 ≤ gridWide.lines ∧ 1 ≤ gridWide.columns ∧ 0 < gridWide.bh ∧ budget gridWide = 0 ∧
      (rebuild gridWide (fruitItems ℚ) [] 0).curr = some 0 ∧
      (rebuild gridWide (fruitItems ℚ) [] 0).next = some 0 ∧
      (rebuild gridWide (fruitItems ℚ) [] 0).sel = some 0 ∧
      ¬ PageOK (rebuild gridWide (fruitItems ℚ) [] 0) := by
  refine ⟨by decide, by decide, by decide, by decide, by decide, by decide, by decide, ?_⟩
  intro h
  obtain ⟨c, _, _, _, hlt⟩ := h.2.2.2 0 (by decide)
  exact absurd (hlt 0 (by decide)) (by decide)

/-- Claim C15, amended. Page-window invariant. When the budget admits at least one
item and lies in `[0, 2 ^ 30)`, so that no sum of `calcoffsets` leaves the range of
`int` (grid mode with at least one column, a positive row height and
`lines * columns * bh < 2 ^ 30`; strip mode with `0 ≤ n < 2 ^ 30`), the state right
after a match rebuild and the state after any sequence of navigation keys (Home,
End, Next, Prior, Up, Down, Left, Right) that follows it still has the rebuilt match
list and satisfies: `curr` is not null when the match list is not empty, `prev` and
`next` are null or positions of the match list, and `sel` is null or lies between
`curr` (included) and `next` (excluded, the end of the list when `next` is null). -/
theorem C15_page_window_invariant {K : Type} (L : Layout) (hA : Admits L)
    (ms : List (Item K)) (text : CStr) (cursor : Nat) (keys : List Key) :
    (rebuild L ms text cursor).matches_ = ms ∧ PageOK (rebuild L ms text cursor) ∧
      (keys.foldl (fun m k => keypress L k m) (rebuild L ms text cursor)).matches_ = ms ∧
      PageOK (keys.foldl (fun m k => keypress L k m) (rebuild L ms text cursor)) := by
  have h0 := windowInv_rebuild L hA ms text cursor
  have hm : (rebuild L ms text cursor).matches_ = ms := by
    unfold rebuild
    exact (calcoffsets_frame L _).1
  obtain ⟨a, b⟩ := keys_inv L hA keys _ h0
  exact ⟨hm, windowInv_pageOK L hA _ h0, b.trans hm, windowInv_pageOK L hA _ a⟩

/-- Witness of the amended C15: five keys on the fruit store in a grid of one line
and one column, and in a strip 800 units wide. -/
theorem C15_page_window_invariant_witness :
    Admits gridOne ∧
      PageOK ([Key.down, Key.pageNext, Key.endKey, Key.pagePrior, Key.up].foldl
        (fun m k => keypress gridOne k m) (rebuild gridOne (fruitItems ℚ) [] 0)) ∧
      Admits stripWide ∧
      PageOK ([Key.right, Key.pageNext, Key.endKey, Key.left, Key.home].foldl
        (fun m k => keypress stripWide k m) (rebuild stripWide (fruitItems ℚ) [] 0)) :=
  ⟨admits_gridOne,
    (C15_page_window_invariant gridOne admits_gridOne (fruitItems ℚ) [] 0
      [Key.down, Key.pageNext, Key.endKey, Key.pagePrior, Key.up]).2.2.2,
    admits_stripWide,
    (C15_page_window_invariant stripWide admits_stripWide (fruitItems ℚ) [] 0
      [Key.right, Key.pageNext, Key.endKey, Key.left, Key.home]).2.2.2⟩

/-- Claim C19. For every non-empty match list, every layout whose budget admits at
least one item of the list (display widths being below `2 ^ 31`) and every state
reached from a match rebuild by navigation keys: `curr` and `prev` are nodes of the
list; and the End key pressed in such a state with the text cursor at the end of the
query returns a state (the walk `while (next && (curr = curr->right))` is a
recursion over the items right of `curr`) in which the match list is unchanged,
`sel` is the list tail, `curr` is a node of the list at or before the tail, and
`next` is null, so the tail is on the visible page. The budget and the sums are
those of `calcoffsets` in 32-bit arithmetic; no bound on the layout is assumed. -/
theorem C19_end_selects_tail {K : Type} (L : Layout) (ms : List (Item K)) (hne : ms ≠ [])
    (hone : ∃ x ∈ ms, admitsItem L x) (hw : ∀ x ∈ ms, L.textw x.text < 2147483648) :
    (∀ (text : CStr) (cursor : Nat) (keys : List Key),
      (keys.foldl (fun m k => keypress L k m) (rebuild L ms text cursor)).matches_ = ms ∧
        NodesOK (keys.foldl (fun m k => keypress L k m) (rebuild L ms text cursor))) ∧
    (∀ m : Menu K, m.matches_ = ms → NodesOK m → ¬ m.cursor < m.text.length →
      (keypress L Key.endKey m).matches_ = ms ∧
        (keypress L Key.endKey m).sel = tailptr ms ∧
        (keypress L Key.endKey m).next = none ∧
        ∃ c, (keypress L Key.endKey m).curr = some c ∧ c ≤ ms.length - 1 ∧
          c < ms.length) := by
  have hall := admits_all_of_one L ms hw hone
  constructor
  · intro text cursor keys
    have hm : (rebuild L ms text cursor).matches_ = ms := by
      unfold rebuild
      exact (calcoffsets_frame L _).1
    obtain ⟨a, b⟩ := keys_nodes L keys (rebuild L ms text cursor)
      (by rw [hm]; exact hall) (nodesOK_rebuild L ms text cursor)
    exact ⟨b.trans hm, a⟩
  · intro m hm hN hcur
    subst hm
    obtain ⟨c1, _, h1, h2, _, _, h3, h4, h5⟩ := keyEnd_general L m hne hall hN hcur
    refine ⟨h5, ?_, h3, c1, h1, by omega, h2⟩
    rw [h4, (tailptr_eq m.matches_).2 hne]

/-- Witness of C19: End after Down, right after the rebuild over the fruit store in a
grid of one line and one column, where every page has one item. -/
theorem C19_end_selects_tail_witness :
    fruitItems ℚ ≠ [] ∧ (∃ x ∈ fruitItems ℚ, admitsItem gridOne x) ∧
      (keypress gridOne Key.down (rebuild gridOne (fruitItems ℚ) [] 0)).next = some 2 ∧
      (keypress gridOne Key.endKey
        (keypress gridOne Key.down (rebuild gridOne (fruitItems ℚ) [] 0))).sel =
          tailptr (fruitItems ℚ) ∧
      (keypress gridOne Key.endKey
        (keypress gridOne Key.down (rebuild gridOne (fruitItems ℚ) [] 0))).next = none :=
  ⟨List.ne_nil_of_length_pos (by decide),
    ⟨⟨"apple".toList, false, 0, 0⟩, List.mem_cons_self _ _, by unfold admitsItem; decide⟩,
    by decide,
    ((C19_end_selects_tail gridOne (fruitItems ℚ) (List.ne_nil_of_length_pos (by decide))
      ⟨⟨"apple".toList, false, 0, 0⟩, List.mem_cons_self _ _, by unfold admitsItem; decide⟩
      (by decide)).2
      (keypress gridOne Key.down (rebuild gridOne (fruitItems ℚ) [] 0)) rfl
      ((C19_end_selects_tail gridOne (fruitItems ℚ) (List.ne_nil_of_length_pos (by decide))
        ⟨⟨"apple".toList, false, 0, 0⟩, List.mem_cons_self _ _, by unfold admitsItem; decide⟩
        (by decide)).1 [] 0 [Key.down]).2
      (by decide)).2.1,
    ((C19_end_selects_tail gridOne (fruitItems ℚ) (List.ne_nil_of_length_pos (by decide))
      ⟨⟨"apple".toList, false, 0, 0⟩, List.mem_cons_self _ _, by unfold admitsItem; decide⟩
      (by decide)).2
      (keypress gridOne Key.down (rebuild gridOne (fruitItems ℚ) [] 0)) rfl
      ((C19_end_selects_tail gridOne (fruitItems ℚ) (List.ne_nil_of_length_pos (by decide))
        ⟨⟨"apple".toList, false, 0, 0⟩, List.mem_cons_self _ _, by unfold admitsItem; decide⟩
        (by decide)).1 [] 0 [Key.down]).2
      (by decide)).2.2.1⟩
end Dmenu
